import Mathlib

/-!
Verification of the scheduler core of `distributed/scheduler.py`.

Shallow embedding conventions:
* task keys and host names are `Nat`; a worker is a `(host, port)` pair;
* a Python dict is an association list (`Dict`) with unique keys, lookup
  returning the first match, assignment replacing in place, `del` removing
  the first match — mirroring insertion-ordered dict semantics;
* a Python set is a `List` used up to membership; construction is
  deterministic where CPython iteration order is implementation-defined;
* fallible operations (KeyError, AssertionError, ValueError) live in the
  `Except PyErr` monad;
* unbounded recursion in the source (DFS, cascading recursion) is embedded
  with explicit fuel; the caller supplies fuel ample for every input on
  which the Python code terminates.
-/

abbrev Key := Nat

abbrev Worker := Nat × Nat

inductive PyErr where
  | keyError
  | assertError
  | noValidWorkers
  | noWorkersFound
  | fuelExhausted
deriving Repr, DecidableEq

abbrev M (α : Type) := Except PyErr α

abbrev Dict (K V : Type) := List (K × V)

def dlookup {K V : Type} [DecidableEq K] : Dict K V → K → Option V
  | [], _ => none
  | (k0, v0) :: rest, k => if k0 = k then some v0 else dlookup rest k

def dlookupD {K V : Type} [DecidableEq K] (d : Dict K V) (k : K) (dflt : V) : V :=
  (dlookup d k).getD dflt

def dmem {K V : Type} [DecidableEq K] (d : Dict K V) (k : K) : Bool :=
  (dlookup d k).isSome

/-- Python dict assignment `d[k] = v`: replace in place, append if fresh. -/
def dset {K V : Type} [DecidableEq K] : Dict K V → K → V → Dict K V
  | [], k, v => [(k, v)]
  | (k0, v0) :: rest, k, v => if k0 = k then (k, v) :: rest else (k0, v0) :: dset rest k v

/-- Python `del d[k]`: drop the binding of `k`. Dict keys are unique, so
dropping every binding with that key is the same operation. -/
def derase {K V : Type} [DecidableEq K] (d : Dict K V) (k : K) : Dict K V :=
  d.filter (fun p => p.1 ≠ k)

def dkeys {K V : Type} (d : Dict K V) : List K := d.map Prod.fst

/-- Python `set.add` on a list-represented set. -/
def sadd {α : Type} [DecidableEq α] (s : List α) (x : α) : List α :=
  if x ∈ s then s else s ++ [x]

/-- Python `set.discard` / `with ignoring(KeyError): s.remove(x)`. -/
def sdiscard {α : Type} [DecidableEq α] (s : List α) (x : α) : List α :=
  s.filter (fun y => y ≠ x)

/-- Python `set.remove`: KeyError when the element is absent. -/
def sremove {α : Type} [DecidableEq α] (s : List α) (x : α) : M (List α) :=
  if x ∈ s then .ok (s.filter (fun y => y ≠ x)) else .error .keyError

def sunion {α : Type} [DecidableEq α] (s t : List α) : List α :=
  t.foldl sadd s

def pysdiff {α : Type} [DecidableEq α] (s t : List α) : List α :=
  s.filter (fun y => y ∉ t)

/-- Deduplication keeping the first occurrence (dict/set insertion order). -/
def pydedup {α : Type} [DecidableEq α] (l : List α) : List α :=
  l.foldl sadd []

/-- Monadic map used for loops that may raise. -/
def emapM {α β : Type} (f : α → M β) : List α → M (List β)
  | [] => .ok []
  | x :: xs =>
    match f x with
    | .error e => .error e
    | .ok y =>
      match emapM f xs with
      | .error e => .error e
      | .ok ys => .ok (y :: ys)

/-- Monadic fold used for stateful loops that may raise. -/
def efoldM {σ α : Type} (f : σ → α → M σ) : σ → List α → M σ
  | s, [] => .ok s
  | s, x :: xs =>
    match f s x with
    | .error e => .error e
    | .ok s' => efoldM f s' xs

def efilterM {α : Type} (p : α → M Bool) : List α → M (List α)
  | [] => .ok []
  | x :: xs =>
    match p x with
    | .error e => .error e
    | .ok b =>
      match efilterM p xs with
      | .error e => .error e
      | .ok ys => .ok (if b then x :: ys else ys)

/-- Stable insertion into a list sorted by the boolean relation `le`. -/
def sinsert {α : Type} (le : α → α → Bool) (x : α) : List α → List α
  | [] => [x]
  | y :: ys => if le x y then x :: y :: ys else y :: sinsert le x ys

/-- Stable insertion sort: Python's `sorted` (stable) for a total `le`. -/
def ssort {α : Type} (le : α → α → Bool) : List α → List α
  | [] => []
  | x :: xs => sinsert le x (ssort le xs)

/-- Strict lexicographic order on workers: Python tuple comparison. -/
def wltB (a b : Worker) : Bool :=
  a.1 < b.1 || (a.1 = b.1 && a.2 < b.2)

def wleB (a b : Worker) : Bool :=
  a = b || wltB a b

/-- Strict order on (stack length, worker) pairs used by the final `min`. -/
def slLt (a b : Worker × Nat) : Bool :=
  a.2 < b.2 || (a.2 = b.2 && wltB a.1 b.1)

/-- `min` over a nonempty list of `(worker, stack length)` pairs, keyed by the
length with ties on the worker. CPython's `min` over an unordered set with a
key function returns an arbitrary minimal-key element; the embedding
determinizes the choice with the natural order on the worker identity. -/
def pymin_stacklen : List (Worker × Nat) → Option Worker
  | [] => none
  | p :: ps => some ((ps.foldl (fun b q => if slLt q b then q else b) p).1)

/-- `min` over a nonempty list of naturals. -/
def minList : List Nat → Nat
  | [] => 0
  | x :: xs => xs.foldl Nat.min x

/- ======================= decide_worker ======================= -/

/-- `commbytes(w)` for one candidate: bytes of dependencies the worker does
not already hold (`nbytes[k] for k in dependencies[key] if w not in who_has[k]`).
`who_has` is the scheduler's defaultdict, so a missing key reads as the empty
set; a missing `nbytes` entry is a KeyError. -/
def dw_commbytes (who_has : Dict Key (List Worker)) (nbytes : Dict Key Nat)
    (deps : List Key) (w : Worker) : M Nat :=
  efoldM (fun acc k =>
    if w ∈ dlookupD who_has k [] then .ok acc
    else match dlookup nbytes k with
      | some n => .ok (acc + n)
      | none => .error .keyError) 0 deps

/-- Workers appearing in `who_has` of some dependency, in first-seen order
(the keys of `frequencies(w for dep in deps for w in who_has[dep])`). -/
def dw_candidates (who_has : Dict Key (List Worker)) (deps : List Key) : List Worker :=
  pydedup (deps.flatMap (fun d => dlookupD who_has d []))

def dw_stack_workers (stacks' : Dict Worker (List Key)) : List Worker :=
  dkeys stacks'

/-- Tail of `decide_worker` after candidate selection: raise when no workers,
compute `commbytes`, keep the minimal ones, then take the worker with the
shortest stack. -/
def dw_tail (stacks' : Dict Worker (List Key)) (who_has : Dict Key (List Worker))
    (nbytes : Dict Key Nat) (deps : List Key) (workers : List Worker) : M Worker :=
  if workers.isEmpty || stacks'.isEmpty then .error .noWorkersFound
  else
    match emapM (fun w =>
        match dw_commbytes who_has nbytes deps w with
        | .error e => .error e
        | .ok n => .ok (w, n)) workers with
    | .error e => .error e
    | .ok cbs =>
      let minbytes := minList (cbs.map Prod.snd)
      let cands := (cbs.filter (fun p => p.2 = minbytes)).map Prod.fst
      match emapM (fun w =>
          match dlookup stacks' w with
          | some l => .ok (w, l.length)
          | none => .error .keyError) cands with
      | .error e => .error e
      | .ok lens =>
        match pymin_stacklen lens with
        | some w => .ok w
        | none => .error .noWorkersFound

/-- The unrestricted candidate pool: workers holding some dependency, or the
whole worker set (`stacks`) when no dependency is held anywhere. -/
def dw_workers0 (who_has : Dict Key (List Worker)) (stacks' : Dict Worker (List Key))
    (deps : List Key) : List Worker :=
  if (dw_candidates who_has deps).isEmpty then dw_stack_workers stacks'
  else dw_candidates who_has deps

/-- `decide_worker(dependencies, stacks, who_has, restrictions,
loose_restrictions, nbytes, key)`. The recursive retry for a loose key with
an unsatisfiable restriction is the unrestricted run on the same inputs, so
it is inlined as `dw_tail` on the unrestricted worker set. -/
def decide_worker (dependencies : Dict Key (List Key)) (stacks' : Dict Worker (List Key))
    (who_has : Dict Key (List Worker)) (restrictions : Dict Key (List Nat))
    (loose_restrictions : List Key) (nbytes : Dict Key Nat) (key : Key) : M Worker :=
  match dlookup dependencies key with
  | none => .error .keyError
  | some deps =>
    let workers := dw_workers0 who_has stacks' deps
    match dlookup restrictions key with
    | none => dw_tail stacks' who_has nbytes deps workers
    | some r =>
      let ws1 := workers.filter (fun w => w.1 ∈ r)
      if ws1.isEmpty then
        let ws2 := (dw_stack_workers stacks').filter (fun w => w.1 ∈ r)
        if ws2.isEmpty then
          if key ∈ loose_restrictions then dw_tail stacks' who_has nbytes deps workers
          else .error .noValidWorkers
        else dw_tail stacks' who_has nbytes deps ws2
      else dw_tail stacks' who_has nbytes deps ws1

/- ======================= scheduler state ======================= -/

/-- A dask task: a literal value, a bare key reference (alias), or an
application node; for an application node only the key references appearing
in it matter to the scheduler, so the embedding keeps just those. -/
inductive PyTask where
  | lit (v : Nat)
  | ref (k : Key)
  | app (refs : List Key)
deriving Repr, DecidableEq

/-- Messages published through `Scheduler.report`. -/
inductive Report where
  | key_in_memory (k : Key) (ws : List Worker)
  | task_erred (k : Key) (exc tb : Nat)
  | lost_key (k : Key)
deriving Repr, DecidableEq

/-- The scheduler's mutable state (`Scheduler.__init__`). `stacks` is called
`stacks'` because `stacks` is a reserved token in this Lean environment.
`reports` collects messages published to report queues; `msgs` collects the
`compute-task` messages put on worker queues (worker, key); `rr_offset` is the
process-wide `_round_robin` cell. defaultdict reads (`who_has`, `has_what`,
`deleted_keys`) are modelled as defaulted lookups; CPython additionally
inserts the default value on read, which only creates empty-set entries that
none of the verified properties observe. -/
structure SchedState where
  dask : Dict Key PyTask
  dependencies : Dict Key (List Key)
  dependents : Dict Key (List Key)
  waiting : Dict Key (List Key)
  waiting_data : Dict Key (List Key)
  ncores : Dict Worker Nat
  nannies : Dict Worker Nat
  who_has : Dict Key (List Worker)
  has_what : Dict Worker (List Key)
  processing : Dict Worker (List Key)
  stacks' : Dict Worker (List Key)
  restrictions : Dict Key (List Nat)
  loose_restrictions : List Key
  held_data : List Key
  in_play : List Key
  keyorder : Dict Key (Nat × Nat)
  nbytes : Dict Key Nat
  exceptions : Dict Key Nat
  tracebacks : Dict Key Nat
  exceptions_blame : Dict Key Key
  deleted_keys : Dict Worker (List Key)
  worker_queues : List Worker
  generation : Nat
  reports : List Report
  msgs : List (Worker × Key)
  rr_offset : Nat
deriving Repr, DecidableEq

/-- The empty scheduler state (`Scheduler.__init__` with no center). -/
def initState : SchedState :=
  ⟨[], [], [], [], [], [], [], [], [], [], [], [], [], [], [], [], [], [], [], [],
   [], [], 0, [], [], 0⟩

/- ======================= ensure_occupied ======================= -/

/-- One `while` pass of `ensure_occupied`: pop from the stack (LIFO) while the
worker has free cores, moving keys into `processing` and emitting a
compute-task message built from `dask[key]` and the dependencies. The fuel
decreases with each pop; the wrapper supplies one unit more than the stack
length, so exhaustion is unreachable. -/
def ensure_occupied_loop : Nat → Worker → SchedState → M SchedState
  | 0, _, s => .ok s
  | fuel+1, w, s =>
    match dlookup s.stacks' w with
    | none => .error .keyError
    | some st =>
      match dlookup s.ncores w with
      | none => .error .keyError
      | some nc =>
        match dlookup s.processing w with
        | none => .error .keyError
        | some pr =>
          if st.isEmpty || !(decide (pr.length < nc)) then .ok s
          else
            match st.getLast? with
            | none => .ok s
            | some key =>
              match dlookup s.dask key with
              | none => .error .keyError
              | some _task =>
                match dlookup s.dependencies key with
                | none => .error .keyError
                | some _deps =>
                  ensure_occupied_loop fuel w
                    { s with stacks' := dset s.stacks' w st.dropLast,
                             processing := dset s.processing w (sadd pr key),
                             msgs := s.msgs ++ [(w, key)] }

def ensure_occupied (w : Worker) (s : SchedState) : M SchedState :=
  ensure_occupied_loop ((dlookupD s.stacks' w []).length + 1) w s

/- ======================= delete_data ======================= -/

/-- `Scheduler.delete_data`: move each key out of `who_has`/`has_what` into
the pending `deleted_keys` map, drop its `waiting_data` entry and remove it
from `in_play`. `has_what[worker].remove(key)` raises when the key is not
recorded there. -/
def delete_data (keys : List Key) (s : SchedState) : M SchedState :=
  efoldM (fun s1 key =>
    match efoldM (fun s2 worker =>
        if key ∈ dlookupD s2.has_what worker [] then
          .ok { s2 with
                has_what := dset s2.has_what worker
                  (sdiscard (dlookupD s2.has_what worker []) key),
                deleted_keys := dset s2.deleted_keys worker
                  (sadd (dlookupD s2.deleted_keys worker []) key) }
        else .error .keyError) s1 (dlookupD s1.who_has key []) with
    | .error e => .error e
    | .ok s3 =>
      .ok { s3 with who_has := derase s3.who_has key,
                    waiting_data := derase s3.waiting_data key,
                    in_play := sdiscard s3.in_play key }) s keys

/- ======================= mark_ready_to_run ======================= -/

/-- `Scheduler.mark_ready_to_run`: assert the waiting entry (if any) is
drained and delete it, pick a worker with `decide_worker`, push the key on
its stack and run `ensure_occupied`. -/
def mark_ready_to_run (key : Key) (s : SchedState) : M SchedState :=
  match (match dlookup s.waiting key with
         | some v => if v = [] then .ok { s with waiting := derase s.waiting key }
                     else .error .assertError
         | none => .ok s : M SchedState) with
  | .error e => .error e
  | .ok s1 =>
    match decide_worker s1.dependencies s1.stacks' s1.who_has s1.restrictions
        s1.loose_restrictions s1.nbytes key with
    | .error e => .error e
    | .ok w =>
      match dlookup s1.stacks' w with
      | none => .error .keyError
      | some st =>
        ensure_occupied w { s1 with stacks' := dset s1.stacks' w (st ++ [key]) }

/- ======================= mark_key_in_memory ======================= -/

/-- `≤` on optional `keyorder` values, `None` (a missing entry) smallest, as
in Python 2 where `None` compares below every tuple. -/
def optPairLe : Option (Nat × Nat) → Option (Nat × Nat) → Bool
  | none, _ => true
  | some _, none => false
  | some x, some y => x.1 < y.1 || (x.1 = y.1 && x.2 ≤ y.2)

/-- `Scheduler.mark_key_in_memory(key, workers)`: record residency on each
worker, drop the key from their `processing`, drain `waiting` of dependents
in `keyorder`-descending order (launching those that become runnable), drain
`waiting_data` of dependencies (collecting those that become garbage), then
report `key-in-memory`. -/
def mark_key_in_memory (key : Key) (workersArg : Option (List Worker))
    (s : SchedState) : M SchedState :=
  let ws := match workersArg with
            | some l => l
            | none => dlookupD s.who_has key []
  let s1 := ws.foldl (fun st worker =>
    { st with
      who_has := dset st.who_has key (sadd (dlookupD st.who_has key []) worker),
      has_what := dset st.has_what worker (sadd (dlookupD st.has_what worker []) key),
      processing := match dlookup st.processing worker with
                    | some pr => dset st.processing worker (sdiscard pr key)
                    | none => st.processing }) s
  let deps_ts := ssort (fun a b => optPairLe (dlookup s1.keyorder b) (dlookup s1.keyorder a))
      (dlookupD s1.dependents key [])
  match efoldM (fun st dep =>
      match dlookup st.waiting dep with
      | none => .ok st
      | some sw =>
        let sw' := sdiscard sw key
        let st' := { st with waiting := dset st.waiting dep sw' }
        if sw' = [] then mark_ready_to_run dep st' else .ok st') s1 deps_ts with
  | .error e => .error e
  | .ok s2 =>
    match efoldM (fun st dep =>
        match dlookup st.waiting_data dep with
        | none => .ok st
        | some sw =>
          let sw' := sdiscard sw key
          let st' := { st with waiting_data := dset st.waiting_data dep sw' }
          if sw' = [] ∧ dep ≠ 0 ∧ dep ∉ st'.held_data then delete_data [dep] st'
          else .ok st') s2 (dlookupD s2.dependencies key []) with
    | .error e => .error e
    | .ok s3 => .ok { s3 with reports := s3.reports ++ [.key_in_memory key ws] }

/- ======================= mark_task_finished ======================= -/

/-- `Scheduler.mark_task_finished(key, worker, nbytes)`: guarded by
`key ∈ processing[worker]`; on success record the byte size, mark the key in
memory on that worker and refill the worker's cores; otherwise only log. -/
def mark_task_finished (key : Key) (worker : Worker) (nb : Nat)
    (s : SchedState) : M SchedState :=
  match dlookup s.processing worker with
  | none => .error .keyError
  | some pr =>
    if key ∈ pr then
      match mark_key_in_memory key (some [worker]) { s with nbytes := dset s.nbytes key nb } with
      | .error e => .error e
      | .ok s2 => ensure_occupied worker s2
    else .ok s

/- ======================= mark_failed ======================= -/

/-- `Scheduler.mark_failed(key, failing_key)`: return if already blamed;
otherwise record blame, report `task-erred` (reading the failing key's
exception and traceback), drop the key from `waiting`, `waiting_data` and
`in_play` (a KeyError if not in play), and recurse into every dependent.
Recursion is fuelled; the Python code would recurse forever on a cyclic
`dependents` graph. -/
def mark_failed : Nat → Key → Key → SchedState → M SchedState
  | 0, _, _, _ => .error .fuelExhausted
  | fuel+1, key, failing_key, s =>
    if dmem s.exceptions_blame key then .ok s
    else
      match dlookup s.exceptions failing_key, dlookup s.tracebacks failing_key with
      | some exc, some tb =>
        let s2 : SchedState :=
          { s with exceptions_blame := dset s.exceptions_blame key failing_key,
                   reports := s.reports ++ [.task_erred key exc tb],
                   waiting := derase s.waiting key,
                   waiting_data := derase s.waiting_data key }
        match sremove s2.in_play key with
        | .error e => .error e
        | .ok ip =>
          match dlookup s2.dependents key with
          | none => .error .keyError
          | some deps =>
            efoldM (fun st dep => mark_failed fuel dep failing_key st)
              { s2 with in_play := ip } deps
      | _, _ => .error .keyError

/-- Fuel ample for `mark_failed` on any acyclic `dependents` graph: the
recursion depth is bounded by the number of keys. -/
def mark_failed_fuel (s : SchedState) : Nat := s.dependents.length + 1

/- ======================= mark_task_erred ======================= -/

/-- `Scheduler.mark_task_erred(key, worker, exception, traceback)`: guarded by
`key ∈ processing[worker]`; remove it, record the exception, cascade the
failure with `mark_failed(key, key)` and refill the worker. -/
def mark_task_erred (key : Key) (worker : Worker) (exc tb : Nat)
    (s : SchedState) : M SchedState :=
  match dlookup s.processing worker with
  | none => .error .keyError
  | some pr =>
    if key ∈ pr then
      let s1 : SchedState :=
        { s with processing := dset s.processing worker (sdiscard pr key),
                 exceptions := dset s.exceptions key exc,
                 tracebacks := dset s.tracebacks key tb }
      match mark_failed (mark_failed_fuel s1) key key s1 with
      | .error e => .error e
      | .ok s2 => ensure_occupied worker s2
    else .ok s

/- ======================= dictionary lemmas ======================= -/

lemma dlookup_dset_self {K V : Type} [DecidableEq K] (d : Dict K V) (k : K) (v : V) :
    dlookup (dset d k v) k = some v := by
  induction d with
  | nil => simp [dset, dlookup]
  | cons p rest ih =>
    obtain ⟨k0, v0⟩ := p
    by_cases h : k0 = k
    · subst h
      simp [dset, dlookup]
    · simp [dset, dlookup, h, ih]

lemma dlookup_dset_ne {K V : Type} [DecidableEq K] (d : Dict K V) (k : K) (v : V)
    (x : K) (h : ¬ k = x) : dlookup (dset d k v) x = dlookup d x := by
  induction d with
  | nil => simp [dset, dlookup, h]
  | cons p rest ih =>
    obtain ⟨k0, v0⟩ := p
    by_cases h0 : k0 = k
    · subst h0
      simp [dset, dlookup, h]
    · simp [dset, dlookup, h0, ih]

lemma dlookup_derase_self {K V : Type} [DecidableEq K] (d : Dict K V) (k : K) :
    dlookup (derase d k) k = none := by
  induction d with
  | nil => rfl
  | cons p rest ih =>
    obtain ⟨k0, v0⟩ := p
    simp only [derase, List.filter_cons] at ih ⊢
    by_cases h0 : k0 = k
    · simpa [h0] using ih
    · simpa [h0, dlookup] using ih

lemma dlookup_derase_ne {K V : Type} [DecidableEq K] (d : Dict K V) (k x : K)
    (h : ¬ k = x) : dlookup (derase d k) x = dlookup d x := by
  induction d with
  | nil => rfl
  | cons p rest ih =>
    obtain ⟨k0, v0⟩ := p
    simp only [derase, List.filter_cons] at ih ⊢
    by_cases h0 : k0 = k
    · subst h0
      have h1 : ¬ k0 = x := h
      simp only [dlookup, if_neg h1]
      simpa using ih
    · by_cases h1 : k0 = x
      · subst h1
        simp only [dlookup]
        simp only [show (decide (k0 ≠ k) = true) from by simp [h0], if_true]
        simp [dlookup]
      · simp only [dlookup]
        simp only [show (decide (k0 ≠ k) = true) from by simp [h0], if_true]
        simp only [dlookup, if_neg h1]
        simpa using ih

lemma dmem_eq_isSome {K V : Type} [DecidableEq K] (d : Dict K V) (k : K) :
    dmem d k = (dlookup d k).isSome := rfl

/- ======================= efoldM lemmas ======================= -/

lemma efoldM_pres {σ α : Type} {f : σ → α → M σ} {P : σ → Prop}
    (hf : ∀ st a st', f st a = .ok st' → P st → P st') :
    ∀ {l : List α} {s s' : σ}, efoldM f s l = .ok s' → P s → P s' := by
  intro l
  induction l with
  | nil => intro s s' h hp; simp [efoldM] at h; subst h; exact hp
  | cons x xs ih =>
    intro s s' h hp
    simp only [efoldM] at h
    cases hx : f s x with
    | error e => rw [hx] at h; exact absurd h (by simp)
    | ok s1 =>
      rw [hx] at h
      exact ih h (hf s x s1 hx hp)

lemma efoldM_append {σ α : Type} {f : σ → α → M σ} :
    ∀ {l1 l2 : List α} {s s' : σ},
      efoldM f s (l1 ++ l2) = .ok s' ↔
      ∃ mid, efoldM f s l1 = .ok mid ∧ efoldM f mid l2 = .ok s' := by
  intro l1
  induction l1 with
  | nil => intro l2 s s'; simp [efoldM]
  | cons x xs ih =>
    intro l2 s s'
    simp only [List.cons_append, efoldM]
    cases hx : f s x with
    | error e => simp
    | ok s1 => exact ih

/-- Concrete state for the error-cascade scenario: graph
`{a:(bad,), b:(f,'a'), c:(f,'b')}` with output keys `{c}` (keys `a,b,c` are
`1,2,3`), one single-core worker `(0,8000)` currently executing `a`. -/
def errCascadeState : SchedState :=
  { initState with
    dask := [(1, .app []), (2, .app [1]), (3, .app [2])],
    dependencies := [(1, []), (2, [1]), (3, [2])],
    dependents := [(1, [2]), (2, [3]), (3, [])],
    waiting := [(2, [1]), (3, [2])],
    waiting_data := [(1, [2]), (2, [3]), (3, [])],
    ncores := [((0, 8000), 1)],
    nannies := [((0, 8000), 0)],
    has_what := [((0, 8000), [])],
    processing := [((0, 8000), [1])],
    stacks' := [((0, 8000), [])],
    held_data := [3],
    in_play := [1, 2, 3],
    keyorder := [(1, (0, 2)), (2, (0, 1)), (3, (0, 0))],
    worker_queues := [(0, 8000)] }

/-- Invariant used for the replay argument of `mark_task_finished`: the key
appears in no stack and not in `processing[w]`, whose entry exists. -/
def replayInv (key : Key) (w : Worker) (st : SchedState) : Prop :=
  (∀ p ∈ st.stacks', key ∉ p.2) ∧
  (∀ pr, dlookup st.processing w = some pr → key ∉ pr) ∧
  (dlookup st.processing w).isSome = true

/- ======================= update_state ======================= -/

/-- Modelled from the spec: `_deps(d, task)` (from `distributed/utils.py`,
which is not among the sources) scans a task for key references, recursively
through nested application nodes, and keeps those that are keys of the
mapping `d` (spec section 4.3 step 2). -/
def pydeps (dom : List Key) : PyTask → List Key
  | .lit _ => []
  | .ref k => if k ∈ dom then [k] else []
  | .app refs => refs.filter (fun k => k ∈ dom)

/-- `d in who_has and who_has[d]`: the key is recorded with a non-empty
worker set. -/
def in_memory_wh (who_has : Dict Key (List Worker)) (d : Key) : Bool :=
  dmem who_has d && !(dlookupD who_has d []).isEmpty

/-- The work-list loop of `keys_outside_frontier`: pop a key, skip it when
already collected or inside the frontier, otherwise collect it and push its
dependencies. Fuel-driven; the wrapper passes fuel ample for every input on
which the Python loop terminates. -/
def kof_loop (dependencies : Dict Key (List Key)) (frontier : List Key) :
    Nat → List Key → List Key → M (List Key)
  | 0, [], result => .ok result
  | 0, _ :: _, _ => .error .fuelExhausted
  | _+1, [], result => .ok result
  | fuel+1, x :: rest, result =>
    if x ∈ result || x ∈ frontier then kof_loop dependencies frontier fuel rest result
    else
      match dlookup dependencies x with
      | none => .error .keyError
      | some ds => kof_loop dependencies frontier fuel (ds ++ rest) (result ++ [x])

def kof_fuel (dependencies : Dict Key (List Key)) (keys : List Key) : Nat :=
  keys.length + (dependencies.map (fun p => p.2.length)).sum + dependencies.length + 1

/-- `keys_outside_frontier(dsk, dependencies, keys, frontier)`: all keys
needed to compute `keys` that lie outside the frontier (reverse DFS through
`dependencies`, pruned at the frontier). -/
def keys_outside_frontier (_dsk : Dict Key PyTask)
    (dependencies : Dict Key (List Key)) (keys : List Key) (frontier : List Key) :
    M (List Key) :=
  kof_loop dependencies frontier (kof_fuel dependencies keys) (pysdiff keys frontier) []

/-- Result of `update_state`: the collections the Python function returns,
plus `in_play`, which it extends in place. -/
structure UpdateStateResult where
  dsk : Dict Key PyTask
  dependencies : Dict Key (List Key)
  dependents : Dict Key (List Key)
  held_data : List Key
  waiting : Dict Key (List Key)
  waiting_data : Dict Key (List Key)
  in_play : List Key
deriving Repr, DecidableEq

/-- The dependency-derivation loop of `update_state`: for each new key not
already in `dependencies`, record `set(_deps(dsk, task) + _deps(held_data,
task))` and add the key to each dependency's `dependents`, defaulting both
entries to the empty set. -/
def us_derive (dsk1 : Dict Key PyTask) (held_data : List Key)
    (new_dsk : Dict Key PyTask)
    (dependencies dependents : Dict Key (List Key)) :
    Dict Key (List Key) × Dict Key (List Key) :=
  new_dsk.foldl (fun pr p =>
    if dmem pr.1 p.1 then pr
    else
      let deps := pydeps (dkeys dsk1) p.2 ++ pydeps held_data p.2
      let dependencies1 := dset pr.1 p.1 (pydedup deps)
      let dependents1 := deps.foldl (fun dd dep =>
        if dmem dd dep then dset dd dep (sadd (dlookupD dd dep []) p.1)
        else dset dd dep (sadd [] p.1)) pr.2
      let dependents2 := if dmem dependents1 p.1 then dependents1
                         else dset dependents1 p.1 []
      (dependencies1, dependents2)) (dependencies, dependents)

/-- The per-exterior-key loop of `update_state`: set
`waiting[k] = {d in deps(k) : d not in memory}` and add `k` to
`waiting_data[d]` for every dependency `d`, defaulting `waiting_data[k]`
to the empty set. -/
def us_frontier_step (deps1 : Dict Key (List Key))
    (who_has : Dict Key (List Worker))
    (wp : Dict Key (List Key) × Dict Key (List Key)) (k : Key) :
    M (Dict Key (List Key) × Dict Key (List Key)) :=
  match dlookup deps1 k with
  | none => .error .keyError
  | some deps =>
    let waiting1 := dset wp.1 k (deps.filter (fun d => !(in_memory_wh who_has d)))
    let wd1 := deps.foldl (fun wd dep =>
      if dmem wd dep then dset wd dep (sadd (dlookupD wd dep []) k)
      else dset wd dep (sadd [] k)) wp.2
    let wd2 := if dmem wd1 k then wd1 else dset wd1 k []
    .ok (waiting1, wd2)

/-- `update_state(dsk, dependencies, dependents, held_data, who_has,
in_play, waiting, waiting_data, new_dsk, new_keys)`. -/
def update_state (dsk : Dict Key PyTask) (dependencies dependents : Dict Key (List Key))
    (held_data : List Key) (who_has : Dict Key (List Worker)) (in_play : List Key)
    (waiting waiting_data : Dict Key (List Key)) (new_dsk : Dict Key PyTask)
    (new_keys : List Key) : M UpdateStateResult :=
  let dsk1 := new_dsk.foldl (fun d p => dset d p.1 p.2) dsk
  let pr := us_derive dsk1 held_data new_dsk dependencies dependents
  match keys_outside_frontier dsk1 pr.1 new_keys in_play with
  | .error e => .error e
  | .ok exterior =>
    match efoldM (us_frontier_step pr.1 who_has) (waiting, waiting_data) exterior with
    | .error e => .error e
    | .ok wp =>
      .ok ⟨dsk1, pr.1, pr.2, sunion held_data new_keys, wp.1, wp.2,
           sunion in_play exterior⟩

/-- Reachability through `dependencies` from `keys`, pruned at (and
excluding) the `frontier` — the set `keys_outside_frontier` computes. -/
inductive ReachOut (dependencies : Dict Key (List Key)) (keys frontier : List Key) :
    Key → Prop where
  | base (k : Key) : k ∈ keys → k ∉ frontier → ReachOut dependencies keys frontier k
  | step (x d : Key) (ds : List Key) : ReachOut dependencies keys frontier x →
      dlookup dependencies x = some ds → d ∈ ds → d ∉ frontier →
      ReachOut dependencies keys frontier d

/- ======================= heal / validate_state ======================= -/

/-- Work-list form of `heal`'s memoized `make_accessible`: visit keys from
the outputs through `dependencies`, not expanding keys in memory (they are
visited — removed from `new_released` — but not recursed into). Visited
keys lacking a `dependencies` entry are a KeyError, as in the source. -/
def heal_visit_loop (dependencies : Dict Key (List Key)) (in_memory : List Key) :
    Nat → List Key → List Key → M (List Key)
  | 0, [], visited => .ok visited
  | 0, _ :: _, _ => .error .fuelExhausted
  | _+1, [], visited => .ok visited
  | fuel+1, x :: rest, visited =>
    if x ∈ visited then heal_visit_loop dependencies in_memory fuel rest visited
    else if x ∈ in_memory then
      heal_visit_loop dependencies in_memory fuel rest (visited ++ [x])
    else
      match dlookup dependencies x with
      | none => .error .keyError
      | some ds => heal_visit_loop dependencies in_memory fuel (ds ++ rest) (visited ++ [x])

def heal_visit_fuel (dependencies : Dict Key (List Key)) (outputs : List Key) : Nat :=
  outputs.length + (dependencies.map (fun p => p.2.length)).sum + dependencies.length + 1

/-- `validate_state(...)`: reachable keys from the outputs are checked
against the mutual-exclusion, released/in-play, memory and stack/processing
conditions; a missing `dependencies` entry on the way is a KeyError, any
failed condition an assertion error. The memoized `check_key` recursion is
embedded as the reachability work list (`kof_loop` with empty frontier)
followed by the per-key checks. -/
def validate_state (dependencies dependents waiting _waiting_data : Dict Key (List Key))
    (in_memory : List Key) (stacks' processing : Dict Worker (List Key))
    (finished_results : Option (List Key)) (released in_play : List Key)
    (allow_overlap : Bool) : M Unit :=
  let in_stacks := stacks'.flatMap (fun p => p.2)
  let in_processing := processing.flatMap (fun p => p.2)
  let keys := (dependents.filter (fun p => p.2.isEmpty)).map Prod.fst
  match kof_loop dependencies [] (kof_fuel dependencies keys) keys [] with
  | .error e => .error e
  | .ok reach =>
    let check : Key → Bool := fun key =>
      let val := (if dmem waiting key then 1 else 0) + (if key ∈ in_stacks then 1 else 0) +
        (if key ∈ in_processing then 1 else 0) + (if key ∈ in_memory then 1 else 0) +
        (if key ∈ released then 1 else 0)
      (if allow_overlap then decide (1 ≤ val) else decide (val = 1)) &&
      !(decide (key ∈ released) == decide (key ∈ in_play)) &&
      (!(decide (key ∈ in_memory)) ||
        ((dlookupD dependents key []).all (fun dep => key ∉ dlookupD waiting dep []) &&
         (dlookupD waiting key []).isEmpty)) &&
      (!(decide (key ∈ in_stacks ∨ key ∈ in_processing)) ||
        ((dlookupD dependencies key []).all (fun dep => dep ∈ in_memory) &&
         (dlookupD waiting key []).isEmpty)) &&
      (match finished_results with
       | none => true
       | some fr =>
         (!(decide (key ∈ fr)) || (decide (key ∈ in_memory) && decide (key ∈ keys))) &&
         (!(decide (key ∈ keys) && decide (key ∈ in_memory)) || decide (key ∈ fr)))
    if reach.all check then .ok () else .error .assertError

/-- The full output dict of `heal`. -/
structure HealOutput where
  keys : List Key
  dependencies : Dict Key (List Key)
  dependents : Dict Key (List Key)
  waiting : Dict Key (List Key)
  waiting_data : Dict Key (List Key)
  in_memory : List Key
  processing : Dict Worker (List Key)
  stacks' : Dict Worker (List Key)
  finished_results : List Key
  released : List Key
  in_play : List Key
deriving Repr, DecidableEq

/-- The `unrunnable` predicate of `heal`, with Python's left-to-right
short-circuit evaluation (the `dependencies[key]` KeyError fires only when
the first three tests are falsy). `waiting` here is the freshly rebuilt
waiting dict. -/
def heal_unrunnable (dependencies : Dict Key (List Key)) (in_memory new_released : List Key)
    (waiting : Dict Key (List Key)) (key : Key) : M Bool :=
  if key ∈ new_released then .ok true
  else if key ∈ in_memory then .ok true
  else if (match dlookup waiting key with
           | some l => !l.isEmpty
           | none => false) then .ok true
  else
    match dlookup dependencies key with
    | none => .error .keyError
    | some ds => .ok (!(ds.all (fun d => d ∈ in_memory)))

/-- `heal(dependencies, dependents, in_memory, stacks, processing, waiting,
waiting_data)`: rebuild `waiting`, `released` and `waiting_data` from the
graph and memory, evict unrunnable keys from stacks and processing, drop
drained waiting entries of surviving stack/processing keys, recompute
`finished_results` and `in_play`, and validate the result. The incoming
`waiting`/`waiting_data` are cleared immediately, so they are parameters
only for signature fidelity. -/
def heal (dependencies dependents : Dict Key (List Key)) (in_memory : List Key)
    (stacks' processing : Dict Worker (List Key))
    (_waiting _waiting_data : Dict Key (List Key)) : M HealOutput :=
  let outputs := (dependents.filter (fun p => p.2.isEmpty)).map Prod.fst
  match heal_visit_loop dependencies in_memory
      (heal_visit_fuel dependencies outputs) outputs [] with
  | .error e => .error e
  | .ok visited =>
    match emapM (fun k =>
        match dlookup dependencies k with
        | none => .error .keyError
        | some ds => .ok (k, ds.filter (fun d => d ∉ in_memory)))
        (visited.filter (fun k => k ∉ in_memory)) with
    | .error e => .error e
    | .ok waitingList =>
      let new_released := (dkeys dependents).filter (fun k => k ∉ visited)
      let waiting_data1 := (dependents.filter (fun p => p.1 ∉ new_released)).map
        (fun p => (p.1, p.2.filter (fun dep => dep ∉ new_released ∧ dep ∉ in_memory)))
      let allStackKeys := pydedup (stacks'.flatMap (fun p => p.2))
      let allProcKeys := pydedup (processing.flatMap (fun p => p.2))
      match efilterM (heal_unrunnable dependencies in_memory new_released waitingList)
          allStackKeys with
      | .error e => .error e
      | .ok unrStacks =>
        match efilterM (heal_unrunnable dependencies in_memory new_released waitingList)
            allProcKeys with
        | .error e => .error e
        | .ok unrProc =>
          let stacks1 := stacks'.map (fun p => (p.1, unrStacks.foldl List.erase p.2))
          let processing1 := processing.map (fun p => (p.1, p.2.filter (fun k => k ∉ unrProc)))
          let survivors := allStackKeys.filter (fun k => k ∉ unrStacks) ++
            allProcKeys.filter (fun k => k ∉ unrProc)
          match efoldM (fun wl k =>
              match dlookup wl k with
              | none => .ok wl
              | some v => if v.isEmpty then .ok (derase wl k) else .error .assertError)
              waitingList survivors with
          | .error e => .error e
          | .ok waiting1 =>
            let finished := outputs.filter (fun k => k ∈ in_memory)
            let in_play1 := sunion (sunion (sunion in_memory (dkeys waiting1))
              (processing1.flatMap (fun p => p.2))) (stacks1.flatMap (fun p => p.2))
            match validate_state dependencies dependents waiting1 waiting_data1 in_memory
                stacks1 processing1 (some finished) new_released in_play1 false with
            | .error e => .error e
            | .ok _ =>
              .ok ⟨outputs, dependencies, dependents, waiting1, waiting_data1, in_memory,
                   processing1, stacks1, finished, new_released, in_play1⟩

/-- A healthy three-task chain (`1 -> 2 -> 3`, key 1 in memory, key 2 stacked)
written as the `heal` output it is a fixed point of; used to exercise the heal
idempotence theorem at a concrete state. -/
def healWitnessOut : HealOutput :=
  { keys := [3]
    dependencies := [(1, []), (2, [1]), (3, [2])]
    dependents := [(1, [2]), (2, [3]), (3, [])]
    waiting := [(3, [2])]
    waiting_data := [(1, [2]), (2, [3]), (3, [])]
    in_memory := [1]
    processing := [((0, 0), [])]
    stacks' := [((0, 0), [2])]
    finished_results := []
    released := []
    in_play := [1, 3, 2] }

/-- The residency-update loop at the head of `Scheduler.mark_key_in_memory`:
for each reported worker, add it to `who_has[key]`, add the key to
`has_what[worker]` and discard the key from that worker's processing set. -/
def mkimCore (key : Key) (ws : List Worker) (s : SchedState) : SchedState :=
  ws.foldl (fun st worker =>
    { st with
      who_has := dset st.who_has key (sadd (dlookupD st.who_has key []) worker),
      has_what := dset st.has_what worker (sadd (dlookupD st.has_what worker []) key),
      processing := match dlookup st.processing worker with
                    | some pr => dset st.processing worker (sdiscard pr key)
                    | none => st.processing }) s

/-- `Scheduler.update_data(who_has, nbytes)`: learn externally produced data by
marking every reported key in memory on its reported workers, merging the byte
sizes, and adding every reported key to `held_data` and `in_play`. -/
def update_data (who_has_arg : Dict Key (List Worker)) (nbytes_arg : Dict Key Nat)
    (s : SchedState) : M SchedState :=
  match efoldM (fun st p => mark_key_in_memory p.1 (some p.2) st) s who_has_arg with
  | .error e => .error e
  | .ok s1 =>
    .ok { s1 with
      nbytes := nbytes_arg.foldl (fun d p => dset d p.1 p.2) s1.nbytes,
      held_data := who_has_arg.foldl (fun t p => sadd t p.1) s1.held_data,
      in_play := who_has_arg.foldl (fun t p => sadd t p.1) s1.in_play }

/-- The state produced by `update_data` when a single externally computed key 5
of 100 bytes is reported on worker (0,0) against the empty initial state. -/
def updateDataWitnessOut : SchedState :=
  match update_data [(5, [(0, 0)])] [(5, 100)] initState with
  | .ok t => t
  | .error _ => initState

/-- The classification loop of `assign_many_tasks`: pop each key from
`waiting` (KeyError if absent, assertion failure if its entry is non-empty)
and append it to `leaves` when it has no dependencies and no restriction,
else to `ready`. -/
def amt_pop_loop (dependencies : Dict Key (List Key)) (restrictions : Dict Key (List Nat)) :
    Dict Key (List Key) → List Key → List Key → List Key →
    M (Dict Key (List Key) × List Key × List Key)
  | waiting, leaves, ready, [] => .ok (waiting, leaves, ready)
  | waiting, leaves, ready, k :: ks =>
    match dlookup waiting k with
    | none => .error .keyError
    | some v =>
      if v.isEmpty then
        match dlookup dependencies k with
        | none => .error .keyError
        | some ds =>
          if ds.isEmpty ∧ (dlookup restrictions k).isNone then
            amt_pop_loop dependencies restrictions (derase waiting k) (leaves ++ [k]) ready ks
          else
            amt_pop_loop dependencies restrictions (derase waiting k) leaves (ready ++ [k]) ks
      else .error .assertError

/-- The leaf-distribution loop of `assign_many_tasks`: worker `i` of the
rotated list receives slice `leaves[i*chunk:(i+1)*chunk]` reversed, appended
to its stack and to the `new_stacks` diff (a `defaultdict`, so every worker
gets an entry). -/
def amt_distribute (leaves : List Key) (chunk : Nat) :
    Nat → List Worker → Dict Worker (List Key) → Dict Worker (List Key) →
    Dict Worker (List Key) × Dict Worker (List Key)
  | _, [], stacks1, new_stacks => (stacks1, new_stacks)
  | i, w :: ws, stacks1, new_stacks =>
    let ck := ((leaves.drop (i * chunk)).take chunk).reverse
    amt_distribute leaves chunk (i + 1) ws
      (dset stacks1 w (dlookupD stacks1 w [] ++ ck))
      (dset new_stacks w (dlookupD new_stacks w [] ++ ck))

/-- The ready-key loop of `assign_many_tasks`: route each ready key through
`decide_worker` against the current stacks and push it onto the chosen
worker's stack and diff entry. -/
def amt_ready_loop (dependencies : Dict Key (List Key)) (who_has : Dict Key (List Worker))
    (restrictions : Dict Key (List Nat)) (loose_restrictions : List Key)
    (nbytes : Dict Key Nat) :
    Dict Worker (List Key) → Dict Worker (List Key) → List Key →
    M (Dict Worker (List Key) × Dict Worker (List Key))
  | stacks1, new_stacks, [] => .ok (stacks1, new_stacks)
  | stacks1, new_stacks, key :: ks =>
    match decide_worker dependencies stacks1 who_has restrictions loose_restrictions
        nbytes key with
    | .error e => .error e
    | .ok worker =>
      amt_ready_loop dependencies who_has restrictions loose_restrictions nbytes
        (dset stacks1 worker (dlookupD stacks1 worker [] ++ [key]))
        (dset new_stacks worker (dlookupD new_stacks worker [] ++ [key])) ks

/-- `assign_many_tasks(dependencies, waiting, keyorder, who_has, stacks,
restrictions, loose_restrictions, nbytes, keys)` with the `_round_robin`
global threaded explicitly: classify the keys, sort the leaves by `keyorder`
(missing entries first, as Python sorts `None` low), rotate the worker list by
the round-robin offset, hand out reversed contiguous chunks of
`ceil(|leaves|/|workers|)` leaves, then route the ready keys through
`decide_worker`; returns the popped `waiting`, the mutated stacks, the
`new_stacks` diff and the advanced offset. -/
def assign_many_tasks (dependencies : Dict Key (List Key)) (waiting : Dict Key (List Key))
    (keyorder : Dict Key (Nat × Nat)) (who_has : Dict Key (List Worker))
    (stacks' : Dict Worker (List Key)) (restrictions : Dict Key (List Nat))
    (loose_restrictions : List Key) (nbytes : Dict Key Nat)
    (keys : List Key) (rr : Nat) :
    M (Dict Key (List Key) × Dict Worker (List Key) × Dict Worker (List Key) × Nat) :=
  match amt_pop_loop dependencies restrictions waiting [] [] keys with
  | .error e => .error e
  | .ok (waiting1, leaves, ready) =>
    if stacks'.isEmpty then .error .noWorkersFound
    else
      let leaves1 := ssort (fun a b => optPairLe (dlookup keyorder a) (dlookup keyorder b))
        leaves
      let workers := dkeys stacks'
      let k0 := rr % workers.length
      let rot := workers.drop k0 ++ workers.take k0
      let chunk := (leaves1.length + rot.length - 1) / rot.length
      let dist := amt_distribute leaves1 chunk 0 rot stacks' []
      match amt_ready_loop dependencies who_has restrictions loose_restrictions nbytes
          dist.1 dist.2 ready with
      | .error e => .error e
      | .ok (stacks2, new2) => .ok (waiting1, stacks2, new2, rr + 1)

/-- The residency transpose invariant: a worker claims a key in `who_has`
exactly when the key claims the worker in `has_what`. -/
def transposeInv (s : SchedState) : Prop :=
  ∀ (k : Key) (w : Worker),
    w ∈ dlookupD s.who_has k [] ↔ k ∈ dlookupD s.has_what w []

/-- The per-worker core bound: every registered `processing` set fits in the
worker's registered core count. -/
def procBound (s : SchedState) : Prop :=
  ∀ (w : Worker) (pr : List Key) (nc : Nat),
    dlookup s.processing w = some pr → dlookup s.ncores w = some nc →
    pr.length ≤ nc

/-- `Scheduler.heal_state()`: run `heal` over the current graph state, adopt
its outputs, report lost held keys, requeue tasks whose waiting set drained
(when workers exist), delete data that healing released and is not held, and
put every resident key back in play. -/
def heal_state (s : SchedState) : M SchedState :=
  match heal s.dependencies s.dependents (dkeys s.who_has) s.stacks' s.processing
      s.waiting s.waiting_data with
  | .error e => .error e
  | .ok t =>
    let s1 := { s with
      dependencies := t.dependencies, dependents := t.dependents,
      waiting := t.waiting, waiting_data := t.waiting_data,
      stacks' := t.stacks', processing := t.processing, in_play := t.in_play }
    let s2 := { s1 with
      reports := s1.reports ++
        ((s1.held_data.filter (fun k => k ∈ t.released)).map Report.lost_key) }
    let add_keys := (s2.waiting.filter (fun p => p.2.isEmpty)).map Prod.fst
    match (if s2.stacks'.isEmpty then .ok s2
           else efoldM (fun st k => mark_ready_to_run k st) s2 add_keys : M SchedState) with
    | .error e => .error e
    | .ok s3 =>
      match delete_data ((dkeys s3.who_has).filter (fun k =>
          k ∈ t.released ∧ k ∉ s3.held_data)) s3 with
      | .error e => .error e
      | .ok s4 => .ok { s4 with in_play := sunion s4.in_play (dkeys s4.who_has) }

/-- `Scheduler.remove_worker(address, heal)`: no-op for unknown workers;
otherwise pop the worker's `has_what`, close its queue, delete its per-worker
entries, withdraw it from `who_has` of each key it held (`set.remove`, so a
KeyError if absent), drop now-homeless keys from `in_play`, delete empty
`who_has` entries, and optionally heal. -/
def remove_worker (address : Worker) (healFlag : Bool) (s : SchedState) : M SchedState :=
  if ¬ dmem s.processing address then .ok s
  else
    match dlookup s.has_what address with
    | none => .error .keyError
    | some keys =>
      let s0 := { s with has_what := derase s.has_what address }
      match dlookup s0.ncores address with
      | none => .error .keyError
      | some _nc =>
        if address ∉ s0.worker_queues then .error .keyError
        else if ¬ dmem s0.stacks' address then .error .keyError
        else if ¬ dmem s0.nannies address then .error .keyError
        else
          let s1 := { s0 with
            worker_queues := s0.worker_queues.filter (fun w => w ≠ address),
            ncores := derase s0.ncores address,
            stacks' := derase s0.stacks' address,
            processing := derase s0.processing address,
            nannies := derase s0.nannies address }
          match efoldM (fun st k =>
              match sremove (dlookupD st.who_has k []) address with
              | .error e => .error e
              | .ok ws => .ok { st with who_has := dset st.who_has k ws }) s1 keys with
          | .error e => .error e
          | .ok s2 =>
            let s3 := { s2 with
              in_play := s2.in_play.filter (fun k =>
                ¬ (k ∈ keys ∧ (dlookupD s2.who_has k []).isEmpty)),
              who_has := s2.who_has.filter (fun p => !p.2.isEmpty) }
            if healFlag then heal_state s3 else .ok s3

/-- The recursive `ensure_key` of `heal_missing_data`, fuelled: recurse into
dependencies, register the key with each dependency's `waiting_data`, rebuild
its own `waiting`/`waiting_data` entries and put it in play. State is
`(in_play, waiting, waiting_data)`. -/
def ensure_key_loop (dependencies dependents : Dict Key (List Key))
    (in_memory : List Key) :
    Nat → Key → List Key × Dict Key (List Key) × Dict Key (List Key) →
    M (List Key × Dict Key (List Key) × Dict Key (List Key))
  | 0, _, _ => .error .fuelExhausted
  | fuel+1, key, st =>
    if key ∈ st.1 then .ok st
    else
      match dlookup dependencies key with
      | none => .error .keyError
      | some deps =>
        match efoldM (fun st2 dep =>
            match ensure_key_loop dependencies dependents in_memory fuel dep st2 with
            | .error e => .error e
            | .ok st3 =>
              match dlookup st3.2.2 dep with
              | none => .error .keyError
              | some sw => .ok (st3.1, st3.2.1, dset st3.2.2 dep (sadd sw key))) st deps with
        | .error e => .error e
        | .ok st4 =>
          let w1 := dset st4.2.1 key (pydedup (deps.filter (fun d => d ∉ in_memory)))
          match dlookup dependents key with
          | none => .error .keyError
          | some dts =>
            let wd1 := dset st4.2.2 key (pydedup (dts.filter (fun d =>
              d ∈ st4.1 ∧ d ∉ in_memory)))
            .ok (sadd st4.1 key, w1, wd1)

/-- `heal_missing_data(dsk, dependencies, dependents, held_data, in_memory,
in_play, waiting, waiting_data, missing)` (the `dsk` and `held_data` arguments
are unused by its body): drop the missing keys from `in_play`, re-ensure each
of them, and assert they all ended up in play. -/
def heal_missing_data (dependencies dependents : Dict Key (List Key))
    (in_memory : List Key) (in_play : List Key)
    (waiting waiting_data : Dict Key (List Key)) (missing : List Key) :
    M (List Key × Dict Key (List Key) × Dict Key (List Key)) :=
  let ip0 := missing.foldl (fun ip k => sdiscard ip k) in_play
  match efoldM (fun st k => ensure_key_loop dependencies dependents in_memory
      (dependencies.length + 1) k st) (ip0, waiting, waiting_data) missing with
  | .error e => .error e
  | .ok st =>
    if missing.all (fun k => k ∈ st.1) then .ok st else .error .assertError

/-- `Scheduler.seed_ready_tasks(keys)` (`keys=None` seeds from the whole
graph): bulk-assign the runnable keys, adopt the popped waiting dict, the
grown stacks and the advanced offset, and refill every worker that received
stack entries. -/
def seed_ready_tasks (keysArg : Option (List Key)) (s : SchedState) : M SchedState :=
  let ks := match keysArg with | some l => l | none => dkeys s.dask
  let runnable := ks.filter (fun k => dlookup s.waiting k = some [])
  match assign_many_tasks s.dependencies s.waiting s.keyorder s.who_has s.stacks'
      s.restrictions s.loose_restrictions s.nbytes runnable s.rr_offset with
  | .error e => .error e
  | .ok (w1, s2, n2, rr') =>
    efoldM (fun st p => if p.2.isEmpty then .ok st else ensure_occupied p.1 st)
      { s with waiting := w1, stacks' := s2, rr_offset := rr' } n2

/-- The `who_has.pop` / `has_what.remove` block of `mark_missing_data` for one
key: a `has_what` KeyError is swallowed by `ignoring`, aborting the rest of
the block after the defaultdict access has materialised the entry. -/
def mmd_inner (k : Key) : List Worker → SchedState → SchedState
  | [], st => st
  | w :: ws, st =>
    if k ∈ dlookupD st.has_what w [] then
      mmd_inner k ws { st with
        has_what := dset st.has_what w (sdiscard (dlookupD st.has_what w []) k) }
    else
      { st with has_what := dset st.has_what w (dlookupD st.has_what w []) }

/-- `Scheduler.mark_missing_data(missing, key, worker)`: withdraw the missing
keys from residency, heal them back into the waiting graph, optionally requeue
the reporting task (restoring its waiting set and refilling its worker), and
reseed ready tasks. -/
def mark_missing_data (missingArg : List Key) (keyArg : Option Key)
    (workerArg : Option Worker) (s : SchedState) : M SchedState :=
  let missing := pydedup missingArg
  let s1 := missing.foldl (fun st k =>
    match dlookup st.who_has k with
    | none => st
    | some workers => mmd_inner k workers { st with who_has := derase st.who_has k }) s
  match heal_missing_data s1.dependencies s1.dependents (dkeys s1.who_has) s1.in_play
      s1.waiting s1.waiting_data missing with
  | .error e => .error e
  | .ok hm =>
    let s2 := { s1 with in_play := hm.1, waiting := hm.2.1, waiting_data := hm.2.2 }
    match keyArg, workerArg with
    | some key, some worker =>
      if key = 0 then seed_ready_tasks none s2
      else
        let s3 := match dlookup s2.processing worker with
                  | none => s2
                  | some pr => { s2 with
                      processing := dset s2.processing worker (sdiscard pr key) }
        let s4 := { s3 with waiting := dset s3.waiting key missing }
        match ensure_occupied worker s4 with
        | .error e => .error e
        | .ok s5 => seed_ready_tasks none s5
    | _, _ => seed_ready_tasks none s2

/-- `Scheduler.add_worker(address, keys, ncores, nanny_port)`: always
(re)register the core count and nanny; only a previously unknown address gets
fresh `has_what`/`processing`/`stacks` entries and a queue; then mark each
reported key in memory on the new worker. -/
def add_worker (address : Worker) (keys : List Key) (nc : Nat) (nannyPort : Nat)
    (s : SchedState) : M SchedState :=
  let s1 := { s with
    ncores := dset s.ncores address nc,
    nannies := dset s.nannies address nannyPort }
  let s2 := if dmem s1.processing address then s1
            else { s1 with
              has_what := dset s1.has_what address [],
              processing := dset s1.processing address [],
              stacks' := dset s1.stacks' address [],
              worker_queues := sadd s1.worker_queues address }
  efoldM (fun st k => mark_key_in_memory k (some [address]) st) s2 keys

/-- `cover_aliases(dsk, new_keys)`: replace a task that is exactly another
present key by an identity call on it. -/
def cover_aliases : Dict Key PyTask → List Key → M (Dict Key PyTask)
  | dsk, [] => .ok dsk
  | dsk, key :: ks =>
    match dlookup dsk key with
    | none => .error .keyError
    | some t =>
      match t with
      | .ref r => if dmem dsk r then cover_aliases (dset dsk key (.app [r])) ks
                  else cover_aliases dsk ks
      | _ => cover_aliases dsk ks

/-- `Scheduler.update_graph(dsk, keys, restrictions, loose_restrictions)`.
The call `order(dsk)` comes from the external `dask.order` module; its result
is threaded in as the oracle argument `new_keyorder`. Self-aliased tasks are
dropped, the state is extended through `update_state`, aliases are covered,
restrictions merged, fresh keyorder entries stamped with the current
generation, failures of already-blamed dependencies cascaded, ready tasks
seeded from the new subgraph, and already-resident requested keys reported. -/
def update_graph (dskArg : Dict Key PyTask) (keysArg : List Key)
    (restrictionsArg : Dict Key (List Nat)) (looseArg : List Key)
    (new_keyorder : Dict Key Nat) (s : SchedState) : M SchedState :=
  let dsk := dskArg.filter (fun p => p.2 ≠ PyTask.ref p.1)
  match update_state s.dask s.dependencies s.dependents s.held_data s.who_has
      s.in_play s.waiting s.waiting_data dsk keysArg with
  | .error e => .error e
  | .ok u =>
    let s1 := { s with
      dask := u.dsk, dependencies := u.dependencies,
      dependents := u.dependents, held_data := u.held_data,
      waiting := u.waiting, waiting_data := u.waiting_data, in_play := u.in_play }
    match cover_aliases s1.dask (dkeys dsk) with
    | .error e => .error e
    | .ok dask2 =>
      let s2 := { s1 with dask := dask2 }
      let s3 := if restrictionsArg.isEmpty then s2
                else { s2 with
                  restrictions := restrictionsArg.foldl
                    (fun d p => dset d p.1 p.2) s2.restrictions }
      let s4 := if looseArg.isEmpty then s3
                else { s3 with
                  loose_restrictions := sunion s3.loose_restrictions looseArg }
      let s5 := { s4 with
        keyorder := new_keyorder.foldl (fun d p =>
          if dmem d p.1 then d else dset d p.1 (s4.generation, p.2)) s4.keyorder }
      let s6 := if dsk.length > 1 then { s5 with generation := s5.generation + 1 } else s5
      match efoldM (fun st k =>
          match dlookup st.dependencies k with
          | none => .error .keyError
          | some ds => efoldM (fun st2 dep =>
              match dlookup st2.exceptions_blame dep with
              | none => .ok st2
              | some blame => mark_failed (mark_failed_fuel st2) k blame st2) st ds)
          s6 (dkeys dsk) with
      | .error e => .error e
      | .ok s7 =>
        match seed_ready_tasks (some (dkeys dsk)) s7 with
        | .error e => .error e
        | .ok s8 =>
          efoldM (fun st k =>
            if (dlookupD st.who_has k []).isEmpty then .ok st
            else mark_key_in_memory k none st) s8 keysArg

/-- `Scheduler.release_held_data(keys)`: unpin the held subset and delete the
unpinned keys nothing is waiting on. -/
def release_held_data (keysArg : List Key) (s : SchedState) : M SchedState :=
  let keys := (pydedup keysArg).filter (fun k => k ∈ s.held_data)
  if keys.isEmpty then .ok s
  else
    let s1 := { s with
      held_data := s.held_data.filter (fun k => k ∉ keys) }
    let keys2 := keys.filter (fun k => (dlookupD s1.waiting_data k []).isEmpty)
    if keys2.isEmpty then .ok s1 else delete_data keys2 s1

/-- One scheduler event: an invocation of a public state-changing handler with
its arguments (the `update_graph` event carries the `dask.order` result as an
oracle). -/
inductive SchedEvent where
  | awEv (address : Worker) (keys : List Key) (nc nannyPort : Nat)
  | rwEv (address : Worker) (healFlag : Bool)
  | udEv (who_has : Dict Key (List Worker)) (nb : Dict Key Nat)
  | ugEv (dsk : Dict Key PyTask) (keys : List Key) (restr : Dict Key (List Nat))
      (loose : List Key) (ko : Dict Key Nat)
  | rhdEv (keys : List Key)
  | ddEv (keys : List Key)
  | mmdEv (missing : List Key) (key : Option Key) (worker : Option Worker)
  | mtfEv (key : Key) (worker : Worker) (nb : Nat)
  | mteEv (key : Key) (worker : Worker) (exc tb : Nat)
  | mkimEv (key : Key) (workers : Option (List Worker))
  | hsEv
deriving Repr

/-- Dispatch one event to its handler. -/
def applyEvent : SchedEvent → SchedState → M SchedState
  | .awEv a ks nc np, s => add_worker a ks nc np s
  | .rwEv a hf, s => remove_worker a hf s
  | .udEv wh nb, s => update_data wh nb s
  | .ugEv dsk ks restr loose ko, s => update_graph dsk ks restr loose ko s
  | .rhdEv ks, s => release_held_data ks s
  | .ddEv ks, s => delete_data ks s
  | .mmdEv m k w, s => mark_missing_data m k w s
  | .mtfEv k w nb, s => mark_task_finished k w nb s
  | .mteEv k w e t, s => mark_task_erred k w e t s
  | .mkimEv k ws, s => mark_key_in_memory k ws s
  | .hsEv, s => heal_state s

/-- States reachable from the empty scheduler through successful events. -/
inductive Reachable : SchedState → Prop
  | init : Reachable initState
  | step (e : SchedEvent) {s s' : SchedState} :
      Reachable s → applyEvent e s = .ok s' → Reachable s'

/-- The side condition under which an event keeps the core bound: only
re-registering a known worker with fewer cores than it has running tasks is
dangerous. -/
def eventSafe : SchedEvent → SchedState → Prop
  | .awEv a _ nc _, s => ∀ pr, dlookup s.processing a = some pr → pr.length ≤ nc
  | _, _ => True

/-- Counterexample trace, step 1: register worker (0,0) with two cores. -/
def c10s1 : SchedState :=
  match applyEvent (.awEv (0, 0) [] 2 0) initState with
  | .ok t => t
  | .error _ => initState

/-- Counterexample trace, step 2: submit two independent leaf tasks; seeding
stacks them on (0,0) and `ensure_occupied` moves both into its processing
set, saturating the two cores. -/
def c10s2 : SchedState :=
  match applyEvent (.ugEv [(1, .lit 10), (2, .lit 20)] [1, 2] [] [] [(1, 0), (2, 1)])
      c10s1 with
  | .ok t => t
  | .error _ => initState

/-- Counterexample trace, step 3: the worker re-registers with a single core;
`add_worker` overwrites `ncores` but keeps the two running tasks. -/
def c10s3 : SchedState :=
  match applyEvent (.awEv (0, 0) [] 1 0) c10s2 with
  | .ok t => t
  | .error _ => initState

/- ============ order and fold lemmas for the final `min` ============ -/

lemma slLt_iff (ah ap an bh bp bn : Nat) :
    slLt ((ah, ap), an) ((bh, bp), bn) = true ↔
      (an < bn ∨ (an = bn ∧ (ah < bh ∨ (ah = bh ∧ ap < bp)))) := by
  simp [slLt, wltB]

lemma slLt_trans {a b c : Worker × Nat} (h1 : slLt a b = true) (h2 : slLt b c = true) :
    slLt a c = true := by
  obtain ⟨⟨ah, ap⟩, an⟩ := a
  obtain ⟨⟨bh, bp⟩, bn⟩ := b
  obtain ⟨⟨ch, cp⟩, cn⟩ := c
  rw [slLt_iff] at h1 h2 ⊢
  omega

lemma slLt_le_lt {a b c : Worker × Nat} (h1 : slLt b a = false) (h2 : slLt b c = true) :
    slLt a c = true := by
  obtain ⟨⟨ah, ap⟩, an⟩ := a
  obtain ⟨⟨bh, bp⟩, bn⟩ := b
  obtain ⟨⟨ch, cp⟩, cn⟩ := c
  rw [Bool.eq_false_iff, Ne, slLt_iff] at h1
  rw [slLt_iff] at h2 ⊢
  omega

lemma slLt_irrefl (a : Worker × Nat) : slLt a a = false := by
  simp [slLt, wltB]

lemma wltB_not_lt {a b : Worker} (h : wltB b a = false) : wleB a b = true := by
  obtain ⟨ah, ap⟩ := a
  obtain ⟨bh, bp⟩ := b
  rw [Bool.eq_false_iff, Ne] at h
  simp only [wltB, wleB, Bool.or_eq_true, Bool.and_eq_true, decide_eq_true_eq,
    Prod.mk.injEq] at *
  omega

lemma pymin_fold_spec (ps : List (Worker × Nat)) (p : Worker × Nat) :
    (ps.foldl (fun b q => if slLt q b then q else b) p = p ∨
     ps.foldl (fun b q => if slLt q b then q else b) p ∈ ps) ∧
    ∀ q, (q = p ∨ q ∈ ps) →
      slLt q (ps.foldl (fun b q => if slLt q b then q else b) p) = false := by
  induction ps generalizing p with
  | nil =>
    refine ⟨Or.inl rfl, ?_⟩
    rintro q (rfl | h)
    · exact slLt_irrefl q
    · simp at h
  | cons q1 qs ih =>
    by_cases hc : slLt q1 p = true
    · have hstep : (if slLt q1 p then q1 else p) = q1 := if_pos hc
      simp only [List.foldl_cons, hstep]
      obtain ⟨hmem, hmin⟩ := ih q1
      refine ⟨?_, ?_⟩
      · rcases hmem with h | h
        · exact Or.inr (by rw [h]; exact List.mem_cons_self _ _)
        · exact Or.inr (List.mem_cons_of_mem _ h)
      · rintro q (rfl | hq)
        · cases hpb : slLt q (List.foldl (fun b q => if slLt q b then q else b) q1 qs) with
          | false => rfl
          | true =>
            have htr := slLt_trans hc hpb
            rw [hmin q1 (Or.inl rfl)] at htr
            exact Bool.noConfusion htr
        · rcases List.mem_cons.1 hq with rfl | hq2
          · exact hmin _ (Or.inl rfl)
          · exact hmin _ (Or.inr hq2)
    · have hcf : slLt q1 p = false := by
        cases h : slLt q1 p with
        | false => rfl
        | true => exact absurd h hc
      have hstep : (if slLt q1 p then q1 else p) = p := by rw [hcf]; rfl
      simp only [List.foldl_cons, hstep]
      obtain ⟨hmem, hmin⟩ := ih p
      refine ⟨?_, ?_⟩
      · rcases hmem with h | h
        · exact Or.inl h
        · exact Or.inr (List.mem_cons_of_mem _ h)
      · rintro q (rfl | hq)
        · exact hmin _ (Or.inl rfl)
        · rcases List.mem_cons.1 hq with rfl | hq2
          · cases hpb : slLt q (List.foldl (fun b q => if slLt q b then q else b) p qs) with
            | false => rfl
            | true =>
              have htr := slLt_le_lt hcf hpb
              rw [hmin _ (Or.inl rfl)] at htr
              exact Bool.noConfusion htr
          · exact hmin _ (Or.inr hq2)

lemma pymin_stacklen_spec {lens : List (Worker × Nat)} {w : Worker}
    (h : pymin_stacklen lens = some w) :
    ∃ n, (w, n) ∈ lens ∧ ∀ q ∈ lens, slLt q (w, n) = false := by
  cases lens with
  | nil => exact absurd h (by simp [pymin_stacklen])
  | cons p ps =>
    obtain ⟨hmem, hmin⟩ := pymin_fold_spec ps p
    have hw : w = (ps.foldl (fun b q => if slLt q b then q else b) p).1 := by
      simpa [pymin_stacklen] using h.symm
    refine ⟨(ps.foldl (fun b q => if slLt q b then q else b) p).2, ?_, ?_⟩
    · rw [hw]
      rcases hmem with h2 | h2
      · rw [show ((List.foldl (fun b q => if slLt q b then q else b) p ps).1,
            (List.foldl (fun b q => if slLt q b then q else b) p ps).2) =
            List.foldl (fun b q => if slLt q b then q else b) p ps from rfl, h2]
        exact List.mem_cons_self _ _
      · rw [show ((List.foldl (fun b q => if slLt q b then q else b) p ps).1,
            (List.foldl (fun b q => if slLt q b then q else b) p ps).2) =
            List.foldl (fun b q => if slLt q b then q else b) p ps from rfl]
        exact List.mem_cons_of_mem _ h2
    · intro q hq
      rw [hw]
      have hres := hmin q (by rcases List.mem_cons.1 hq with h3 | h3
                              · exact Or.inl h3
                              · exact Or.inr h3)
      rw [show ((List.foldl (fun b q => if slLt q b then q else b) p ps).1,
          (List.foldl (fun b q => if slLt q b then q else b) p ps).2) =
          List.foldl (fun b q => if slLt q b then q else b) p ps from rfl]
      exact hres

lemma minList_fold_spec (xs : List Nat) (a : Nat) :
    (xs.foldl Nat.min a = a ∨ xs.foldl Nat.min a ∈ xs) ∧
    ∀ y, (y = a ∨ y ∈ xs) → xs.foldl Nat.min a ≤ y := by
  induction xs generalizing a with
  | nil =>
    refine ⟨Or.inl rfl, ?_⟩
    rintro y (rfl | h)
    · exact Nat.le_refl _
    · simp at h
  | cons x xs ih =>
    simp only [List.foldl_cons]
    obtain ⟨hmem, hmin⟩ := ih (Nat.min a x)
    have hma : Nat.min a x = a ∨ Nat.min a x = x := by
      rcases Nat.le_total a x with h' | h'
      · exact Or.inl (Nat.min_eq_left h')
      · exact Or.inr (Nat.min_eq_right h')
    refine ⟨?_, ?_⟩
    · rcases hmem with h | h
      · rcases hma with h2 | h2
        · exact Or.inl (by rw [h, h2])
        · exact Or.inr (List.mem_cons.2 (Or.inl (by rw [h, h2])))
      · exact Or.inr (List.mem_cons.2 (Or.inr h))
    · rintro y (rfl | hy)
      · exact le_trans (hmin _ (Or.inl rfl)) (Nat.min_le_left _ _)
      · rcases List.mem_cons.1 hy with rfl | hy2
        · exact le_trans (hmin _ (Or.inl rfl)) (Nat.min_le_right _ _)
        · exact hmin _ (Or.inr hy2)

lemma minList_le {l : List Nat} {y : Nat} (hy : y ∈ l) : minList l ≤ y := by
  cases l with
  | nil => simp at hy
  | cons x xs =>
    rcases List.mem_cons.1 hy with rfl | h
    · exact (minList_fold_spec xs y).2 y (Or.inl rfl)
    · exact (minList_fold_spec xs x).2 y (Or.inr h)

lemma minList_mem {l : List Nat} (h : l ≠ []) : minList l ∈ l := by
  cases l with
  | nil => exact absurd rfl h
  | cons x xs =>
    rcases (minList_fold_spec xs x).1 with h2 | h2
    · exact List.mem_cons.2 (Or.inl h2)
    · exact List.mem_cons.2 (Or.inr h2)

/- ============ emapM specifications for dw_tail ============ -/

lemma emapM_cb_spec {who_has : Dict Key (List Worker)} {nbytes : Dict Key Nat}
    {deps : List Key} :
    ∀ {l : List Worker} {ps : List (Worker × Nat)},
      emapM (fun w =>
        match dw_commbytes who_has nbytes deps w with
        | .error e => .error e
        | .ok n => .ok (w, n)) l = .ok ps →
      ps.map Prod.fst = l ∧ ∀ p ∈ ps, dw_commbytes who_has nbytes deps p.1 = .ok p.2 := by
  intro l
  induction l with
  | nil => intro ps h; simp [emapM] at h; subst h; simp
  | cons x xs ih =>
    intro ps h
    simp only [emapM] at h
    cases hx : dw_commbytes who_has nbytes deps x with
    | error e => rw [hx] at h; exact absurd h (by simp)
    | ok n =>
      rw [hx] at h
      cases hrest : emapM (fun w =>
          match dw_commbytes who_has nbytes deps w with
          | .error e => .error e
          | .ok n => .ok (w, n)) xs with
      | error e => rw [hrest] at h; exact absurd h (by simp)
      | ok ys =>
        rw [hrest] at h
        have hps : ps = (x, n) :: ys := by
          cases h; rfl
        subst hps
        obtain ⟨h1, h2⟩ := ih hrest
        refine ⟨by simp [h1], ?_⟩
        intro p hp
        rcases List.mem_cons.1 hp with rfl | hp2
        · exact hx
        · exact h2 p hp2

lemma emapM_len_spec {stacks' : Dict Worker (List Key)} :
    ∀ {l : List Worker} {ps : List (Worker × Nat)},
      emapM (fun w =>
        match dlookup stacks' w with
        | some s => .ok (w, s.length)
        | none => .error .keyError) l = .ok ps →
      ps.map Prod.fst = l ∧
        ∀ p ∈ ps, ∃ s, dlookup stacks' p.1 = some s ∧ p.2 = s.length := by
  intro l
  induction l with
  | nil => intro ps h; simp [emapM] at h; subst h; simp
  | cons x xs ih =>
    intro ps h
    simp only [emapM] at h
    cases hx : dlookup stacks' x with
    | none => rw [hx] at h; exact absurd h (by simp)
    | some s =>
      rw [hx] at h
      cases hrest : emapM (fun w =>
          match dlookup stacks' w with
          | some s => .ok (w, s.length)
          | none => .error .keyError) xs with
      | error e => rw [hrest] at h; exact absurd h (by simp)
      | ok ys =>
        rw [hrest] at h
        have hps : ps = (x, s.length) :: ys := by cases h; rfl
        subst hps
        obtain ⟨h1, h2⟩ := ih hrest
        refine ⟨by simp [h1], ?_⟩
        intro p hp
        rcases List.mem_cons.1 hp with rfl | hp2
        · exact ⟨s, hx, rfl⟩
        · exact h2 p hp2

lemma mem_map_fst {α β : Type} {l : List (α × β)} {a : α} :
    a ∈ l.map Prod.fst ↔ ∃ p ∈ l, p.1 = a := by
  simp [List.mem_map]

lemma dw_tail_spec {stacks' : Dict Worker (List Key)} {who_has : Dict Key (List Worker)}
    {nbytes : Dict Key Nat} {deps : List Key} {workers : List Worker} {w : Worker}
    (h : dw_tail stacks' who_has nbytes deps workers = .ok w) :
    w ∈ workers ∧
    ∃ n l, dw_commbytes who_has nbytes deps w = .ok n ∧ dlookup stacks' w = some l ∧
      ∀ w' ∈ workers, ∃ n', dw_commbytes who_has nbytes deps w' = .ok n' ∧ n ≤ n' ∧
        (n' = n → ∃ l', dlookup stacks' w' = some l' ∧ l.length ≤ l'.length ∧
          (l'.length = l.length → wleB w w' = true)) := by
  rw [dw_tail] at h
  split at h
  · exact absurd h (by simp)
  · cases hcbs : emapM (fun w =>
        match dw_commbytes who_has nbytes deps w with
        | .error e => .error e
        | .ok n => .ok (w, n)) workers with
    | error e => rw [hcbs] at h; exact absurd h (by simp)
    | ok cbs =>
      rw [hcbs] at h
      simp only at h
      cases hlens : emapM (fun w =>
          match dlookup stacks' w with
          | some s => .ok (w, s.length)
          | none => .error .keyError)
          ((cbs.filter (fun p => p.2 = minList (cbs.map Prod.snd))).map Prod.fst) with
      | error e => rw [hlens] at h; exact absurd h (by simp)
      | ok lens =>
        rw [hlens] at h
        simp only at h
        cases hpm : pymin_stacklen lens with
        | none => rw [hpm] at h; exact absurd h (by simp)
        | some w0 =>
          rw [hpm] at h
          have hww : w0 = w := by cases h; rfl
          subst hww
          obtain ⟨nl, hmemlens, hminlens⟩ := pymin_stacklen_spec hpm
          obtain ⟨hlensfst, hlenprop⟩ := emapM_len_spec hlens
          obtain ⟨hcbsfst, hcbprop⟩ := emapM_cb_spec hcbs
          have hwcands :
              w0 ∈ (cbs.filter (fun p => p.2 = minList (cbs.map Prod.snd))).map Prod.fst := by
            rw [← hlensfst]
            exact mem_map_fst.2 ⟨(w0, nl), hmemlens, rfl⟩
          obtain ⟨pr, hprmem, hpr1⟩ := mem_map_fst.1 hwcands
          have hprcbs : pr ∈ cbs := List.mem_of_mem_filter hprmem
          have hprmin : pr.2 = minList (cbs.map Prod.snd) := by
            have := List.of_mem_filter hprmem
            simpa using this
          have hwmem : w0 ∈ workers := by
            rw [← hcbsfst]
            exact mem_map_fst.2 ⟨pr, hprcbs, hpr1⟩
          obtain ⟨sl, hsl, hnl⟩ := hlenprop (w0, nl) hmemlens
          refine ⟨hwmem, minList (cbs.map Prod.snd), sl, ?_, hsl, ?_⟩
          · have := hcbprop pr hprcbs
            rw [hpr1] at this
            rw [this, hprmin]
          · intro w' hw'
            obtain ⟨pr', hpr'cbs, hpr'1⟩ := mem_map_fst.1 (by rw [hcbsfst]; exact hw')
            refine ⟨pr'.2, ?_, ?_, ?_⟩
            · have := hcbprop pr' hpr'cbs
              rw [hpr'1] at this
              exact this
            · exact minList_le (List.mem_map.2 ⟨pr', hpr'cbs, rfl⟩)
            · intro heq
              have hpr'filter : pr' ∈ cbs.filter (fun p => p.2 = minList (cbs.map Prod.snd)) :=
                List.mem_filter.2 ⟨hpr'cbs, by simp [heq]⟩
              have hw'cands :
                  w' ∈ (cbs.filter (fun p => p.2 = minList (cbs.map Prod.snd))).map Prod.fst :=
                mem_map_fst.2 ⟨pr', hpr'filter, hpr'1⟩
              obtain ⟨q', hq'lens, hq'1⟩ := mem_map_fst.1 (by rw [hlensfst]; exact hw'cands)
              obtain ⟨s', hs', hq'2⟩ := hlenprop q' hq'lens
              rw [hq'1] at hs'
              have hmin := hminlens q' hq'lens
              have hq'eta : q' = (w', s'.length) := by
                rw [← hq'1, ← hq'2]
              rw [hq'eta] at hmin
              have hnl' : nl = sl.length := hnl
              have hslLt : (s'.length < sl.length ∨ (s'.length = sl.length ∧
                  wltB w' w0 = true)) → False := by
                intro hcase
                rcases hcase with hlt | ⟨heq2, hwlt⟩
                · have hx : slLt (w', s'.length) (w0, nl) = true := by
                    rw [hnl']
                    simp [slLt, hlt]
                  rw [hmin] at hx
                  exact Bool.noConfusion hx
                · have hx : slLt (w', s'.length) (w0, nl) = true := by
                    rw [hnl']
                    simp [slLt, heq2, hwlt]
                  rw [hmin] at hx
                  exact Bool.noConfusion hx
              refine ⟨s', hs', ?_, ?_⟩
              · by_contra hlen
                exact hslLt (Or.inl (by omega))
              · intro hleneq
                cases hwl : wltB w' w0 with
                | false => exact wltB_not_lt hwl
                | true => exact absurd (Or.inr ⟨hleneq, hwl⟩) hslLt

lemma dw_tail_mem {stacks' : Dict Worker (List Key)} {who_has : Dict Key (List Worker)}
    {nbytes : Dict Key Nat} {deps : List Key} {workers : List Worker} {w : Worker}
    (h : dw_tail stacks' who_has nbytes deps workers = .ok w) : w ∈ workers :=
  (dw_tail_spec h).1

/-- C1: `decide_worker` is a pure function computing, for each candidate
worker `w`, `commbytes(w) = Σ nbytes[d]` over dependencies `d` of the key
with `w ∉ who_has[d]`; it keeps only candidates of minimal `commbytes`,
among those returns the one with the shortest stack, and breaks remaining
ties by the natural order on worker identity; in particular, for workers
`{(A,8000),(B,8000)}`, `who_has = {a:{A}, b:{B}}`, `nbytes = {a:1, b:1000}`
and a key depending on `{a,b}`, it returns `(B,8000)` (here `A`,`B` are
hosts `0`,`1` and `a,b,c` are keys `1,2,3`). -/
theorem claim_C1 :
    (∀ (dependencies : Dict Key (List Key)) (stacks' : Dict Worker (List Key))
       (who_has : Dict Key (List Worker)) (restrictions : Dict Key (List Nat))
       (loose_restrictions : List Key) (nbytes : Dict Key Nat) (key : Key)
       (deps : List Key) (w : Worker),
      dlookup dependencies key = some deps →
      dlookup restrictions key = none →
      decide_worker dependencies stacks' who_has restrictions loose_restrictions nbytes key
          = .ok w →
      w ∈ dw_workers0 who_has stacks' deps ∧
      ∃ n l, dw_commbytes who_has nbytes deps w = .ok n ∧ dlookup stacks' w = some l ∧
        ∀ w' ∈ dw_workers0 who_has stacks' deps, ∃ n',
          dw_commbytes who_has nbytes deps w' = .ok n' ∧ n ≤ n' ∧
          (n' = n → ∃ l', dlookup stacks' w' = some l' ∧ l.length ≤ l'.length ∧
            (l'.length = l.length → wleB w w' = true))) ∧
    decide_worker [(3, [1, 2])] [((0, 8000), []), ((1, 8000), [])]
      [(1, [(0, 8000)]), (2, [(1, 8000)])] [] [] [(1, 1), (2, 1000)] 3 = .ok (1, 8000) := by
  constructor
  · intro dependencies stacks' who_has restrictions loose_restrictions nbytes key deps w
      hdeps hrestr hdw
    rw [decide_worker, hdeps] at hdw
    simp only at hdw
    rw [hrestr] at hdw
    simp only at hdw
    exact dw_tail_spec hdw
  · rfl

/-- Witness for C1: the concrete communication-minimising scenario, with the
hypotheses of the theorem discharged at that input. -/
theorem claim_C1_witness :
    (1, 8000) ∈ dw_workers0 [(1, [(0, 8000)]), (2, [(1, 8000)])]
      [((0, 8000), []), ((1, 8000), [])] [1, 2] ∧
    dw_commbytes [(1, [(0, 8000)]), (2, [(1, 8000)])] [(1, 1), (2, 1000)] [1, 2] (1, 8000)
      = .ok 1 := by
  have h := (claim_C1.1 [(3, [1, 2])] [((0, 8000), []), ((1, 8000), [])]
    [(1, [(0, 8000)]), (2, [(1, 8000)])] [] [] [(1, 1), (2, 1000)] 3 [1, 2] (1, 8000)
    rfl rfl claim_C1.2)
  refine ⟨h.1, ?_⟩
  obtain ⟨n, l, hn, -, -⟩ := h.2
  have : n = 1 := by
    rw [show dw_commbytes [(1, [(0, 8000)]), (2, [(1, 8000)])] [(1, 1), (2, 1000)] [1, 2]
      (1, 8000) = .ok 1 from rfl] at hn
    cases hn
    rfl
  subst this
  exact hn

/-- C2: for a key with host restriction set `r`, `decide_worker` filters the
dependency-derived candidates to hosts in `r`; if empty it retries with the
full worker set filtered by `r`; if still empty it either re-runs the whole
procedure unrestricted (key in `loose_restrictions`) or fails with the
no-valid-worker error; and it never returns a worker whose host violates `r`
for a non-loose key. -/
theorem claim_C2 :
    ∀ (dependencies : Dict Key (List Key)) (stacks' : Dict Worker (List Key))
      (who_has : Dict Key (List Worker)) (restrictions : Dict Key (List Nat))
      (loose_restrictions : List Key) (nbytes : Dict Key Nat) (key : Key)
      (deps : List Key) (r : List Nat),
      dlookup dependencies key = some deps →
      dlookup restrictions key = some r →
      ((∀ w, key ∉ loose_restrictions →
          decide_worker dependencies stacks' who_has restrictions loose_restrictions nbytes key
            = .ok w →
          w.1 ∈ r) ∧
       ((dw_workers0 who_has stacks' deps).filter (fun w => w.1 ∈ r) = [] →
        (((dw_stack_workers stacks').filter (fun w => w.1 ∈ r)) ≠ [] →
          decide_worker dependencies stacks' who_has restrictions loose_restrictions nbytes key
            = dw_tail stacks' who_has nbytes deps
                ((dw_stack_workers stacks').filter (fun w => w.1 ∈ r))) ∧
        (((dw_stack_workers stacks').filter (fun w => w.1 ∈ r)) = [] →
          (key ∉ loose_restrictions →
            decide_worker dependencies stacks' who_has restrictions loose_restrictions nbytes key
              = .error .noValidWorkers) ∧
          (key ∈ loose_restrictions →
            decide_worker dependencies stacks' who_has restrictions loose_restrictions nbytes key
              = decide_worker dependencies stacks' who_has [] [] nbytes key)))) := by
  intro dependencies stacks' who_has restrictions loose_restrictions nbytes key deps r hdeps hr
  constructor
  · intro w hnl hdw
    rw [decide_worker, hdeps] at hdw
    simp only at hdw
    rw [hr] at hdw
    simp only at hdw
    by_cases h1 : ((dw_workers0 who_has stacks' deps).filter
        (fun w => w.1 ∈ r)).isEmpty = true
    · rw [if_pos h1] at hdw
      by_cases h2 : ((dw_stack_workers stacks').filter (fun w => w.1 ∈ r)).isEmpty = true
      · rw [if_pos h2, if_neg hnl] at hdw
        exact absurd hdw (by simp)
      · rw [if_neg h2] at hdw
        have hmem := dw_tail_mem hdw
        have hf := List.mem_filter.1 hmem
        simpa using hf.2
    · rw [if_neg h1] at hdw
      have hmem := dw_tail_mem hdw
      have hf := List.mem_filter.1 hmem
      simpa using hf.2
  · intro hws1
    have h1 : ((dw_workers0 who_has stacks' deps).filter
        (fun w => w.1 ∈ r)).isEmpty = true := by rw [hws1]; rfl
    constructor
    · intro hws2ne
      have h2 : ((dw_stack_workers stacks').filter (fun w => w.1 ∈ r)).isEmpty = false := by
        cases hx : (dw_stack_workers stacks').filter (fun w => w.1 ∈ r) with
        | nil => exact absurd hx hws2ne
        | cons a as => rfl
      rw [decide_worker, hdeps]
      simp only
      rw [hr]
      simp only
      rw [if_pos h1, if_neg (by simp [h2])]
    · intro hws2
      have h2 : ((dw_stack_workers stacks').filter (fun w => w.1 ∈ r)).isEmpty = true := by
        rw [hws2]; rfl
      constructor
      · intro hnl
        rw [decide_worker, hdeps]
        simp only
        rw [hr]
        simp only
        rw [if_pos h1, if_pos h2, if_neg hnl]
      · intro hl
        rw [decide_worker, hdeps]
        simp only
        rw [hr]
        simp only
        rw [if_pos h1, if_pos h2, if_pos hl]
        rw [decide_worker, hdeps]
        simp only [dlookup]

/-- Witness for C2: restriction to host `2` with no worker on that host —
without loose restrictions the call fails with no-valid-worker; with the key
loose it equals the unrestricted run. -/
theorem claim_C2_witness :
    decide_worker [(3, [1, 2])] [((0, 8000), []), ((1, 8000), [])]
        [(1, [(0, 8000)]), (2, [(1, 8000)])] [(3, [2])] [] [(1, 1), (2, 1000)] 3
      = .error .noValidWorkers ∧
    decide_worker [(3, [1, 2])] [((0, 8000), []), ((1, 8000), [])]
        [(1, [(0, 8000)]), (2, [(1, 8000)])] [(3, [2])] [3] [(1, 1), (2, 1000)] 3
      = decide_worker [(3, [1, 2])] [((0, 8000), []), ((1, 8000), [])]
          [(1, [(0, 8000)]), (2, [(1, 8000)])] [] [] [(1, 1), (2, 1000)] 3 := by
  constructor
  · exact (((claim_C2 [(3, [1, 2])] [((0, 8000), []), ((1, 8000), [])]
      [(1, [(0, 8000)]), (2, [(1, 8000)])] [(3, [2])] [] [(1, 1), (2, 1000)] 3
      [1, 2] [2] rfl rfl).2 (by decide)).2 (by decide)).1 (by decide)
  · exact (((claim_C2 [(3, [1, 2])] [((0, 8000), []), ((1, 8000), [])]
      [(1, [(0, 8000)]), (2, [(1, 8000)])] [(3, [2])] [3] [(1, 1), (2, 1000)] 3
      [1, 2] [2] rfl rfl).2 (by decide)).2 (by decide)).2 (by decide)

/- ======================= mark_failed lemmas ======================= -/

lemma mark_failed_pres : ∀ (f : Nat) (k b : Key) (s s' : SchedState),
    mark_failed f k b s = .ok s' →
    (∀ x v, dlookup s.exceptions_blame x = some v → dlookup s'.exceptions_blame x = some v) ∧
    (∀ x, dlookup s.waiting x = none → dlookup s'.waiting x = none) ∧
    (∀ x, dlookup s.waiting_data x = none → dlookup s'.waiting_data x = none) ∧
    (∀ x, x ∉ s.in_play → x ∉ s'.in_play) ∧
    (∃ rest, s'.reports = s.reports ++ rest) ∧
    s'.dependents = s.dependents := by
  intro f
  induction f with
  | zero => intro k b s s' h; exact absurd h (by simp [mark_failed])
  | succ f ih =>
    intro k b s s' h
    rw [mark_failed] at h
    by_cases hb : dmem s.exceptions_blame k = true
    · rw [if_pos hb] at h
      cases h
      exact ⟨fun x v hv => hv, fun x hx => hx, fun x hx => hx, fun x hx => hx,
        ⟨[], by simp⟩, rfl⟩
    · rw [if_neg hb] at h
      cases hexc : dlookup s.exceptions b with
      | none => rw [hexc] at h; exact absurd h (by simp)
      | some exc =>
        rw [hexc] at h
        cases htb : dlookup s.tracebacks b with
        | none => rw [htb] at h; simp at h
        | some tb =>
          rw [htb] at h
          simp only at h
          rw [sremove] at h
          by_cases hip : k ∈ (SchedState.in_play s)
          · rw [if_pos hip] at h
            simp only at h
            cases hdeps : dlookup s.dependents k with
            | none => rw [hdeps] at h; simp at h
            | some deps =>
              rw [hdeps] at h
              simp only at h
              -- h : efoldM over deps from the intermediate state = ok s'
              have hfold := efoldM_pres (P := fun st =>
                (∀ x v, dlookup s.exceptions_blame x = some v →
                  dlookup st.exceptions_blame x = some v) ∧
                (∀ x, dlookup s.waiting x = none → dlookup st.waiting x = none) ∧
                (∀ x, dlookup s.waiting_data x = none → dlookup st.waiting_data x = none) ∧
                (∀ x, x ∉ s.in_play → x ∉ st.in_play) ∧
                (∃ rest, st.reports = s.reports ++ rest) ∧
                st.dependents = s.dependents)
                (fun st dep st' hstep hP => by
                  obtain ⟨p1, p2, p3, p4, p5, p6⟩ := hP
                  obtain ⟨q1, q2, q3, q4, q5, q6⟩ := ih dep b st st' hstep
                  refine ⟨fun x v hv => q1 x v (p1 x v hv),
                    fun x hx => q2 x (p2 x hx),
                    fun x hx => q3 x (p3 x hx),
                    fun x hx => q4 x (p4 x hx), ?_, by rw [q6, p6]⟩
                  obtain ⟨r1, hr1⟩ := p5
                  obtain ⟨r2, hr2⟩ := q5
                  exact ⟨r1 ++ r2, by rw [hr2, hr1, List.append_assoc]⟩)
                h
              apply hfold
              refine ⟨?_, ?_, ?_, ?_, ⟨[.task_erred k exc tb], rfl⟩, rfl⟩
              · intro x v hv
                simp only
                have hxk : ¬ k = x := by
                  intro hkx
                  subst hkx
                  rw [dmem_eq_isSome, hv] at hb
                  exact hb rfl
                rw [dlookup_dset_ne _ _ _ _ hxk]
                exact hv
              · intro x hx
                simp only
                by_cases hxk : k = x
                · subst hxk; exact dlookup_derase_self _ _
                · rw [dlookup_derase_ne _ _ _ hxk]; exact hx
              · intro x hx
                simp only
                by_cases hxk : k = x
                · subst hxk; exact dlookup_derase_self _ _
                · rw [dlookup_derase_ne _ _ _ hxk]; exact hx
              · intro x hx
                simp only
                intro hmem
                exact hx (List.mem_of_mem_filter hmem)
          · rw [if_neg hip] at h
            simp at h

lemma mark_failed_blamed : ∀ (f : Nat) (k b : Key) (s s' : SchedState),
    mark_failed f k b s = .ok s' → dmem s'.exceptions_blame k = true := by
  intro f k b s s' h
  cases f with
  | zero => exact absurd h (by simp [mark_failed])
  | succ f =>
    rw [mark_failed] at h
    by_cases hb : dmem s.exceptions_blame k = true
    · rw [if_pos hb] at h
      cases h
      exact hb
    · rw [if_neg hb] at h
      cases hexc : dlookup s.exceptions b with
      | none => rw [hexc] at h; exact absurd h (by simp)
      | some exc =>
        rw [hexc] at h
        cases htb : dlookup s.tracebacks b with
        | none => rw [htb] at h; simp at h
        | some tb =>
          rw [htb] at h
          simp only at h
          rw [sremove] at h
          by_cases hip : k ∈ (SchedState.in_play s)
          · rw [if_pos hip] at h
            simp only at h
            cases hdeps : dlookup s.dependents k with
            | none => rw [hdeps] at h; simp at h
            | some deps =>
              rw [hdeps] at h
              simp only at h
              have hstart : dlookup (dset s.exceptions_blame k b) k = some b :=
                dlookup_dset_self _ _ _
              have hend := efoldM_pres (P := fun st =>
                  dlookup st.exceptions_blame k = some b)
                (fun st dep st' hstep hP =>
                  (mark_failed_pres f dep b st st' hstep).1 k b hP) h hstart
              rw [dmem_eq_isSome, hend]
              rfl
          · rw [if_neg hip] at h
            simp at h

lemma mark_failed_pres_dmem {f : Nat} {k b x : Key} {s s' : SchedState}
    (h : mark_failed f k b s = .ok s') (hx : dmem s.exceptions_blame x = true) :
    dmem s'.exceptions_blame x = true := by
  rw [dmem_eq_isSome] at hx ⊢
  cases hl : dlookup s.exceptions_blame x with
  | none => rw [hl] at hx; exact absurd hx (by simp)
  | some v =>
    rw [(mark_failed_pres f k b s s' h).1 x v hl]
    rfl

lemma mark_failed_fold_blames {f : Nat} {b : Key} :
    ∀ (deps : List Key) (s3 s' : SchedState),
      efoldM (fun st dep => mark_failed f dep b st) s3 deps = .ok s' →
      ∀ d ∈ deps, dmem s'.exceptions_blame d = true := by
  intro deps
  induction deps with
  | nil => intro s3 s' h d hd; simp at hd
  | cons d0 rest ih =>
    intro s3 s' h d hd
    simp only [efoldM] at h
    cases hx : mark_failed f d0 b s3 with
    | error e => rw [hx] at h; exact absurd h (by simp)
    | ok mid =>
      rw [hx] at h
      rcases List.mem_cons.1 hd with rfl | hd2
      · have hmid := mark_failed_blamed f d b s3 mid hx
        exact efoldM_pres (P := fun st => dmem st.exceptions_blame d = true)
          (fun st dep st' hstep hP => mark_failed_pres_dmem hstep hP) h hmid
      · exact ih mid s' h d hd2

/-- C3: `mark_failed(k, blame)` is idempotent — it returns the state
unchanged when `k` is already in `exceptions_blame` — and otherwise records
`exceptions_blame[k] = blame`, emits a task-erred report for `k`, removes `k`
from `waiting`, `waiting_data` and `in_play`, and recurses into every
dependent of `k`; consequently, for the graph `{a:(bad,), b:(f,'a'),
c:(f,'b')}` with output keys `{c}`, an error reported for `a` yields
`exceptions_blame = {a:a, b:a, c:a}` and exactly one task-erred report per
key. -/
theorem claim_C3 :
    (∀ (fuel : Nat) (key failing_key : Key) (s : SchedState),
        dmem s.exceptions_blame key = true →
        mark_failed (fuel + 1) key failing_key s = .ok s) ∧
    (∀ (fuel : Nat) (key failing_key : Key) (s s' : SchedState),
        dmem s.exceptions_blame key = false →
        mark_failed fuel key failing_key s = .ok s' →
        dlookup s'.exceptions_blame key = some failing_key ∧
        dlookup s'.waiting key = none ∧
        dlookup s'.waiting_data key = none ∧
        key ∉ s'.in_play ∧
        (∀ d ∈ dlookupD s.dependents key [], dmem s'.exceptions_blame d = true) ∧
        (∃ exc tb rest, s'.reports = s.reports ++ .task_erred key exc tb :: rest)) ∧
    (mark_task_erred 1 (0, 8000) 99 77 errCascadeState).map
        (fun s => (s.exceptions_blame, s.reports, s.waiting, s.waiting_data, s.in_play))
      = .ok ([(1, 1), (2, 1), (3, 1)],
             [.task_erred 1 99 77, .task_erred 2 99 77, .task_erred 3 99 77],
             [], [], []) := by
  refine ⟨?_, ?_, by rfl⟩
  · intro fuel key failing_key s hb
    rw [mark_failed, if_pos hb]
  · intro fuel key failing_key s s' hb h
    cases fuel with
    | zero => exact absurd h (by simp [mark_failed])
    | succ f =>
      rw [mark_failed] at h
      rw [if_neg (by rw [hb]; exact Bool.noConfusion)] at h
      cases hexc : dlookup s.exceptions failing_key with
      | none => rw [hexc] at h; exact absurd h (by simp)
      | some exc =>
        rw [hexc] at h
        cases htb : dlookup s.tracebacks failing_key with
        | none => rw [htb] at h; simp at h
        | some tb =>
          rw [htb] at h
          simp only at h
          rw [sremove] at h
          by_cases hip : key ∈ (SchedState.in_play s)
          · rw [if_pos hip] at h
            simp only at h
            cases hdeps : dlookup s.dependents key with
            | none => rw [hdeps] at h; simp at h
            | some deps =>
              rw [hdeps] at h
              simp only at h
              have hP := efoldM_pres (P := fun st =>
                  dlookup st.exceptions_blame key = some failing_key ∧
                  dlookup st.waiting key = none ∧
                  dlookup st.waiting_data key = none ∧
                  key ∉ st.in_play ∧
                  (∃ rest, st.reports = s.reports ++ .task_erred key exc tb :: rest))
                (fun st dep st' hstep hPst => by
                  obtain ⟨p1, p2, p3, p4, p5⟩ := hPst
                  obtain ⟨q1, q2, q3, q4, q5, q6⟩ := mark_failed_pres f dep failing_key st st' hstep
                  refine ⟨q1 key failing_key p1, q2 key p2, q3 key p3, q4 key p4, ?_⟩
                  obtain ⟨r1, hr1⟩ := p5
                  obtain ⟨r2, hr2⟩ := q5
                  exact ⟨r1 ++ r2, by rw [hr2, hr1]; simp⟩)
                h
                ⟨dlookup_dset_self _ _ _, dlookup_derase_self _ _, dlookup_derase_self _ _,
                 fun hmem => by have hcon := (List.mem_filter.1 hmem).2; simp at hcon,
                 ⟨[], by simp⟩⟩
              obtain ⟨p1, p2, p3, p4, p5⟩ := hP
              refine ⟨p1, p2, p3, p4, ?_, ⟨exc, tb, p5.choose, p5.choose_spec⟩⟩
              intro d hd
              have : dlookupD s.dependents key [] = deps := by
                rw [dlookupD, hdeps]
                rfl
              rw [this] at hd
              exact mark_failed_fold_blames deps _ s' h d hd
          · rw [if_neg hip] at h
            simp at h

/-- Witness for C3: both general parts applied at the error-cascade fixture
(idempotence at the post-cascade state, the post-conditions at key `a`). -/
theorem claim_C3_witness :
    (∃ s1, mark_task_erred 1 (0, 8000) 99 77 errCascadeState = .ok s1 ∧
      mark_failed 1 1 1 s1 = .ok s1) ∧
    (∃ s2, mark_failed 4 1 1
        { errCascadeState with exceptions := [(1, 99)], tracebacks := [(1, 77)] } = .ok s2 ∧
      dlookup s2.exceptions_blame 1 = some 1 ∧ (1 : Key) ∉ s2.in_play) := by
  constructor
  · refine ⟨(mark_task_erred 1 (0, 8000) 99 77 errCascadeState).toOption.getD initState,
      by rfl, ?_⟩
    exact claim_C3.1 0 1 1 _ (by rfl)
  · refine ⟨(mark_failed 4 1 1
      { errCascadeState with exceptions := [(1, 99)], tracebacks := [(1, 77)] }).toOption.getD
        initState, by rfl, ?_⟩
    have h := claim_C3.2.1 4 1 1
      { errCascadeState with exceptions := [(1, 99)], tracebacks := [(1, 77)] } _
      (by rfl) (by rfl)
    exact ⟨h.1, h.2.2.2.1⟩

/- ======================= small list lemmas ======================= -/

lemma mem_sadd {α : Type} [DecidableEq α] {s : List α} {x y : α}
    (h : x ∈ sadd s y) : x ∈ s ∨ x = y := by
  rw [sadd] at h
  by_cases hy : y ∈ s
  · rw [if_pos hy] at h; exact Or.inl h
  · rw [if_neg hy] at h
    rcases List.mem_append.1 h with h2 | h2
    · exact Or.inl h2
    · simp at h2; exact Or.inr h2

lemma mem_sinsert {α : Type} {le : α → α → Bool} {x y : α} :
    ∀ {l : List α}, x ∈ sinsert le y l ↔ x = y ∨ x ∈ l := by
  intro l
  induction l with
  | nil => simp [sinsert]
  | cons z zs ih =>
    rw [sinsert]
    by_cases h : le y z = true
    · rw [if_pos h]; simp
    · rw [if_neg h]
      simp only [List.mem_cons, ih]
      tauto

lemma mem_ssort {α : Type} {le : α → α → Bool} {x : α} :
    ∀ {l : List α}, x ∈ ssort le l ↔ x ∈ l := by
  intro l
  induction l with
  | nil => simp [ssort]
  | cons z zs ih =>
    rw [ssort, mem_sinsert]
    simp [ih]

lemma dlookup_mem {K V : Type} [DecidableEq K] :
    ∀ {d : Dict K V} {k : K} {v : V}, dlookup d k = some v → (k, v) ∈ d := by
  intro d
  induction d with
  | nil => intro k v h; simp [dlookup] at h
  | cons p rest ih =>
    intro k v h
    obtain ⟨k0, v0⟩ := p
    rw [dlookup] at h
    by_cases h0 : k0 = k
    · rw [if_pos h0] at h
      cases h
      subst h0
      exact List.mem_cons_self _ _
    · rw [if_neg h0] at h
      exact List.mem_cons_of_mem _ (ih h)

lemma mem_dset {K V : Type} [DecidableEq K] :
    ∀ {d : Dict K V} {k : K} {v : V} {p : K × V},
      p ∈ dset d k v → p = (k, v) ∨ p ∈ d := by
  intro d
  induction d with
  | nil => intro k v p h; simpa [dset] using h
  | cons q rest ih =>
    intro k v p h
    obtain ⟨k0, v0⟩ := q
    rw [dset] at h
    by_cases h0 : k0 = k
    · rw [if_pos h0] at h
      rcases List.mem_cons.1 h with rfl | h2
      · exact Or.inl rfl
      · exact Or.inr (List.mem_cons_of_mem _ h2)
    · rw [if_neg h0] at h
      rcases List.mem_cons.1 h with rfl | h2
      · exact Or.inr (List.mem_cons_self _ _)
      · rcases ih h2 with h3 | h3
        · exact Or.inl h3
        · exact Or.inr (List.mem_cons_of_mem _ h3)

lemma not_mem_sdiscard {α : Type} [DecidableEq α] (s : List α) (x : α) :
    x ∉ sdiscard s x := by
  intro h
  have := (List.mem_filter.1 h).2
  simp at this

lemma mem_sdiscard_sub {α : Type} [DecidableEq α] {s : List α} {x y : α}
    (h : x ∈ sdiscard s y) : x ∈ s :=
  List.mem_of_mem_filter h

/- ======================= replay invariant lemmas ======================= -/

lemma ensure_occupied_loop_replayInv {key : Key} {w : Worker} :
    ∀ (fuel : Nat) (w' : Worker) (st st' : SchedState),
      ensure_occupied_loop fuel w' st = .ok st' →
      replayInv key w st → replayInv key w st' := by
  intro fuel
  induction fuel with
  | zero =>
    intro w' st st' h hP
    rw [ensure_occupied_loop] at h
    cases h
    exact hP
  | succ fuel ih =>
    intro w' st st' h hP
    obtain ⟨hP1, hP2, hP3⟩ := hP
    rw [ensure_occupied_loop] at h
    cases hst : dlookup st.stacks' w' with
    | none => rw [hst] at h; exact absurd h (by simp)
    | some stl =>
      rw [hst] at h
      cases hnc : dlookup st.ncores w' with
      | none => rw [hnc] at h; simp at h
      | some nc =>
        rw [hnc] at h
        cases hpr : dlookup st.processing w' with
        | none => rw [hpr] at h; simp at h
        | some pr =>
          rw [hpr] at h
          simp only at h
          by_cases hcond : (stl.isEmpty || !(decide (pr.length < nc))) = true
          · rw [if_pos hcond] at h
            cases h
            exact ⟨hP1, hP2, hP3⟩
          · rw [if_neg hcond] at h
            cases hlast : stl.getLast? with
            | none => rw [hlast] at h; cases h; exact ⟨hP1, hP2, hP3⟩
            | some k0 =>
              rw [hlast] at h
              simp only at h
              cases hdask : dlookup st.dask k0 with
              | none => rw [hdask] at h; simp at h
              | some tsk =>
                rw [hdask] at h
                cases hdep : dlookup st.dependencies k0 with
                | none => rw [hdep] at h; simp at h
                | some dps =>
                  rw [hdep] at h
                  have hkstl : key ∉ stl := hP1 (w', stl) (dlookup_mem hst)
                  have hk0 : k0 ≠ key := by
                    intro hk
                    subst hk
                    exact hkstl (List.mem_of_getLast?_eq_some hlast)
                  apply ih w' _ st' h
                  refine ⟨?_, ?_, ?_⟩
                  · intro p hp
                    rcases mem_dset hp with rfl | hp2
                    · exact fun hk => hkstl (List.dropLast_subset stl hk)
                    · exact hP1 p hp2
                  · intro pr' hpr'
                    by_cases hw : w' = w
                    · subst hw
                      rw [dlookup_dset_self] at hpr'
                      cases hpr'
                      intro hk
                      rcases mem_sadd hk with h2 | h2
                      · exact hP2 pr hpr h2
                      · exact hk0 h2.symm
                    · rw [dlookup_dset_ne _ _ _ _ hw] at hpr'
                      exact hP2 pr' hpr'
                  · by_cases hw : w' = w
                    · subst hw
                      rw [dlookup_dset_self]
                      rfl
                    · rw [dlookup_dset_ne _ _ _ _ hw]
                      exact hP3

/-- `delete_data` leaves the graph, stack, processing and waiting state
untouched; it only moves residency and garbage bookkeeping. -/
lemma delete_data_fields {keys : List Key} {s s' : SchedState}
    (h : delete_data keys s = .ok s') :
    s'.stacks' = s.stacks' ∧ s'.processing = s.processing ∧ s'.waiting = s.waiting ∧
    s'.dependents = s.dependents ∧ s'.dependencies = s.dependencies ∧
    s'.ncores = s.ncores ∧ s'.dask = s.dask ∧ s'.keyorder = s.keyorder ∧
    s'.held_data = s.held_data ∧ s'.nbytes = s.nbytes ∧
    s'.restrictions = s.restrictions ∧ s'.loose_restrictions = s.loose_restrictions := by
  rw [delete_data] at h
  refine efoldM_pres (P := fun st =>
      st.stacks' = s.stacks' ∧ st.processing = s.processing ∧ st.waiting = s.waiting ∧
      st.dependents = s.dependents ∧ st.dependencies = s.dependencies ∧
      st.ncores = s.ncores ∧ st.dask = s.dask ∧ st.keyorder = s.keyorder ∧
      st.held_data = s.held_data ∧ st.nbytes = s.nbytes ∧
      st.restrictions = s.restrictions ∧ st.loose_restrictions = s.loose_restrictions)
    (fun st key st' hstep hP => ?_) h
    ⟨rfl, rfl, rfl, rfl, rfl, rfl, rfl, rfl, rfl, rfl, rfl, rfl⟩
  cases hinner : efoldM (fun s2 worker =>
      if key ∈ dlookupD s2.has_what worker [] then
        .ok { s2 with
              has_what := dset s2.has_what worker
                (sdiscard (dlookupD s2.has_what worker []) key),
              deleted_keys := dset s2.deleted_keys worker
                (sadd (dlookupD s2.deleted_keys worker []) key) }
      else .error .keyError) st (dlookupD st.who_has key []) with
  | error e => rw [hinner] at hstep; exact absurd hstep (by simp)
  | ok s3 =>
    rw [hinner] at hstep
    simp only at hstep
    have h3 := efoldM_pres (P := fun st2 =>
        st2.stacks' = st.stacks' ∧ st2.processing = st.processing ∧
        st2.waiting = st.waiting ∧ st2.dependents = st.dependents ∧
        st2.dependencies = st.dependencies ∧ st2.ncores = st.ncores ∧
        st2.dask = st.dask ∧ st2.keyorder = st.keyorder ∧
        st2.held_data = st.held_data ∧ st2.nbytes = st.nbytes ∧
        st2.restrictions = st.restrictions ∧
        st2.loose_restrictions = st.loose_restrictions)
      (fun st2 worker st2' hstep2 hP2 => by
        by_cases hc : key ∈ dlookupD st2.has_what worker []
        · rw [if_pos hc] at hstep2
          cases hstep2
          exact hP2
        · rw [if_neg hc] at hstep2
          exact absurd hstep2 (by simp))
      hinner ⟨rfl, rfl, rfl, rfl, rfl, rfl, rfl, rfl, rfl, rfl, rfl, rfl⟩
    cases hstep
    obtain ⟨a1, a2, a3, a4, a5, a6, a7, a8, a9, a10, a11, a12⟩ := h3
    obtain ⟨b1, b2, b3, b4, b5, b6, b7, b8, b9, b10, b11, b12⟩ := hP
    exact ⟨by rw [a1, b1], by rw [a2, b2], by rw [a3, b3], by rw [a4, b4],
      by rw [a5, b5], by rw [a6, b6], by rw [a7, b7], by rw [a8, b8],
      by rw [a9, b9], by rw [a10, b10], by rw [a11, b11], by rw [a12, b12]⟩

lemma delete_data_replayInv {key : Key} {w : Worker} {keys : List Key}
    {st st' : SchedState} (h : delete_data keys st = .ok st')
    (hP : replayInv key w st) : replayInv key w st' := by
  obtain ⟨h1, h2, -⟩ := delete_data_fields h
  obtain ⟨p1, p2, p3⟩ := hP
  exact ⟨by rw [h1]; exact p1, by rw [h2]; exact p2, by rw [h2]; exact p3⟩

lemma mrtr_core_replayInv {key : Key} {w : Worker} {j : Key} (hj : j ≠ key)
    {s1 st' : SchedState}
    (h : (match decide_worker s1.dependencies s1.stacks' s1.who_has s1.restrictions
            s1.loose_restrictions s1.nbytes j with
          | .error e => (.error e : M SchedState)
          | .ok dw =>
            match dlookup s1.stacks' dw with
            | none => .error .keyError
            | some stl =>
              ensure_occupied dw { s1 with stacks' := dset s1.stacks' dw (stl ++ [j]) })
        = .ok st')
    (hP : replayInv key w s1) : replayInv key w st' := by
  obtain ⟨hP1, hP2, hP3⟩ := hP
  cases hdw : decide_worker s1.dependencies s1.stacks' s1.who_has s1.restrictions
      s1.loose_restrictions s1.nbytes j with
  | error e => rw [hdw] at h; exact absurd h (by simp)
  | ok dw =>
    rw [hdw] at h
    simp only at h
    cases hstl : dlookup s1.stacks' dw with
    | none => rw [hstl] at h; simp at h
    | some stl =>
      rw [hstl] at h
      simp only at h
      rw [ensure_occupied] at h
      refine ensure_occupied_loop_replayInv _ _ _ _ h ⟨?_, hP2, hP3⟩
      intro p hp
      rcases mem_dset hp with rfl | hp2
      · simp only [List.mem_append, List.mem_singleton]
        rintro (hk | rfl)
        · exact hP1 (dw, stl) (dlookup_mem hstl) hk
        · exact hj rfl
      · exact hP1 p hp2

lemma mark_ready_to_run_replayInv {key : Key} {w : Worker} {j : Key} (hj : j ≠ key)
    {st st' : SchedState} (h : mark_ready_to_run j st = .ok st')
    (hP : replayInv key w st) : replayInv key w st' := by
  rw [mark_ready_to_run] at h
  cases hw : dlookup st.waiting j with
  | none =>
    rw [hw] at h
    simp only at h
    exact @mrtr_core_replayInv _ _ _ hj st _ h hP
  | some v =>
    rw [hw] at h
    simp only at h
    by_cases hv : v = []
    · rw [if_pos hv] at h
      simp only at h
      refine @mrtr_core_replayInv _ _ _ hj { st with waiting := derase st.waiting j } _ h ?_
      exact hP
    · rw [if_neg hv] at h
      simp at h

lemma efoldM_pres_mem {σ α : Type} {f : σ → α → M σ} {P : σ → Prop} :
    ∀ {l : List α},
      (∀ st a st', a ∈ l → f st a = .ok st' → P st → P st') →
      ∀ {s s' : σ}, efoldM f s l = .ok s' → P s → P s' := by
  intro l
  induction l with
  | nil => intro hf s s' h hp; simp [efoldM] at h; subst h; exact hp
  | cons x xs ih =>
    intro hf s s' h hp
    simp only [efoldM] at h
    cases hx : f s x with
    | error e => rw [hx] at h; exact absurd h (by simp)
    | ok s1 =>
      rw [hx] at h
      exact ih (fun st a st' ha => hf st a st' (List.mem_cons_of_mem _ ha)) h
        (hf s x s1 (List.mem_cons_self _ _) hx hp)

lemma mark_key_in_memory_replayInv {key : Key} {w : Worker} {s1 s2 : SchedState}
    (h : mark_key_in_memory key (some [w]) s1 = .ok s2)
    (hstacks : ∀ p ∈ s1.stacks', key ∉ p.2)
    (hdeps : key ∉ dlookupD s1.dependents key [])
    (hproc : (dlookup s1.processing w).isSome = true) :
    replayInv key w s2 := by
  obtain ⟨pr, hpr⟩ : ∃ pr, dlookup s1.processing w = some pr := by
    cases hx : dlookup s1.processing w with
    | none => rw [hx] at hproc; exact absurd hproc (by simp)
    | some pr => exact ⟨pr, rfl⟩
  rw [mark_key_in_memory] at h
  simp only [List.foldl_cons, List.foldl_nil] at h
  rw [hpr] at h
  simp only at h
  have hinv1 : replayInv key w
      { s1 with
        who_has := dset s1.who_has key (sadd (dlookupD s1.who_has key []) w),
        has_what := dset s1.has_what w (sadd (dlookupD s1.has_what w []) key),
        processing := dset s1.processing w (sdiscard pr key) } := by
    refine ⟨hstacks, ?_, ?_⟩
    · intro pr' hpr'
      simp only at hpr'
      rw [dlookup_dset_self] at hpr'
      cases hpr'
      exact not_mem_sdiscard pr key
    · simp only
      rw [dlookup_dset_self]
      rfl
  cases hf1 : efoldM (fun st dep =>
      match dlookup st.waiting dep with
      | none => .ok st
      | some sw =>
        let sw' := sdiscard sw key
        let st' := { st with waiting := dset st.waiting dep sw' }
        if sw' = [] then mark_ready_to_run dep st' else .ok st')
      { s1 with
        who_has := dset s1.who_has key (sadd (dlookupD s1.who_has key []) w),
        has_what := dset s1.has_what w (sadd (dlookupD s1.has_what w []) key),
        processing := dset s1.processing w (sdiscard pr key) }
      (ssort (fun a b => optPairLe (dlookup s1.keyorder b) (dlookup s1.keyorder a))
        (dlookupD s1.dependents key [])) with
  | error e => rw [hf1] at h; exact absurd h (by simp)
  | ok sA =>
    rw [hf1] at h
    simp only at h
    have hinvA : replayInv key w sA := by
      refine efoldM_pres_mem (P := replayInv key w) ?_ hf1 hinv1
      intro st dep st' hmem hstep hP
      have hdep : dep ≠ key := by
        intro hdk
        subst hdk
        exact hdeps (mem_ssort.1 hmem)
      cases hwdep : dlookup st.waiting dep with
      | none =>
        rw [hwdep] at hstep
        cases hstep
        exact hP
      | some sw =>
        rw [hwdep] at hstep
        simp only at hstep
        by_cases hsw : sdiscard sw key = []
        · rw [if_pos hsw] at hstep
          exact mark_ready_to_run_replayInv hdep hstep hP
        · rw [if_neg hsw] at hstep
          cases hstep
          exact hP
    cases hf2 : efoldM (fun st dep =>
        match dlookup st.waiting_data dep with
        | none => .ok st
        | some sw =>
          let sw' := sdiscard sw key
          let st' := { st with waiting_data := dset st.waiting_data dep sw' }
          if sw' = [] ∧ dep ≠ 0 ∧ dep ∉ st'.held_data then delete_data [dep] st'
          else .ok st') sA (dlookupD sA.dependencies key []) with
    | error e => rw [hf2] at h; exact absurd h (by simp)
    | ok sB =>
      rw [hf2] at h
      simp only at h
      have hinvB : replayInv key w sB := by
        refine efoldM_pres_mem (P := replayInv key w) ?_ hf2 hinvA
        intro st dep st' hmem hstep hP
        cases hwd : dlookup st.waiting_data dep with
        | none =>
          rw [hwd] at hstep
          cases hstep
          exact hP
        | some sw =>
          rw [hwd] at hstep
          simp only at hstep
          by_cases hc : sdiscard sw key = [] ∧ dep ≠ 0 ∧
              dep ∉ ({ st with waiting_data := dset st.waiting_data dep (sdiscard sw key) } :
                SchedState).held_data
          · rw [if_pos hc] at hstep
            exact delete_data_replayInv hstep hP
          · rw [if_neg hc] at hstep
            cases hstep
            exact hP
      cases h
      exact hinvB

/-- C5: `mark_task_finished(k, w, nbytes)` is guarded by
`k ∈ processing[w]`: when the guard holds it records the byte size, marks
`k` in memory on `{w}` and refills `w`'s cores; when the guard fails it
changes no scheduler state, so replaying the same completion a second time
is a no-op (in any state where `k` sits in no stack and does not depend on
itself, as every real state satisfies). -/
theorem claim_C5 :
    (∀ (key : Key) (w : Worker) (nb : Nat) (s : SchedState) (pr : List Key),
        dlookup s.processing w = some pr → key ∉ pr →
        mark_task_finished key w nb s = .ok s) ∧
    (∀ (key : Key) (w : Worker) (nb : Nat) (s s' : SchedState) (pr : List Key),
        dlookup s.processing w = some pr → key ∈ pr →
        mark_task_finished key w nb s = .ok s' →
        ∃ s2, mark_key_in_memory key (some [w])
            { s with nbytes := dset s.nbytes key nb } = .ok s2 ∧
          ensure_occupied w s2 = .ok s') ∧
    (∀ (key : Key) (w : Worker) (nb : Nat) (s s' : SchedState),
        (∀ p ∈ s.stacks', key ∉ p.2) →
        key ∉ dlookupD s.dependents key [] →
        mark_task_finished key w nb s = .ok s' →
        mark_task_finished key w nb s' = .ok s') := by
  refine ⟨?_, ?_, ?_⟩
  · intro key w nb s pr hpr hnot
    rw [mark_task_finished, hpr]
    simp only
    rw [if_neg hnot]
  · intro key w nb s s' pr hpr hin h
    rw [mark_task_finished, hpr] at h
    simp only at h
    rw [if_pos hin] at h
    cases hmk : mark_key_in_memory key (some [w]) { s with nbytes := dset s.nbytes key nb } with
    | error e => rw [hmk] at h; exact absurd h (by simp)
    | ok s2 =>
      rw [hmk] at h
      exact ⟨s2, rfl, h⟩
  · intro key w nb s s' hstacks hdeps h
    rw [mark_task_finished] at h
    cases hpr : dlookup s.processing w with
    | none => rw [hpr] at h; exact absurd h (by simp)
    | some pr =>
      rw [hpr] at h
      simp only at h
      by_cases hin : key ∈ pr
      · rw [if_pos hin] at h
        cases hmk : mark_key_in_memory key (some [w])
            { s with nbytes := dset s.nbytes key nb } with
        | error e => rw [hmk] at h; exact absurd h (by simp)
        | ok s2 =>
          rw [hmk] at h
          have hinv2 : replayInv key w s2 :=
            mark_key_in_memory_replayInv hmk hstacks hdeps (by rw [hpr]; rfl)
          have hinv' : replayInv key w s' := by
            unfold ensure_occupied at h
            exact ensure_occupied_loop_replayInv _ _ _ _ h hinv2
          obtain ⟨-, hp2, hp3⟩ := hinv'
          obtain ⟨pr', hpr'⟩ : ∃ pr', dlookup s'.processing w = some pr' := by
            cases hx : dlookup s'.processing w with
            | none => rw [hx] at hp3; exact absurd hp3 (by simp)
            | some pr' => exact ⟨pr', rfl⟩
          rw [mark_task_finished, hpr']
          simp only
          rw [if_neg (hp2 pr' hpr')]
      · rw [if_neg hin] at h
        cases h
        rw [mark_task_finished, hpr]
        simp only
        rw [if_neg hin]

/-- Witness for C5: finishing key `a` on the single worker of the cascade
fixture, then replaying the same completion, is a no-op; and a completion
whose guard fails leaves the state unchanged. -/
theorem claim_C5_witness :
    mark_task_finished 2 (0, 8000) 5 errCascadeState = .ok errCascadeState ∧
    mark_task_finished 1 (0, 8000) 5
        ((mark_task_finished 1 (0, 8000) 5 errCascadeState).toOption.getD initState)
      = .ok ((mark_task_finished 1 (0, 8000) 5 errCascadeState).toOption.getD initState) := by
  constructor
  · exact claim_C5.1 2 (0, 8000) 5 errCascadeState [1] rfl (by decide)
  · exact claim_C5.2.2 1 (0, 8000) 5 errCascadeState _ (by decide) (by decide) (by rfl)

/- ======================= keys_outside_frontier lemmas ======================= -/

lemma kof_loop_spec {dependencies : Dict Key (List Key)} {keys frontier : List Key} :
    ∀ (fuel : Nat) (stack result R : List Key),
      kof_loop dependencies frontier fuel stack result = .ok R →
      (∀ x ∈ stack, x ∈ frontier ∨ ReachOut dependencies keys frontier x) →
      (∀ x ∈ result, ReachOut dependencies keys frontier x ∧ x ∉ frontier) →
      (∀ x ∈ result, ∃ ds, dlookup dependencies x = some ds ∧
        ∀ d ∈ ds, d ∈ frontier ∨ d ∈ result ∨ d ∈ stack) →
      (∀ k ∈ keys, k ∉ frontier → k ∈ result ∨ k ∈ stack) →
      result.Nodup →
      ((∀ x, x ∈ R ↔ ReachOut dependencies keys frontier x) ∧ R.Nodup) := by
  have hterm : ∀ (result : List Key),
      (∀ x ∈ result, ReachOut dependencies keys frontier x ∧ x ∉ frontier) →
      (∀ x ∈ result, ∃ ds, dlookup dependencies x = some ds ∧
        ∀ d ∈ ds, d ∈ frontier ∨ d ∈ result ∨ d ∈ ([] : List Key)) →
      (∀ k ∈ keys, k ∉ frontier → k ∈ result ∨ k ∈ ([] : List Key)) →
      result.Nodup →
      ((∀ x, x ∈ result ↔ ReachOut dependencies keys frontier x) ∧ result.Nodup) := by
    intro result hres hclo hbase hnd
    refine ⟨fun x => ⟨fun hx => (hres x hx).1, fun hr => ?_⟩, hnd⟩
    induction hr with
    | base k hk hknf =>
      rcases hbase k hk hknf with h2 | h2
      · exact h2
      · simp at h2
    | step x d ds hx hds hd hdnf ihx =>
      obtain ⟨ds', hds', hsub⟩ := hclo x ihx
      rw [hds] at hds'
      cases hds'
      rcases hsub d hd with h2 | h2 | h2
      · exact absurd h2 hdnf
      · exact h2
      · simp at h2
  intro fuel
  induction fuel with
  | zero =>
    intro stack result R h hstack hres hclo hbase hnd
    cases stack with
    | nil =>
      rw [kof_loop] at h
      cases h
      exact hterm result hres hclo hbase hnd
    | cons x rest => exact absurd h (by simp [kof_loop])
  | succ fuel ih =>
    intro stack result R h hstack hres hclo hbase hnd
    cases stack with
    | nil =>
      rw [kof_loop] at h
      cases h
      exact hterm result hres hclo hbase hnd
    | cons x rest =>
      rw [kof_loop] at h
      by_cases hskip : (x ∈ result || x ∈ frontier) = true
      · rw [if_pos hskip] at h
        have hxr : x ∈ result ∨ x ∈ frontier := by
          rcases Bool.or_eq_true_iff.1 hskip with h2 | h2
          · exact Or.inl (by simpa using h2)
          · exact Or.inr (by simpa using h2)
        refine ih rest result R h (fun y hy => hstack y (List.mem_cons_of_mem _ hy))
          hres ?_ ?_ hnd
        · intro y hy
          obtain ⟨ds, hds, hsub⟩ := hclo y hy
          refine ⟨ds, hds, fun d hd => ?_⟩
          rcases hsub d hd with h2 | h2 | h2
          · exact Or.inl h2
          · exact Or.inr (Or.inl h2)
          · rcases List.mem_cons.1 h2 with rfl | h3
            · rcases hxr with h4 | h4
              · exact Or.inr (Or.inl h4)
              · exact Or.inl h4
            · exact Or.inr (Or.inr h3)
        · intro k hk hknf
          rcases hbase k hk hknf with h2 | h2
          · exact Or.inl h2
          · rcases List.mem_cons.1 h2 with rfl | h3
            · rcases hxr with h4 | h4
              · exact Or.inl h4
              · exact absurd h4 hknf
            · exact Or.inr h3
      · rw [if_neg hskip] at h
        have hnotr : x ∉ result ∧ x ∉ frontier := by
          rw [Bool.or_eq_true_iff] at hskip
          push_neg at hskip
          constructor
          · intro h2; exact absurd (by simpa using h2) (by simpa using hskip.1)
          · intro h2; exact absurd (by simpa using h2) (by simpa using hskip.2)
        cases hds : dlookup dependencies x with
        | none => rw [hds] at h; exact absurd h (by simp)
        | some ds =>
          rw [hds] at h
          have hxreach : ReachOut dependencies keys frontier x := by
            rcases hstack x (List.mem_cons_self _ _) with h2 | h2
            · exact absurd h2 hnotr.2
            · exact h2
          refine ih (ds ++ rest) (result ++ [x]) R h ?_ ?_ ?_ ?_ ?_
          · intro y hy
            rcases List.mem_append.1 hy with h2 | h2
            · by_cases hyf : y ∈ frontier
              · exact Or.inl hyf
              · exact Or.inr (ReachOut.step x y ds hxreach hds h2 hyf)
            · exact hstack y (List.mem_cons_of_mem _ h2)
          · intro y hy
            rcases List.mem_append.1 hy with h2 | h2
            · exact hres y h2
            · simp only [List.mem_singleton] at h2
              subst h2
              exact ⟨hxreach, hnotr.2⟩
          · intro y hy
            rcases List.mem_append.1 hy with h2 | h2
            · obtain ⟨ds', hds', hsub⟩ := hclo y h2
              refine ⟨ds', hds', fun d hd => ?_⟩
              rcases hsub d hd with h3 | h3 | h3
              · exact Or.inl h3
              · exact Or.inr (Or.inl (List.mem_append.2 (Or.inl h3)))
              · rcases List.mem_cons.1 h3 with rfl | h4
                · exact Or.inr (Or.inl (List.mem_append.2 (Or.inr (List.mem_singleton.2 rfl))))
                · exact Or.inr (Or.inr (List.mem_append.2 (Or.inr h4)))
            · simp only [List.mem_singleton] at h2
              subst h2
              exact ⟨ds, hds, fun d hd => Or.inr (Or.inr (List.mem_append.2 (Or.inl hd)))⟩
          · intro k hk hknf
            rcases hbase k hk hknf with h2 | h2
            · exact Or.inl (List.mem_append.2 (Or.inl h2))
            · rcases List.mem_cons.1 h2 with rfl | h3
              · exact Or.inl (List.mem_append.2 (Or.inr (List.mem_singleton.2 rfl)))
              · exact Or.inr (List.mem_append.2 (Or.inr h3))
          · rw [List.nodup_append]
            exact ⟨hnd, List.nodup_singleton x, by
              intro a ha hax
              simp only [List.mem_singleton] at hax
              subst hax
              exact hnotr.1 ha⟩

lemma keys_outside_frontier_spec {dsk : Dict Key PyTask}
    {dependencies : Dict Key (List Key)} {keys frontier R : List Key}
    (h : keys_outside_frontier dsk dependencies keys frontier = .ok R) :
    (∀ x, x ∈ R ↔ ReachOut dependencies keys frontier x) ∧ R.Nodup := by
  rw [keys_outside_frontier] at h
  refine kof_loop_spec _ _ _ _ h ?_ (by simp) (by simp) ?_ List.nodup_nil
  · intro x hx
    rw [pysdiff] at hx
    have h2 := List.mem_filter.1 hx
    exact Or.inr (ReachOut.base x h2.1 (by simpa using h2.2))
  · intro k hk hknf
    refine Or.inr ?_
    rw [pysdiff]
    exact List.mem_filter.2 ⟨hk, by simpa using hknf⟩

lemma mem_sadd_self {α : Type} [DecidableEq α] (s : List α) (x : α) : x ∈ sadd s x := by
  rw [sadd]
  by_cases h : x ∈ s
  · rw [if_pos h]; exact h
  · rw [if_neg h]; simp

lemma mem_sadd_of_mem {α : Type} [DecidableEq α] {s : List α} {x : α} (y : α)
    (h : x ∈ s) : x ∈ sadd s y := by
  rw [sadd]
  by_cases hy : y ∈ s
  · rw [if_pos hy]; exact h
  · rw [if_neg hy]; exact List.mem_append.2 (Or.inl h)

lemma dlookupD_dset_self {K V : Type} [DecidableEq K] (d : Dict K V) (k : K)
    (v dflt : V) : dlookupD (dset d k v) k dflt = v := by
  rw [dlookupD, dlookup_dset_self]
  rfl

lemma dlookupD_dset_ne {K V : Type} [DecidableEq K] (d : Dict K V) (k : K) (v dflt : V)
    (x : K) (h : ¬ k = x) : dlookupD (dset d k v) x dflt = dlookupD d x dflt := by
  rw [dlookupD, dlookup_dset_ne _ _ _ _ h]
  rfl

/-- Effect of one `waiting_data[dep].add(key)` step (with default-entry
creation) on memberships. -/
lemma wd_add_step {k : Key} (wd : Dict Key (List Key)) (dep : Key) :
    (k ∈ dlookupD (if dmem wd dep then dset wd dep (sadd (dlookupD wd dep []) k)
        else dset wd dep (sadd [] k)) dep []) ∧
    (∀ x d, x ∈ dlookupD wd d [] →
      x ∈ dlookupD (if dmem wd dep then dset wd dep (sadd (dlookupD wd dep []) k)
          else dset wd dep (sadd [] k)) d []) := by
  by_cases hm : dmem wd dep = true
  · rw [if_pos hm]
    constructor
    · rw [dlookupD_dset_self]
      exact mem_sadd_self _ _
    · intro x d hx
      by_cases hd : dep = d
      · subst hd
        rw [dlookupD_dset_self]
        exact mem_sadd_of_mem _ hx
      · rw [dlookupD_dset_ne _ _ _ _ _ hd]
        exact hx
  · rw [if_neg hm]
    constructor
    · rw [dlookupD_dset_self]
      exact mem_sadd_self _ _
    · intro x d hx
      by_cases hd : dep = d
      · subst hd
        exfalso
        rw [dlookupD] at hx
        cases hl : dlookup wd dep with
        | none => rw [hl] at hx; simp at hx
        | some l => rw [dmem_eq_isSome, hl] at hm; exact hm rfl
      · rw [dlookupD_dset_ne _ _ _ _ _ hd]
        exact hx

/-- Effect of the whole `for dep in deps: waiting_data[dep].add(key)` loop. -/
lemma wd_add_fold {k : Key} :
    ∀ (deps : List Key) (wd : Dict Key (List Key)),
      (∀ d ∈ deps, k ∈ dlookupD (deps.foldl (fun wd dep =>
        if dmem wd dep then dset wd dep (sadd (dlookupD wd dep []) k)
        else dset wd dep (sadd [] k)) wd) d []) ∧
      (∀ x d, x ∈ dlookupD wd d [] → x ∈ dlookupD (deps.foldl (fun wd dep =>
        if dmem wd dep then dset wd dep (sadd (dlookupD wd dep []) k)
        else dset wd dep (sadd [] k)) wd) d []) := by
  intro deps
  induction deps with
  | nil => intro wd; exact ⟨by simp, fun x d hx => hx⟩
  | cons d0 rest ih =>
    intro wd
    simp only [List.foldl_cons]
    obtain ⟨ih1, ih2⟩ := ih (if dmem wd d0 then dset wd d0 (sadd (dlookupD wd d0 []) k)
      else dset wd d0 (sadd [] k))
    constructor
    · intro d hd
      rcases List.mem_cons.1 hd with rfl | hd2
      · exact ih2 k d ((wd_add_step wd d).1)
      · exact ih1 d hd2
    · intro x d hx
      exact ih2 x d ((wd_add_step wd d0).2 x d hx)

/-- The per-exterior-key fold of `update_state`: each exterior key gets its
computed `waiting` entry and is added to `waiting_data` of each dependency;
other keys' `waiting` entries are untouched, and `waiting_data` memberships
are preserved. -/
lemma us_frontier_fold_spec {deps1 : Dict Key (List Key)}
    {who_has : Dict Key (List Worker)} :
    ∀ (ext : List Key) (w0 wd0 w1 wd1 : Dict Key (List Key)),
      efoldM (us_frontier_step deps1 who_has) (w0, wd0) ext = .ok (w1, wd1) →
      ext.Nodup →
      (∀ k ∈ ext, ∃ ds, dlookup deps1 k = some ds ∧
        dlookup w1 k = some (ds.filter (fun d => !(in_memory_wh who_has d))) ∧
        ∀ d ∈ ds, k ∈ dlookupD wd1 d []) ∧
      (∀ k, k ∉ ext → dlookup w1 k = dlookup w0 k) ∧
      (∀ x d, x ∈ dlookupD wd0 d [] → x ∈ dlookupD wd1 d []) := by
  intro ext
  induction ext with
  | nil =>
    intro w0 wd0 w1 wd1 h hnd
    simp only [efoldM] at h
    cases h
    exact ⟨by simp, fun k _ => rfl, fun x d hx => hx⟩
  | cons k0 ext' ih =>
    intro w0 wd0 w1 wd1 h hnd
    simp only [efoldM] at h
    cases hstep : us_frontier_step deps1 who_has (w0, wd0) k0 with
    | error e => rw [hstep] at h; exact absurd h (by simp)
    | ok wp' =>
      rw [hstep] at h
      obtain ⟨w0', wd0'⟩ := wp'
      rw [us_frontier_step] at hstep
      cases hds0 : dlookup deps1 k0 with
      | none => rw [hds0] at hstep; exact absurd hstep (by simp)
      | some ds0 =>
        rw [hds0] at hstep
        simp only at hstep
        have hw0' : w0' = dset w0 k0 (ds0.filter (fun d => !(in_memory_wh who_has d))) := by
          cases hstep; rfl
        have hwd0' : wd0' = (let wd1x := ds0.foldl (fun wd dep =>
            if dmem wd dep then dset wd dep (sadd (dlookupD wd dep []) k0)
            else dset wd dep (sadd [] k0)) wd0
          if dmem wd1x k0 then wd1x else dset wd1x k0 []) := by
          cases hstep; rfl
        have hnd' : ext'.Nodup := (List.nodup_cons.1 hnd).2
        have hk0notin : k0 ∉ ext' := (List.nodup_cons.1 hnd).1
        obtain ⟨A, B, C⟩ := ih w0' wd0' w1 wd1 h hnd'
        -- memberships established by the k0 step survive the empty-entry default
        have hwd0'mem : ∀ d ∈ ds0, k0 ∈ dlookupD wd0' d [] := by
          intro d hd
          rw [hwd0']
          simp only
          have hbase := (wd_add_fold (k := k0) ds0 wd0).1 d hd
          set wd1x := ds0.foldl (fun wd dep =>
            if dmem wd dep then dset wd dep (sadd (dlookupD wd dep []) k0)
            else dset wd dep (sadd [] k0)) wd0 with hwd1x
          by_cases hm : dmem wd1x k0 = true
          · rw [if_pos hm]; exact hbase
          · rw [if_neg hm]
            by_cases hdk : k0 = d
            · subst hdk
              exfalso
              rw [dlookupD] at hbase
              cases hl : dlookup wd1x k0 with
              | none => rw [hl] at hbase; simp at hbase
              | some l => rw [dmem_eq_isSome, hl] at hm; exact hm rfl
            · rw [dlookupD_dset_ne _ _ _ _ _ hdk]
              exact hbase
        have hwd0'pres : ∀ x d, x ∈ dlookupD wd0 d [] → x ∈ dlookupD wd0' d [] := by
          intro x d hx
          rw [hwd0']
          simp only
          have hbase := (wd_add_fold (k := k0) ds0 wd0).2 x d hx
          set wd1x := ds0.foldl (fun wd dep =>
            if dmem wd dep then dset wd dep (sadd (dlookupD wd dep []) k0)
            else dset wd dep (sadd [] k0)) wd0 with hwd1x
          by_cases hm : dmem wd1x k0 = true
          · rw [if_pos hm]; exact hbase
          · rw [if_neg hm]
            by_cases hdk : k0 = d
            · subst hdk
              exfalso
              rw [dlookupD] at hbase
              cases hl : dlookup wd1x k0 with
              | none => rw [hl] at hbase; simp at hbase
              | some l => rw [dmem_eq_isSome, hl] at hm; exact hm rfl
            · rw [dlookupD_dset_ne _ _ _ _ _ hdk]
              exact hbase
        refine ⟨?_, ?_, ?_⟩
        · intro k hk
          rcases List.mem_cons.1 hk with rfl | hk2
          · refine ⟨ds0, hds0, ?_, ?_⟩
            · rw [B k hk0notin, hw0', dlookup_dset_self]
            · intro d hd
              exact C k d (hwd0'mem d hd)
          · exact A k hk2
        · intro k hk
          have hk0 : ¬ k0 = k := fun h2 => hk (h2 ▸ List.mem_cons_self _ _)
          have hk2 : k ∉ ext' := fun h2 => hk (List.mem_cons_of_mem _ h2)
          rw [B k hk2, hw0', dlookup_dset_ne _ _ _ _ hk0]
        · intro x d hx
          exact C x d (hwd0'pres x d hx)

/-- C6: the exterior set computed during graph admission equals exactly the
keys reachable from the requested keys by reverse DFS through
`dependencies`, pruned at (and excluding) keys already in `in_play`; and
`update_state` gives every exterior key `k` the waiting set
`{d ∈ deps(k) : d not in memory}` and adds `k` to `waiting_data[d]` for each
dependency `d`, while keys outside the exterior get no new `waiting`
entry. -/
theorem claim_C6 :
    (∀ (dsk : Dict Key PyTask) (dependencies : Dict Key (List Key))
        (keys frontier R : List Key),
        keys_outside_frontier dsk dependencies keys frontier = .ok R →
        ∀ x, x ∈ R ↔ ReachOut dependencies keys frontier x) ∧
    (∀ (dsk new_dsk : Dict Key PyTask) (dependencies dependents : Dict Key (List Key))
        (held_data in_play new_keys : List Key) (who_has : Dict Key (List Worker))
        (waiting waiting_data : Dict Key (List Key)) (out : UpdateStateResult),
        update_state dsk dependencies dependents held_data who_has in_play waiting
          waiting_data new_dsk new_keys = .ok out →
        ∃ exterior,
          keys_outside_frontier (new_dsk.foldl (fun d p => dset d p.1 p.2) dsk)
            (us_derive (new_dsk.foldl (fun d p => dset d p.1 p.2) dsk) held_data new_dsk
              dependencies dependents).1 new_keys in_play = .ok exterior ∧
          (∀ x, x ∈ exterior ↔
            ReachOut (us_derive (new_dsk.foldl (fun d p => dset d p.1 p.2) dsk) held_data
              new_dsk dependencies dependents).1 new_keys in_play x) ∧
          (∀ k ∈ exterior, ∃ ds,
            dlookup (us_derive (new_dsk.foldl (fun d p => dset d p.1 p.2) dsk) held_data
              new_dsk dependencies dependents).1 k = some ds ∧
            dlookup out.waiting k = some (ds.filter (fun d => !(in_memory_wh who_has d))) ∧
            ∀ d ∈ ds, k ∈ dlookupD out.waiting_data d []) ∧
          (∀ k, k ∉ exterior → dlookup out.waiting k = dlookup waiting k) ∧
          out.in_play = sunion in_play exterior) := by
  constructor
  · intro dsk dependencies keys frontier R h x
    exact (keys_outside_frontier_spec h).1 x
  · intro dsk new_dsk dependencies dependents held_data in_play new_keys who_has
      waiting waiting_data out h
    rw [update_state] at h
    cases hkof : keys_outside_frontier (new_dsk.foldl (fun d p => dset d p.1 p.2) dsk)
        (us_derive (new_dsk.foldl (fun d p => dset d p.1 p.2) dsk) held_data new_dsk
          dependencies dependents).1 new_keys in_play with
    | error e => rw [hkof] at h; exact absurd h (by simp)
    | ok exterior =>
      rw [hkof] at h
      simp only at h
      cases hfold : efoldM (us_frontier_step
          (us_derive (new_dsk.foldl (fun d p => dset d p.1 p.2) dsk) held_data new_dsk
            dependencies dependents).1 who_has) (waiting, waiting_data) exterior with
      | error e => rw [hfold] at h; exact absurd h (by simp)
      | ok wp =>
        rw [hfold] at h
        obtain ⟨w1, wd1⟩ := wp
        cases h
        obtain ⟨hiff, hnd⟩ := keys_outside_frontier_spec hkof
        obtain ⟨hA, hB, hC⟩ := us_frontier_fold_spec exterior waiting waiting_data w1 wd1
          hfold hnd
        exact ⟨exterior, rfl, hiff, hA, hB, rfl⟩

/-- Witness for C6: in the docstring graph (`x,a,y,b,z` as `1..5`) with
frontier `{y,a}`, key `b` is reachable outside the frontier and `x` is
not. -/
theorem claim_C6_witness :
    ReachOut [(1, []), (2, []), (3, [1]), (4, [2]), (5, [4, 3])] [5, 4] [3, 2] 4 ∧
    ¬ ReachOut [(1, []), (2, []), (3, [1]), (4, [2]), (5, [4, 3])] [5, 4] [3, 2] 1 := by
  have h := claim_C6.1 [] [(1, []), (2, []), (3, [1]), (4, [2]), (5, [4, 3])]
    [5, 4] [3, 2] [5, 4] rfl
  constructor
  · exact (h 4).1 (by decide)
  · intro hr
    have h2 := (h 1).2 hr
    simp at h2

/- ======================= heal support lemmas ======================= -/

lemma mem_sadd_iff {α : Type} [DecidableEq α] {s : List α} {x y : α} :
    x ∈ sadd s y ↔ x ∈ s ∨ x = y := by
  constructor
  · exact mem_sadd
  · rintro (h | rfl)
    · exact mem_sadd_of_mem _ h
    · exact mem_sadd_self _ _

lemma pydedup_mem {α : Type} [DecidableEq α] {x : α} :
    ∀ {l : List α}, x ∈ pydedup l ↔ x ∈ l := by
  have haux : ∀ (l acc : List α), x ∈ l.foldl sadd acc ↔ x ∈ acc ∨ x ∈ l := by
    intro l
    induction l with
    | nil => intro acc; simp
    | cons y ys ih =>
      intro acc
      rw [List.foldl_cons, ih, mem_sadd_iff]
      simp only [List.mem_cons]
      tauto
  intro l
  rw [pydedup, haux]
  simp

lemma dlookup_none_iff {K V : Type} [DecidableEq K] {d : Dict K V} {k : K} :
    dlookup d k = none ↔ ∀ p ∈ d, p.1 ≠ k := by
  induction d with
  | nil => simp [dlookup]
  | cons p rest ih =>
    obtain ⟨k0, v0⟩ := p
    rw [dlookup]
    by_cases h0 : k0 = k
    · subst h0
      simp
    · rw [if_neg h0, ih]
      constructor
      · intro hall q hq
        rcases List.mem_cons.1 hq with rfl | hq2
        · exact h0
        · exact hall q hq2
      · intro hall q hq
        exact hall q (List.mem_cons_of_mem _ hq)

lemma efilterM_mem_true {α : Type} {p : α → M Bool} :
    ∀ {l r : List α}, efilterM p l = .ok r → ∀ x ∈ r, x ∈ l ∧ p x = .ok true := by
  intro l
  induction l with
  | nil => intro r h x hx; simp [efilterM] at h; subst h; simp at hx
  | cons y ys ih =>
    intro r h x hx
    simp only [efilterM] at h
    cases hy : p y with
    | error e => rw [hy] at h; exact absurd h (by simp)
    | ok b =>
      rw [hy] at h
      cases hrest : efilterM p ys with
      | error e => rw [hrest] at h; exact absurd h (by simp)
      | ok r' =>
        rw [hrest] at h
        have hr : r = if b then y :: r' else r' := by cases h; rfl
        subst hr
        cases b with
        | true =>
          simp only [if_true] at hx
          rcases List.mem_cons.1 hx with rfl | hx2
          · exact ⟨List.mem_cons_self _ _, hy⟩
          · obtain ⟨h1, h2⟩ := ih hrest x hx2
            exact ⟨List.mem_cons_of_mem _ h1, h2⟩
        | false =>
          simp only [Bool.false_eq_true, if_false] at hx
          obtain ⟨h1, h2⟩ := ih hrest x hx
          exact ⟨List.mem_cons_of_mem _ h1, h2⟩

lemma efilterM_eval {α : Type} {p : α → M Bool} :
    ∀ {l r : List α}, efilterM p l = .ok r → ∀ x ∈ l, ∃ b, p x = .ok b := by
  intro l
  induction l with
  | nil => intro r h x hx; simp at hx
  | cons y ys ih =>
    intro r h x hx
    simp only [efilterM] at h
    cases hy : p y with
    | error e => rw [hy] at h; exact absurd h (by simp)
    | ok b =>
      rw [hy] at h
      cases hrest : efilterM p ys with
      | error e => rw [hrest] at h; exact absurd h (by simp)
      | ok r' =>
        rcases List.mem_cons.1 hx with rfl | hx2
        · exact ⟨b, hy⟩
        · exact ih hrest x hx2

lemma efilterM_complete {α : Type} {p : α → M Bool} :
    ∀ {l r : List α}, efilterM p l = .ok r → ∀ x ∈ l, p x = .ok true → x ∈ r := by
  intro l
  induction l with
  | nil => intro r h x hx; simp at hx
  | cons y ys ih =>
    intro r h x hx hpx
    simp only [efilterM] at h
    cases hy : p y with
    | error e => rw [hy] at h; exact absurd h (by simp)
    | ok b =>
      rw [hy] at h
      cases hrest : efilterM p ys with
      | error e => rw [hrest] at h; exact absurd h (by simp)
      | ok r' =>
        rw [hrest] at h
        have hr : r = if b then y :: r' else r' := by cases h; rfl
        subst hr
        rcases List.mem_cons.1 hx with rfl | hx2
        · rw [hpx] at hy
          cases hy
          simp
        · have hx3 := ih hrest x hx2 hpx
          cases b with
          | true => exact List.mem_cons_of_mem _ hx3
          | false => simpa using hx3

lemma efilterM_all_false {α : Type} {p : α → M Bool} :
    ∀ {l : List α}, (∀ x ∈ l, p x = .ok false) → efilterM p l = .ok [] := by
  intro l
  induction l with
  | nil => intro h; rfl
  | cons y ys ih =>
    intro h
    simp only [efilterM]
    rw [h y (List.mem_cons_self _ _), ih (fun x hx => h x (List.mem_cons_of_mem _ hx))]
    rfl

lemma foldl_erase_subset {α : Type} [DecidableEq α] :
    ∀ (ks l : List α) (x : α), x ∈ ks.foldl List.erase l → x ∈ l := by
  intro ks
  induction ks with
  | nil => intro l x h; exact h
  | cons k0 rest ih =>
    intro l x h
    rw [List.foldl_cons] at h
    exact (List.erase_subset _ _) (ih _ x h)

lemma foldl_erase_not_mem {α : Type} [DecidableEq α] :
    ∀ (ks l : List α) (k : α), l.Nodup → k ∈ ks → k ∉ ks.foldl List.erase l := by
  intro ks
  induction ks with
  | nil => intro l k _ h; simp at h
  | cons k0 rest ih =>
    intro l k hnd hk
    rw [List.foldl_cons]
    rcases List.mem_cons.1 hk with rfl | hk2
    · intro hmem
      have h2 := foldl_erase_subset rest (l.erase k) k hmem
      rw [List.Nodup.mem_erase_iff hnd] at h2
      exact h2.1 rfl
    · exact ih (l.erase k0) k (List.Nodup.erase _ hnd) hk2

lemma foldl_erase_mem_of_not_mem {α : Type} [DecidableEq α] :
    ∀ (ks l : List α) (k : α), k ∈ l → k ∉ ks → k ∈ ks.foldl List.erase l := by
  intro ks
  induction ks with
  | nil => intro l k hk _; exact hk
  | cons k0 rest ih =>
    intro l k hk hnot
    rw [List.foldl_cons]
    have hne : k ≠ k0 := fun h => hnot (h ▸ List.mem_cons_self _ _)
    exact ih _ k ((List.mem_erase_of_ne hne).2 hk) (fun h => hnot (List.mem_cons_of_mem _ h))

lemma dlookup_derase_none {K V : Type} [DecidableEq K] {d : Dict K V} {x : K} (k : K)
    (h : dlookup d x = none) : dlookup (derase d k) x = none := by
  by_cases hk : k = x
  · subst hk; exact dlookup_derase_self _ _
  · rw [dlookup_derase_ne _ _ _ hk]; exact h

lemma delfold_success_prop {wl wl' : Dict Key (List Key)} {ks : List Key} :
    efoldM (fun wl k =>
      match dlookup wl k with
      | none => .ok wl
      | some v => if v.isEmpty then .ok (derase wl k) else .error .assertError) wl ks
      = .ok wl' →
    ∀ k ∈ ks, ∀ v, dlookup wl k = some v → v = [] := by
  induction ks generalizing wl with
  | nil => intro h k hk; simp at hk
  | cons k0 rest ih =>
    intro h k hk v hv
    simp only [efoldM] at h
    cases hl : dlookup wl k0 with
    | none =>
      rw [hl] at h
      simp only at h
      rcases List.mem_cons.1 hk with rfl | hk2
      · rw [hl] at hv; exact absurd hv (by simp)
      · exact ih h k hk2 v hv
    | some v0 =>
      rw [hl] at h
      simp only at h
      by_cases hv0 : v0.isEmpty = true
      · rw [if_pos hv0] at h
        simp only at h
        have hv0nil : v0 = [] := by
          cases v0 with
          | nil => rfl
          | cons a as => simp [List.isEmpty] at hv0
        rcases List.mem_cons.1 hk with rfl | hk2
        · rw [hl] at hv; cases hv; exact hv0nil
        · by_cases hkk : k0 = k
          · subst hkk; rw [hl] at hv; cases hv; exact hv0nil
          · exact ih h k hk2 v (by rw [dlookup_derase_ne wl k0 k hkk]; exact hv)
      · rw [if_neg hv0] at h
        exact absurd h (by simp)

lemma delfold_ok_eq {ks : List Key} :
    ∀ {wl : Dict Key (List Key)},
      (∀ k ∈ ks, ∀ v, dlookup wl k = some v → v = []) →
      efoldM (fun wl k =>
        match dlookup wl k with
        | none => .ok wl
        | some v => if v.isEmpty then .ok (derase wl k) else .error .assertError) wl ks
        = .ok (wl.filter (fun p => p.1 ∉ ks)) := by
  induction ks with
  | nil =>
    intro wl _
    simp only [efoldM]
    congr 1
    exact (List.filter_eq_self.2 (fun p _ => by simp)).symm
  | cons k0 rest ih =>
    intro wl hyp
    simp only [efoldM]
    cases hl : dlookup wl k0 with
    | none =>
      simp only
      have hres := ih (fun k hk v hv => hyp k (List.mem_cons_of_mem _ hk) v hv)
      rw [hres]
      congr 1
      refine List.filter_congr ?_
      intro p hp
      have hne : p.1 ≠ k0 := dlookup_none_iff.1 hl p hp
      simp only [List.mem_cons, decide_not]
      congr 1
      simp [hne]
    | some v0 =>
      have hv0 : v0 = [] := hyp k0 (List.mem_cons_self _ _) v0 hl
      subst hv0
      simp only [List.isEmpty_nil, if_true]
      have hyp' : ∀ k ∈ rest, ∀ v, dlookup (derase wl k0) k = some v → v = [] := by
        intro k hk v hv
        by_cases hkk : k0 = k
        · subst hkk; rw [dlookup_derase_self] at hv; exact absurd hv (by simp)
        · rw [dlookup_derase_ne _ _ _ hkk] at hv
          exact hyp k (List.mem_cons_of_mem _ hk) v hv
      have hres := ih hyp'
      rw [hres]
      congr 1
      rw [derase, List.filter_filter]
      refine List.filter_congr ?_
      intro p hp
      simp only [List.mem_cons, decide_not]
      by_cases h1 : p.1 = k0
      · simp [h1]
      · simp [h1]

lemma delfold_eq {wl wl' : Dict Key (List Key)} {ks : List Key}
    (h : efoldM (fun wl k =>
      match dlookup wl k with
      | none => .ok wl
      | some v => if v.isEmpty then .ok (derase wl k) else .error .assertError) wl ks
      = .ok wl') :
    wl' = wl.filter (fun p => p.1 ∉ ks) := by
  have h2 := delfold_ok_eq (delfold_success_prop h)
  rw [h] at h2
  cases h2
  rfl

lemma pair_map_eta {α β : Type} : ∀ (l : List (α × β)), l.map (fun p => (p.1, p.2)) = l := by
  intro l
  induction l with
  | nil => rfl
  | cons p rest ih => simp [ih]

lemma filter_not_mem_nil {α : Type} [DecidableEq α] (l : List α) :
    l.filter (fun k => k ∉ ([] : List α)) = l := by
  induction l with
  | nil => rfl
  | cons a as ih => simp [ih]

lemma mem_flatMap_pair {α β : Type} {l : List (α × List β)} {x : β} :
    x ∈ l.flatMap (fun p => p.2) ↔ ∃ p ∈ l, x ∈ p.2 := by
  induction l with
  | nil => simp
  | cons q rest ih =>
    simp only [List.flatMap_cons, List.mem_append, ih, List.mem_cons]
    constructor
    · rintro (h | ⟨p, hp, hx⟩)
      · exact ⟨q, Or.inl rfl, h⟩
      · exact ⟨p, Or.inr hp, hx⟩
    · rintro ⟨p, rfl | hp, hx⟩
      · exact Or.inl hx
      · exact Or.inr ⟨p, hp, hx⟩

/-- C4 (amended): on any state whose per-worker stacks carry no duplicated
key, a successful `heal` is idempotent — running it again on the state it
produced returns the same output — and its output satisfies
`validate_state`. -/
theorem claim_C4 :
    ∀ (dependencies dependents : Dict Key (List Key)) (in_memory : List Key)
      (stacks' processing : Dict Worker (List Key)) (w0 wd0 : Dict Key (List Key))
      (t : HealOutput),
      (∀ p ∈ stacks', p.2.Nodup) →
      heal dependencies dependents in_memory stacks' processing w0 wd0 = .ok t →
      heal t.dependencies t.dependents t.in_memory t.stacks' t.processing t.waiting
        t.waiting_data = .ok t ∧
      validate_state t.dependencies t.dependents t.waiting t.waiting_data t.in_memory
        t.stacks' t.processing (some t.finished_results) t.released t.in_play false
        = .ok () := by
  intro dependencies dependents in_memory stacks' processing w0 wd0 t hnd h
  rw [heal] at h
  cases hvis : heal_visit_loop dependencies in_memory
      (heal_visit_fuel dependencies ((dependents.filter (fun p => p.2.isEmpty)).map Prod.fst))
      ((dependents.filter (fun p => p.2.isEmpty)).map Prod.fst) [] with
  | error e => rw [hvis] at h; exact absurd h (by simp)
  | ok visited =>
    rw [hvis] at h
    simp only at h
    cases hwl : emapM (fun k =>
        match dlookup dependencies k with
        | none => .error .keyError
        | some ds => .ok (k, ds.filter (fun d => d ∉ in_memory)))
        (visited.filter (fun k => k ∉ in_memory)) with
    | error e => rw [hwl] at h; exact absurd h (by simp)
    | ok waitingList =>
      rw [hwl] at h
      simp only at h
      cases hef1 : efilterM (heal_unrunnable dependencies in_memory
          ((dkeys dependents).filter (fun k => k ∉ visited)) waitingList)
          (pydedup (stacks'.flatMap (fun p => p.2))) with
      | error e => rw [hef1] at h; exact absurd h (by simp)
      | ok unrStacks =>
        rw [hef1] at h
        simp only at h
        cases hef2 : efilterM (heal_unrunnable dependencies in_memory
            ((dkeys dependents).filter (fun k => k ∉ visited)) waitingList)
            (pydedup (processing.flatMap (fun p => p.2))) with
        | error e => rw [hef2] at h; exact absurd h (by simp)
        | ok unrProc =>
          rw [hef2] at h
          simp only at h
          cases hdel : efoldM (fun wl k =>
              match dlookup wl k with
              | none => .ok wl
              | some v => if v.isEmpty then .ok (derase wl k) else .error .assertError)
              waitingList
              ((pydedup (stacks'.flatMap (fun p => p.2))).filter (fun k => k ∉ unrStacks) ++
               (pydedup (processing.flatMap (fun p => p.2))).filter (fun k => k ∉ unrProc)) with
          | error e => rw [hdel] at h; exact absurd h (by simp)
          | ok waiting1 =>
            rw [hdel] at h
            simp only at h
            cases hval : validate_state dependencies dependents waiting1
                ((dependents.filter (fun p =>
                  p.1 ∉ (dkeys dependents).filter (fun k => k ∉ visited))).map
                  (fun p => (p.1, p.2.filter (fun dep =>
                    dep ∉ (dkeys dependents).filter (fun k => k ∉ visited) ∧
                    dep ∉ in_memory))))
                in_memory
                (stacks'.map (fun p => (p.1, unrStacks.foldl List.erase p.2)))
                (processing.map (fun p => (p.1, p.2.filter (fun k => k ∉ unrProc))))
                (some (((dependents.filter (fun p => p.2.isEmpty)).map Prod.fst).filter
                  (fun k => k ∈ in_memory)))
                ((dkeys dependents).filter (fun k => k ∉ visited))
                (sunion (sunion (sunion in_memory (dkeys waiting1))
                  ((processing.map (fun p => (p.1, p.2.filter (fun k => k ∉ unrProc)))).flatMap
                    (fun p => p.2)))
                  ((stacks'.map (fun p => (p.1, unrStacks.foldl List.erase p.2))).flatMap
                    (fun p => p.2)))
                false with
          | error e => rw [hval] at h; exact absurd h (by simp)
          | ok u =>
            cases u
            rw [hval] at h
            simp only at h
            rw [Except.ok.injEq] at h
            subst h
            dsimp only
            have hSsem : ∀ k q, q ∈ stacks' → k ∈ List.foldl List.erase q.2 unrStacks →
                k ∈ pydedup (stacks'.flatMap (fun p => p.2)) ∧ k ∉ unrStacks := by
              intro k q hq hkq
              refine ⟨?_, fun hkU =>
                foldl_erase_not_mem unrStacks q.2 k (hnd q hq) hkU hkq⟩
              rw [pydedup_mem, mem_flatMap_pair]
              exact ⟨q, hq, foldl_erase_subset _ _ _ hkq⟩
            have hPsem : ∀ k q, q ∈ processing → k ∈ q.2 →
                k ∈ pydedup (processing.flatMap (fun p => p.2)) := by
              intro k q hq hk
              rw [pydedup_mem, mem_flatMap_pair]
              exact ⟨q, hq, hk⟩
            rw [heal]
            rw [hvis]
            simp only
            rw [hwl]
            simp only
            have hef1' : efilterM (heal_unrunnable dependencies in_memory
                ((dkeys dependents).filter (fun k => k ∉ visited)) waitingList)
                (pydedup ((stacks'.map (fun p =>
                  (p.1, unrStacks.foldl List.erase p.2))).flatMap (fun p => p.2)))
                = .ok ([] : List Key) := by
              apply efilterM_all_false
              intro k hk
              rw [pydedup_mem, mem_flatMap_pair] at hk
              obtain ⟨p, hp, hkp⟩ := hk
              rw [List.mem_map] at hp
              obtain ⟨q, hq, rfl⟩ := hp
              dsimp only at hkp
              obtain ⟨hk1, hk2⟩ := hSsem k q hq hkp
              obtain ⟨b, hb⟩ := efilterM_eval hef1 k hk1
              cases b with
              | true => exact absurd (efilterM_complete hef1 k hk1 hb) hk2
              | false => exact hb
            rw [hef1']
            simp only
            have hef2' : efilterM (heal_unrunnable dependencies in_memory
                ((dkeys dependents).filter (fun k => k ∉ visited)) waitingList)
                (pydedup ((processing.map (fun p =>
                  (p.1, p.2.filter (fun k => k ∉ unrProc)))).flatMap (fun p => p.2)))
                = .ok ([] : List Key) := by
              apply efilterM_all_false
              intro k hk
              rw [pydedup_mem, mem_flatMap_pair] at hk
              obtain ⟨p, hp, hkp⟩ := hk
              rw [List.mem_map] at hp
              obtain ⟨q, hq, rfl⟩ := hp
              dsimp only at hkp
              rw [List.mem_filter] at hkp
              have hk2 : k ∉ unrProc := by simpa using hkp.2
              have hk1 := hPsem k q hq hkp.1
              obtain ⟨b, hb⟩ := efilterM_eval hef2 k hk1
              cases b with
              | true => exact absurd (efilterM_complete hef2 k hk1 hb) hk2
              | false => exact hb
            rw [hef2']
            simp only
            simp only [List.foldl_nil, filter_not_mem_nil, pair_map_eta]
            have hsurv : ∀ k,
                (k ∈ pydedup ((stacks'.map (fun p =>
                    (p.1, unrStacks.foldl List.erase p.2))).flatMap (fun p => p.2)) ++
                  pydedup ((processing.map (fun p =>
                    (p.1, p.2.filter (fun k => k ∉ unrProc)))).flatMap (fun p => p.2))) ↔
                (k ∈ (pydedup (stacks'.flatMap (fun p => p.2))).filter
                    (fun k => k ∉ unrStacks) ++
                  (pydedup (processing.flatMap (fun p => p.2))).filter
                    (fun k => k ∉ unrProc)) := by
              intro k
              simp only [List.mem_append, List.mem_filter, decide_not, Bool.not_eq_true',
                decide_eq_false_iff_not]
              constructor
              · rintro (hk | hk)
                · left
                  rw [pydedup_mem, mem_flatMap_pair] at hk
                  obtain ⟨p, hp, hkp⟩ := hk
                  rw [List.mem_map] at hp
                  obtain ⟨q, hq, rfl⟩ := hp
                  dsimp only at hkp
                  exact hSsem k q hq hkp
                · right
                  rw [pydedup_mem, mem_flatMap_pair] at hk
                  obtain ⟨p, hp, hkp⟩ := hk
                  rw [List.mem_map] at hp
                  obtain ⟨q, hq, rfl⟩ := hp
                  dsimp only at hkp
                  rw [List.mem_filter] at hkp
                  have hk2 : k ∉ unrProc := by simpa using hkp.2
                  exact ⟨hPsem k q hq hkp.1, hk2⟩
              · rintro (⟨hk1, hk2⟩ | ⟨hk1, hk2⟩)
                · left
                  rw [pydedup_mem, mem_flatMap_pair] at hk1 ⊢
                  obtain ⟨q, hq, hkq⟩ := hk1
                  refine ⟨_, List.mem_map_of_mem _ hq, ?_⟩
                  dsimp only
                  exact foldl_erase_mem_of_not_mem _ _ _ hkq hk2
                · right
                  rw [pydedup_mem, mem_flatMap_pair] at hk1 ⊢
                  obtain ⟨q, hq, hkq⟩ := hk1
                  refine ⟨_, List.mem_map_of_mem _ hq, ?_⟩
                  dsimp only
                  rw [List.mem_filter]
                  refine ⟨hkq, ?_⟩
                  simpa using hk2
            have hdel2 : efoldM (fun wl k =>
                match dlookup wl k with
                | none => .ok wl
                | some v => if v.isEmpty then .ok (derase wl k) else .error .assertError)
                waitingList
                (pydedup ((stacks'.map (fun p =>
                    (p.1, unrStacks.foldl List.erase p.2))).flatMap (fun p => p.2)) ++
                  pydedup ((processing.map (fun p =>
                    (p.1, p.2.filter (fun k => k ∉ unrProc)))).flatMap (fun p => p.2)))
                = .ok waiting1 := by
              rw [delfold_ok_eq (fun k hk v hv =>
                delfold_success_prop hdel k ((hsurv k).1 hk) v hv)]
              have hw1 := delfold_eq hdel
              have hcong : waitingList.filter (fun p =>
                  p.1 ∉ (pydedup ((stacks'.map (fun p =>
                    (p.1, unrStacks.foldl List.erase p.2))).flatMap (fun p => p.2)) ++
                  pydedup ((processing.map (fun p =>
                    (p.1, p.2.filter (fun k => k ∉ unrProc)))).flatMap (fun p => p.2))))
                  = waitingList.filter (fun p =>
                  p.1 ∉ ((pydedup (stacks'.flatMap (fun p => p.2))).filter
                      (fun k => k ∉ unrStacks) ++
                    (pydedup (processing.flatMap (fun p => p.2))).filter
                      (fun k => k ∉ unrProc))) := by
                apply List.filter_congr
                intro p _
                rw [decide_eq_decide]
                exact not_congr (hsurv p.1)
              rw [hcong, ← hw1]
            rw [hdel2]
            simp only
            rw [hval]
            simp only
            exact ⟨trivial, trivial⟩

/-- C4, counterexample to unconditional idempotence: with key 2 stacked twice on
the same worker (and unrunnable, since its dependent graph was dropped), the
first `heal` erases only one copy of 2 from the stack, the second erases the
other, so the second output differs from the first. -/
theorem claim_C4_counterexample :
    ∃ t t', heal [(1, []), (2, [])] [(2, [1]), (1, [])] [] [((0, 0), [2, 2])]
        [((0, 0), [])] [] [] = Except.ok t ∧
      heal t.dependencies t.dependents t.in_memory t.stacks' t.processing t.waiting
        t.waiting_data = Except.ok t' ∧ t' ≠ t :=
  ⟨{ keys := [1], dependencies := [(1, []), (2, [])], dependents := [(2, [1]), (1, [])],
     waiting := [(1, [])], waiting_data := [(1, [])], in_memory := [],
     processing := [((0, 0), [])], stacks' := [((0, 0), [2])], finished_results := [],
     released := [2], in_play := [1, 2] },
   { keys := [1], dependencies := [(1, []), (2, [])], dependents := [(2, [1]), (1, [])],
     waiting := [(1, [])], waiting_data := [(1, [])], in_memory := [],
     processing := [((0, 0), [])], stacks' := [((0, 0), [])], finished_results := [],
     released := [2], in_play := [1] },
   rfl, rfl, by decide⟩

/-- Witness for the amended C4 at the healthy three-task chain: its per-worker
stacks are duplicate-free, `heal` succeeds on it, and re-running `heal` on the
output reproduces it while `validate_state` accepts it. -/
theorem claim_C4_witness :
    heal healWitnessOut.dependencies healWitnessOut.dependents healWitnessOut.in_memory
      healWitnessOut.stacks' healWitnessOut.processing healWitnessOut.waiting
      healWitnessOut.waiting_data = Except.ok healWitnessOut ∧
    validate_state healWitnessOut.dependencies healWitnessOut.dependents
      healWitnessOut.waiting healWitnessOut.waiting_data healWitnessOut.in_memory
      healWitnessOut.stacks' healWitnessOut.processing (some healWitnessOut.finished_results)
      healWitnessOut.released healWitnessOut.in_play false = Except.ok () :=
  claim_C4 [(1, []), (2, [1]), (3, [2])] [(1, [2]), (2, [3]), (3, [])] [1] [((0, 0), [2])]
    [((0, 0), [])] [] [] healWitnessOut (by decide) (by rfl)

lemma foldl_dset_lookup_pres {K V : Type} [DecidableEq K] :
    ∀ (l : Dict K V) (d : Dict K V) (k : K), k ∉ l.map Prod.fst →
      dlookup (l.foldl (fun d q => dset d q.1 q.2) d) k = dlookup d k := by
  intro l
  induction l with
  | nil => intro d k _; rfl
  | cons q rest ih =>
    intro d k hk
    simp only [List.map_cons, List.mem_cons, not_or] at hk
    rw [List.foldl_cons, ih _ _ hk.2, dlookup_dset_ne _ _ _ _ (fun h => hk.1 h.symm)]

lemma foldl_dset_lookup {K V : Type} [DecidableEq K] :
    ∀ (l : Dict K V) (d : Dict K V), (l.map Prod.fst).Nodup →
      ∀ p ∈ l, dlookup (l.foldl (fun d q => dset d q.1 q.2) d) p.1 = some p.2 := by
  intro l
  induction l with
  | nil => intro d _ p hp; simp at hp
  | cons q rest ih =>
    intro d hnd p hp
    rw [List.map_cons, List.nodup_cons] at hnd
    rw [List.foldl_cons]
    rcases List.mem_cons.1 hp with rfl | hp2
    · rw [foldl_dset_lookup_pres rest _ _ hnd.1]
      exact dlookup_dset_self _ _ _
    · exact ih _ hnd.2 p hp2

lemma foldl_sadd_keys_incl {K V : Type} [DecidableEq K] :
    ∀ (l : List (K × V)) (s : List K) (x : K), x ∈ s →
      x ∈ l.foldl (fun t q => sadd t q.1) s := by
  intro l
  induction l with
  | nil => intro s x hx; exact hx
  | cons q rest ih =>
    intro s x hx
    rw [List.foldl_cons]
    exact ih _ x (mem_sadd_of_mem _ hx)

lemma foldl_sadd_keys_mem {K V : Type} [DecidableEq K] :
    ∀ (l : List (K × V)) (s : List K) (p : K × V), p ∈ l →
      p.1 ∈ l.foldl (fun t q => sadd t q.1) s := by
  intro l
  induction l with
  | nil => intro s p hp; simp at hp
  | cons q rest ih =>
    intro s p hp
    rw [List.foldl_cons]
    rcases List.mem_cons.1 hp with rfl | hp2
    · exact foldl_sadd_keys_incl rest _ _ (mem_sadd_self s p.1)
    · exact ih _ p hp2

lemma mkimCore_pres (key : Key) :
    ∀ (ws : List Worker) (s : SchedState),
      (mkimCore key ws s).dependents = s.dependents ∧
      (mkimCore key ws s).dependencies = s.dependencies ∧
      (mkimCore key ws s).reports = s.reports := by
  intro ws
  induction ws with
  | nil => intro s; exact ⟨rfl, rfl, rfl⟩
  | cons w rest ih =>
    intro s
    exact ih _

lemma mkimCore_mono (key : Key) :
    ∀ (ws : List Worker) (s : SchedState) (k : Key) (w : Worker),
      (w ∈ dlookupD s.who_has k [] → w ∈ dlookupD (mkimCore key ws s).who_has k []) ∧
      (k ∈ dlookupD s.has_what w [] → k ∈ dlookupD (mkimCore key ws s).has_what w []) := by
  intro ws
  induction ws with
  | nil => intro s k w; exact ⟨id, id⟩
  | cons w0 rest ih =>
    intro s k w
    have hstep := ih { s with
      who_has := dset s.who_has key (sadd (dlookupD s.who_has key []) w0),
      has_what := dset s.has_what w0 (sadd (dlookupD s.has_what w0 []) key),
      processing := match dlookup s.processing w0 with
                    | some pr => dset s.processing w0 (sdiscard pr key)
                    | none => s.processing } k w
    refine ⟨fun hin => hstep.1 ?_, fun hin => hstep.2 ?_⟩
    · dsimp only
      by_cases hk : key = k
      · subst hk
        rw [dlookupD_dset_self]
        exact mem_sadd_of_mem _ hin
      · rw [dlookupD_dset_ne _ _ _ _ _ hk]
        exact hin
    · dsimp only
      by_cases hw : w0 = w
      · subst hw
        rw [dlookupD_dset_self]
        exact mem_sadd_of_mem _ hin
      · rw [dlookupD_dset_ne _ _ _ _ _ hw]
        exact hin

lemma mkimCore_resident (key : Key) :
    ∀ (ws : List Worker) (s : SchedState) (w : Worker), w ∈ ws →
      w ∈ dlookupD (mkimCore key ws s).who_has key [] ∧
      key ∈ dlookupD (mkimCore key ws s).has_what w [] := by
  intro ws
  induction ws with
  | nil => intro s w hw; simp at hw
  | cons w0 rest ih =>
    intro s w hw
    rcases List.mem_cons.1 hw with rfl | hw2
    · have hmono := mkimCore_mono key rest { s with
        who_has := dset s.who_has key (sadd (dlookupD s.who_has key []) w),
        has_what := dset s.has_what w (sadd (dlookupD s.has_what w []) key),
        processing := match dlookup s.processing w with
                      | some pr => dset s.processing w (sdiscard pr key)
                      | none => s.processing } key w
      refine ⟨hmono.1 ?_, hmono.2 ?_⟩
      · dsimp only
        rw [dlookupD_dset_self]
        exact mem_sadd_self _ _
      · dsimp only
        rw [dlookupD_dset_self]
        exact mem_sadd_self _ _
    · exact ih _ w hw2

lemma mkim_nc (key : Key) (ws : List Worker) (s : SchedState)
    (h1 : dlookupD s.dependents key [] = [])
    (h2 : dlookupD s.dependencies key [] = []) :
    mark_key_in_memory key (some ws) s =
      .ok { mkimCore key ws s with
            reports := (mkimCore key ws s).reports ++ [.key_in_memory key ws] } := by
  rw [mark_key_in_memory]
  simp only
  rw [← mkimCore]
  rw [(mkimCore_pres key ws s).1, h1]
  simp only [ssort, efoldM]
  rw [(mkimCore_pres key ws s).2.1, h2]
  simp only [efoldM]
  rw [(mkimCore_pres key ws s).2.1, (mkimCore_pres key ws s).1]

lemma efoldM_establish {σ α : Type} {f : σ → α → M σ} {P : σ → Prop} {Q : α → σ → Prop} :
    ∀ {l : List α},
      (∀ st a st', a ∈ l → f st a = .ok st' → P st → P st') →
      (∀ st a st', a ∈ l → f st a = .ok st' → P st → Q a st') →
      (∀ st a st' b, a ∈ l → f st a = .ok st' → P st → Q b st → Q b st') →
      ∀ {s s' : σ}, efoldM f s l = .ok s' → P s → ∀ a ∈ l, Q a s' := by
  intro l
  induction l with
  | nil => intro _ _ _ s s' h _ a ha; simp at ha
  | cons x xs ih =>
    intro hP hQ hmono s s' h hp a ha
    simp only [efoldM] at h
    cases hx : f s x with
    | error e => rw [hx] at h; exact absurd h (by simp)
    | ok s1 =>
      rw [hx] at h
      rcases List.mem_cons.1 ha with rfl | ha2
      · have hq1 := hQ s a s1 (List.mem_cons_self _ _) hx hp
        have hp1 := hP s a s1 (List.mem_cons_self _ _) hx hp
        exact (efoldM_pres_mem (P := fun t => P t ∧ Q a t) (fun st b st' hb hstep hpq =>
          ⟨hP st b st' (List.mem_cons_of_mem _ hb) hstep hpq.1,
           hmono st b st' a (List.mem_cons_of_mem _ hb) hstep hpq.1 hpq.2⟩)
          h ⟨hp1, hq1⟩).2
      · exact ih (fun st b st' hb => hP st b st' (List.mem_cons_of_mem _ hb))
          (fun st b st' hb => hQ st b st' (List.mem_cons_of_mem _ hb))
          (fun st b st' c hb => hmono st b st' c (List.mem_cons_of_mem _ hb))
          h (hP s x s1 (List.mem_cons_self _ _) hx hp) a ha2

/-- C9: `update_data(who_has, nbytes)` adds every reported key to `held_data`
and to `in_play` (pinning externally provided data), records each reported byte
size in `nbytes`, and — when the reported keys have no dependents and no
dependencies to cascade into — leaves each key resident on every reported
worker in both `who_has` and `has_what`. -/
theorem claim_C9 (who_has_arg : Dict Key (List Worker)) (nbytes_arg : Dict Key Nat)
    (st st' : SchedState)
    (hnb : (dkeys nbytes_arg).Nodup)
    (h : update_data who_has_arg nbytes_arg st = .ok st') :
    (∀ p ∈ who_has_arg, p.1 ∈ st'.held_data ∧ p.1 ∈ st'.in_play) ∧
    (∀ p ∈ nbytes_arg, dlookup st'.nbytes p.1 = some p.2) ∧
    ((∀ p ∈ who_has_arg, dlookupD st.dependents p.1 [] = [] ∧
        dlookupD st.dependencies p.1 [] = []) →
      ∀ p ∈ who_has_arg, ∀ w ∈ p.2,
        w ∈ dlookupD st'.who_has p.1 [] ∧ p.1 ∈ dlookupD st'.has_what w []) := by
  rw [update_data] at h
  cases hfold : efoldM (fun st p => mark_key_in_memory p.1 (some p.2) st) st who_has_arg with
  | error e => rw [hfold] at h; exact absurd h (by simp)
  | ok s1 =>
    rw [hfold] at h
    simp only at h
    rw [Except.ok.injEq] at h
    subst h
    refine ⟨?_, ?_, ?_⟩
    · intro p hp
      exact ⟨foldl_sadd_keys_mem _ _ _ hp, foldl_sadd_keys_mem _ _ _ hp⟩
    · intro p hp
      exact foldl_dset_lookup _ _ hnb p hp
    · intro hnc p hp w hw
      have hres := efoldM_establish
        (P := fun t => t.dependents = st.dependents ∧ t.dependencies = st.dependencies)
        (Q := fun q t => ∀ w2 ∈ q.2,
          w2 ∈ dlookupD t.who_has q.1 [] ∧ q.1 ∈ dlookupD t.has_what w2 [])
        ?hP ?hQ ?hmono hfold ⟨rfl, rfl⟩ p hp w hw
      · exact hres
      case hP =>
        intro s q s2 hq hstep hps
        rw [mkim_nc q.1 q.2 s (by rw [hps.1]; exact (hnc q hq).1)
          (by rw [hps.2]; exact (hnc q hq).2)] at hstep
        rw [Except.ok.injEq] at hstep
        subst hstep
        refine ⟨?_, ?_⟩
        · show (mkimCore q.1 q.2 s).dependents = st.dependents
          rw [(mkimCore_pres q.1 q.2 s).1]
          exact hps.1
        · show (mkimCore q.1 q.2 s).dependencies = st.dependencies
          rw [(mkimCore_pres q.1 q.2 s).2.1]
          exact hps.2
      case hQ =>
        intro s q s2 hq hstep hps
        rw [mkim_nc q.1 q.2 s (by rw [hps.1]; exact (hnc q hq).1)
          (by rw [hps.2]; exact (hnc q hq).2)] at hstep
        rw [Except.ok.injEq] at hstep
        subst hstep
        intro w2 hw2
        exact mkimCore_resident q.1 q.2 s w2 hw2
      case hmono =>
        intro s q s2 b hq hstep hps hqb
        rw [mkim_nc q.1 q.2 s (by rw [hps.1]; exact (hnc q hq).1)
          (by rw [hps.2]; exact (hnc q hq).2)] at hstep
        rw [Except.ok.injEq] at hstep
        subst hstep
        intro w2 hw2
        exact ⟨(mkimCore_mono q.1 q.2 s b.1 w2).1 (hqb w2 hw2).1,
               (mkimCore_mono q.1 q.2 s b.1 w2).2 (hqb w2 hw2).2⟩

/-- Witness for C9: reporting key 5 on worker (0,0) with 100 bytes against the
empty state pins key 5 in `held_data` and `in_play`, records its size, and
leaves it resident in `who_has`/`has_what`. -/
theorem claim_C9_witness :
    (∀ p ∈ ([(5, [(0, 0)])] : Dict Key (List Worker)),
        p.1 ∈ updateDataWitnessOut.held_data ∧ p.1 ∈ updateDataWitnessOut.in_play) ∧
    (∀ p ∈ ([(5, 100)] : Dict Key Nat),
        dlookup updateDataWitnessOut.nbytes p.1 = some p.2) ∧
    ((∀ p ∈ ([(5, [(0, 0)])] : Dict Key (List Worker)),
        dlookupD initState.dependents p.1 [] = [] ∧
        dlookupD initState.dependencies p.1 [] = []) →
      ∀ p ∈ ([(5, [(0, 0)])] : Dict Key (List Worker)), ∀ w ∈ p.2,
        w ∈ dlookupD updateDataWitnessOut.who_has p.1 [] ∧
        p.1 ∈ dlookupD updateDataWitnessOut.has_what w []) :=
  claim_C9 [(5, [(0, 0)])] [(5, 100)] initState updateDataWitnessOut (by decide) (by rfl)

lemma amt_pop_loop_spec (dependencies : Dict Key (List Key))
    (restrictions : Dict Key (List Nat)) :
    ∀ (keys : List Key) (waiting : Dict Key (List Key)) (leaves ready : List Key)
      (out : Dict Key (List Key) × List Key × List Key),
      amt_pop_loop dependencies restrictions waiting leaves ready keys = .ok out →
      (∀ k ∈ keys, dlookup waiting k = some []) → keys.Nodup →
      out.1 = waiting.filter (fun p => p.1 ∉ keys) ∧
      out.2.1 = leaves ++ keys.filter (fun k => (dlookupD dependencies k []).isEmpty &&
        (dlookup restrictions k).isNone) ∧
      out.2.2 = ready ++ keys.filter (fun k => !((dlookupD dependencies k []).isEmpty &&
        (dlookup restrictions k).isNone)) := by
  intro keys
  induction keys with
  | nil =>
    intro waiting leaves ready out h _ _
    simp only [amt_pop_loop] at h
    rw [Except.ok.injEq] at h
    subst h
    refine ⟨?_, by simp, by simp⟩
    rw [eq_comm, List.filter_eq_self]
    intro p _
    simp
  | cons k ks ih =>
    intro waiting leaves ready out h hkeys hnd
    simp only [amt_pop_loop] at h
    rw [hkeys k (List.mem_cons_self _ _)] at h
    simp only [List.isEmpty_nil, if_true] at h
    rw [List.nodup_cons] at hnd
    cases hd : dlookup dependencies k with
    | none => rw [hd] at h; exact absurd h (by simp)
    | some ds =>
      rw [hd] at h
      simp only at h
      have hkeys2 : ∀ k2 ∈ ks, dlookup (derase waiting k) k2 = some [] := by
        intro k2 hk2
        rw [dlookup_derase_ne waiting k k2 (fun he => hnd.1 (he ▸ hk2))]
        exact hkeys k2 (List.mem_cons_of_mem _ hk2)
      have hder : ∀ (rest : List Key), (derase waiting k).filter (fun p => p.1 ∉ rest)
          = waiting.filter (fun p => p.1 ∉ k :: rest) := by
        intro rest
        rw [derase, List.filter_filter]
        apply List.filter_congr
        intro p _
        by_cases h1 : p.1 = k <;> by_cases h2 : p.1 ∈ rest <;>
          simp [h1, h2, List.mem_cons]
      have hcondP : ((dlookupD dependencies k []).isEmpty &&
          (dlookup restrictions k).isNone) = (decide (ds.isEmpty = true ∧
          (dlookup restrictions k).isNone = true)) := by
        rw [dlookupD, hd]
        cases ds <;> cases hdr : dlookup restrictions k <;> simp
      by_cases hc : ds = [] ∧ dlookup restrictions k = none
      · rw [if_pos ⟨by simp [hc.1], by simp [hc.2]⟩] at h
        obtain ⟨h1, h2, h3⟩ := ih (derase waiting k) (leaves ++ [k]) ready out h hkeys2 hnd.2
        refine ⟨?_, ?_, ?_⟩
        · rw [h1, hder]
        · rw [h2, List.filter_cons, hcondP]
          simp [hc, List.append_assoc]
        · rw [h3, List.filter_cons, hcondP]
          simp [hc]
      · rw [if_neg (fun hx : ds.isEmpty = true ∧ (dlookup restrictions k).isNone = true =>
          hc ⟨by simpa using hx.1, by simpa using hx.2⟩)] at h
        obtain ⟨h1, h2, h3⟩ := ih (derase waiting k) leaves (ready ++ [k]) out h hkeys2 hnd.2
        refine ⟨?_, ?_, ?_⟩
        · rw [h1, hder]
        · rw [h2, List.filter_cons, hcondP]
          simp [hc]
        · rw [h3, List.filter_cons, hcondP]
          simp [hc, List.append_assoc]

lemma amt_distribute_diff (leaves : List Key) (chunk : Nat) :
    ∀ (ws : List Worker) (i : Nat) (s0 n0 base : Dict Worker (List Key)),
      (∀ w, dlookupD s0 w [] = dlookupD base w [] ++ dlookupD n0 w []) →
      ∀ w, dlookupD (amt_distribute leaves chunk i ws s0 n0).1 w []
        = dlookupD base w [] ++ dlookupD (amt_distribute leaves chunk i ws s0 n0).2 w [] := by
  intro ws
  induction ws with
  | nil => intro i s0 n0 base hinv w; exact hinv w
  | cons w0 rest ih =>
    intro i s0 n0 base hinv w
    simp only [amt_distribute]
    apply ih
    intro w2
    by_cases hw : w0 = w2
    · subst hw
      rw [dlookupD_dset_self, dlookupD_dset_self, hinv w0, List.append_assoc]
    · rw [dlookupD_dset_ne _ _ _ _ _ hw, dlookupD_dset_ne _ _ _ _ _ hw]
      exact hinv w2

lemma amt_ready_loop_diff (dependencies : Dict Key (List Key))
    (who_has : Dict Key (List Worker)) (restrictions : Dict Key (List Nat))
    (loose_restrictions : List Key) (nbytes : Dict Key Nat) :
    ∀ (ks : List Key) (s0 n0 base : Dict Worker (List Key))
      (out : Dict Worker (List Key) × Dict Worker (List Key)),
      amt_ready_loop dependencies who_has restrictions loose_restrictions nbytes
        s0 n0 ks = .ok out →
      (∀ w, dlookupD s0 w [] = dlookupD base w [] ++ dlookupD n0 w []) →
      ∀ w, dlookupD out.1 w [] = dlookupD base w [] ++ dlookupD out.2 w [] := by
  intro ks
  induction ks with
  | nil =>
    intro s0 n0 base out h hinv w
    simp only [amt_ready_loop] at h
    rw [Except.ok.injEq] at h
    subst h
    exact hinv w
  | cons key rest ih =>
    intro s0 n0 base out h hinv w
    simp only [amt_ready_loop] at h
    cases hdw : decide_worker dependencies s0 who_has restrictions loose_restrictions
        nbytes key with
    | error e => rw [hdw] at h; exact absurd h (by simp)
    | ok worker =>
      rw [hdw] at h
      simp only at h
      refine ih _ _ base out h ?_ w
      intro w2
      by_cases hw : worker = w2
      · subst hw
        rw [dlookupD_dset_self, dlookupD_dset_self, hinv worker, List.append_assoc]
      · rw [dlookupD_dset_ne _ _ _ _ _ hw, dlookupD_dset_ne _ _ _ _ _ hw]
        exact hinv w2

/-- C8: on a success of `assign_many_tasks` for runnable keys (each with an
empty, distinct `waiting` entry), the keys are popped from `waiting`, the
round-robin offset advances by one, the keys with no dependencies and no
restriction are sorted by `keyorder` and dealt out in reversed contiguous
chunks of `ceil(|leaves|/|workers|)` over the worker list rotated by the old
offset, the remaining keys are routed one by one through `decide_worker`, and
the returned `new_stacks` is exactly the per-worker diff of the stacks. -/
theorem claim_C8
    (dependencies waiting : Dict Key (List Key)) (keyorder : Dict Key (Nat × Nat))
    (who_has : Dict Key (List Worker)) (stacks' : Dict Worker (List Key))
    (restrictions : Dict Key (List Nat)) (loose_restrictions : List Key)
    (nbytes : Dict Key Nat) (keys : List Key) (rr : Nat)
    (w1 : Dict Key (List Key)) (s2 n2 : Dict Worker (List Key)) (rr' : Nat)
    (hkeys : ∀ k ∈ keys, dlookup waiting k = some [])
    (hnd : keys.Nodup)
    (h : assign_many_tasks dependencies waiting keyorder who_has stacks' restrictions
      loose_restrictions nbytes keys rr = .ok (w1, s2, n2, rr')) :
    w1 = waiting.filter (fun p => p.1 ∉ keys) ∧
    rr' = rr + 1 ∧
    (amt_ready_loop dependencies who_has restrictions loose_restrictions nbytes
      (amt_distribute
        (ssort (fun a b => optPairLe (dlookup keyorder a) (dlookup keyorder b))
          (keys.filter (fun k => (dlookupD dependencies k []).isEmpty &&
            (dlookup restrictions k).isNone)))
        (((ssort (fun a b => optPairLe (dlookup keyorder a) (dlookup keyorder b))
          (keys.filter (fun k => (dlookupD dependencies k []).isEmpty &&
            (dlookup restrictions k).isNone))).length + ((dkeys stacks').drop (rr % (dkeys stacks').length) ++ (dkeys stacks').take (rr % (dkeys stacks').length)).length - 1) /
          ((dkeys stacks').drop (rr % (dkeys stacks').length) ++ (dkeys stacks').take (rr % (dkeys stacks').length)).length)
        0
        ((dkeys stacks').drop (rr % (dkeys stacks').length) ++
          (dkeys stacks').take (rr % (dkeys stacks').length))
        stacks' []).1
      (amt_distribute
        (ssort (fun a b => optPairLe (dlookup keyorder a) (dlookup keyorder b))
          (keys.filter (fun k => (dlookupD dependencies k []).isEmpty &&
            (dlookup restrictions k).isNone)))
        (((ssort (fun a b => optPairLe (dlookup keyorder a) (dlookup keyorder b))
          (keys.filter (fun k => (dlookupD dependencies k []).isEmpty &&
            (dlookup restrictions k).isNone))).length + ((dkeys stacks').drop (rr % (dkeys stacks').length) ++ (dkeys stacks').take (rr % (dkeys stacks').length)).length - 1) /
          ((dkeys stacks').drop (rr % (dkeys stacks').length) ++ (dkeys stacks').take (rr % (dkeys stacks').length)).length)
        0
        ((dkeys stacks').drop (rr % (dkeys stacks').length) ++
          (dkeys stacks').take (rr % (dkeys stacks').length))
        stacks' []).2
      (keys.filter (fun k => !((dlookupD dependencies k []).isEmpty &&
        (dlookup restrictions k).isNone))) = .ok (s2, n2)) ∧
    (∀ w, dlookupD s2 w [] = dlookupD stacks' w [] ++ dlookupD n2 w []) := by
  rw [assign_many_tasks] at h
  cases hpop : amt_pop_loop dependencies restrictions waiting [] [] keys with
  | error e => rw [hpop] at h; exact absurd h (by simp)
  | ok out =>
    obtain ⟨waiting1, leaves, ready⟩ := out
    rw [hpop] at h
    simp only at h
    obtain ⟨h1, h2, h3⟩ := amt_pop_loop_spec dependencies restrictions keys waiting [] []
      (waiting1, leaves, ready) hpop hkeys hnd
    simp only at h1 h2 h3
    rw [List.nil_append] at h2 h3
    cases hemp : stacks'.isEmpty with
    | true => rw [if_pos hemp] at h; exact absurd h (by simp)
    | false =>
      rw [if_neg (by rw [hemp]; exact Bool.false_ne_true)] at h
      subst h2
      subst h3
      cases hrl : amt_ready_loop dependencies who_has restrictions loose_restrictions
          nbytes
          (amt_distribute
            (ssort (fun a b => optPairLe (dlookup keyorder a) (dlookup keyorder b))
              (keys.filter (fun k => (dlookupD dependencies k []).isEmpty &&
                (dlookup restrictions k).isNone)))
            (((ssort (fun a b => optPairLe (dlookup keyorder a) (dlookup keyorder b))
              (keys.filter (fun k => (dlookupD dependencies k []).isEmpty &&
                (dlookup restrictions k).isNone))).length + ((dkeys stacks').drop (rr % (dkeys stacks').length) ++ (dkeys stacks').take (rr % (dkeys stacks').length)).length - 1) /
          ((dkeys stacks').drop (rr % (dkeys stacks').length) ++ (dkeys stacks').take (rr % (dkeys stacks').length)).length)
            0
            ((dkeys stacks').drop (rr % (dkeys stacks').length) ++
              (dkeys stacks').take (rr % (dkeys stacks').length))
            stacks' []).1
          (amt_distribute
            (ssort (fun a b => optPairLe (dlookup keyorder a) (dlookup keyorder b))
              (keys.filter (fun k => (dlookupD dependencies k []).isEmpty &&
                (dlookup restrictions k).isNone)))
            (((ssort (fun a b => optPairLe (dlookup keyorder a) (dlookup keyorder b))
              (keys.filter (fun k => (dlookupD dependencies k []).isEmpty &&
                (dlookup restrictions k).isNone))).length + ((dkeys stacks').drop (rr % (dkeys stacks').length) ++ (dkeys stacks').take (rr % (dkeys stacks').length)).length - 1) /
          ((dkeys stacks').drop (rr % (dkeys stacks').length) ++ (dkeys stacks').take (rr % (dkeys stacks').length)).length)
            0
            ((dkeys stacks').drop (rr % (dkeys stacks').length) ++
              (dkeys stacks').take (rr % (dkeys stacks').length))
            stacks' []).2
          (keys.filter (fun k => !((dlookupD dependencies k []).isEmpty &&
            (dlookup restrictions k).isNone))) with
      | error e => rw [hrl] at h; exact absurd h (by simp)
      | ok pr =>
        obtain ⟨ps, pn⟩ := pr
        rw [hrl] at h
        simp only at h
        rw [Except.ok.injEq, Prod.mk.injEq, Prod.mk.injEq, Prod.mk.injEq] at h
        obtain ⟨hw1, hs2, hn2, hrr⟩ := h
        subst hw1
        subst hs2
        subst hn2
        refine ⟨h1, hrr.symm, rfl, ?_⟩
        intro w
        refine amt_ready_loop_diff dependencies who_has restrictions loose_restrictions
          nbytes _ _ _ stacks' (ps, pn) hrl ?_ w
        intro w2
        exact amt_distribute_diff _ _ _ _ _ _ stacks'
          (fun w3 => by simp [dlookupD, dlookup]) w2

/-- Witness for C8: three runnable keys (two leaves, one ready key with a
dependency) over two idle workers; the waiting entries are popped, the offset
advances from 0 to 1, and the returned diff equals the whole added stack
content. -/
theorem claim_C8_witness :
    ([] : Dict Key (List Key)) =
      ([(1, []), (2, []), (3, [])] : Dict Key (List Key)).filter
        (fun p => p.1 ∉ ([1, 2, 3] : List Key)) ∧
    (1 : Nat) = 0 + 1 ∧
    (∀ w : Worker,
      dlookupD ([((0, 0), [1, 3]), ((1, 0), [2])] : Dict Worker (List Key)) w []
        = dlookupD ([((0, 0), []), ((1, 0), [])] : Dict Worker (List Key)) w [] ++
          dlookupD ([((0, 0), [1, 3]), ((1, 0), [2])] : Dict Worker (List Key)) w []) :=
  (fun h => ⟨h.1, h.2.1, h.2.2.2⟩)
    (claim_C8 [(1, []), (2, []), (3, [1])] [(1, []), (2, []), (3, [])]
      [(1, (0, 0)), (2, (0, 1)), (3, (0, 2))] [(1, [(0, 0)])]
      [((0, 0), []), ((1, 0), [])] [] [] [(1, 10)] [1, 2, 3] 0
      [] [((0, 0), [1, 3]), ((1, 0), [2])] [((0, 0), [1, 3]), ((1, 0), [2])] 1
      (by decide) (by decide) (by rfl))

lemma mem_sdiscard_iff {α : Type} [DecidableEq α] {s : List α} {x y : α} :
    x ∈ sdiscard s y ↔ x ∈ s ∧ x ≠ y := by
  rw [sdiscard, List.mem_filter]
  simp

lemma sdiscard_idem {α : Type} [DecidableEq α] (s : List α) (x : α) :
    sdiscard (sdiscard s x) x = sdiscard s x := by
  apply List.filter_eq_self.2
  intro a ha
  rw [mem_sdiscard_iff] at ha
  simp [ha.2]

lemma foldl_pres {σ α : Type} {step : σ → α → σ} {P : σ → Prop} :
    ∀ {l : List α}, (∀ st a, a ∈ l → P st → P (step st a)) →
      ∀ {s : σ}, P s → P (l.foldl step s) := by
  intro l
  induction l with
  | nil => intro _ s hp; exact hp
  | cons x xs ih =>
    intro hstep s hp
    rw [List.foldl_cons]
    exact ih (fun st a ha => hstep st a (List.mem_cons_of_mem _ ha))
      (hstep s x (List.mem_cons_self _ _) hp)

lemma eo_loop_dicts :
    ∀ (fuel : Nat) (w : Worker) (st st' : SchedState),
      ensure_occupied_loop fuel w st = .ok st' →
      st'.who_has = st.who_has ∧ st'.has_what = st.has_what := by
  intro fuel
  induction fuel with
  | zero =>
    intro w st st' h
    rw [ensure_occupied_loop] at h
    cases h
    exact ⟨rfl, rfl⟩
  | succ n ih =>
    intro w st st' h
    rw [ensure_occupied_loop] at h
    cases h1 : dlookup st.stacks' w with
    | none => rw [h1] at h; exact absurd h (by simp)
    | some stk =>
      rw [h1] at h
      simp only at h
      cases h2 : dlookup st.ncores w with
      | none => rw [h2] at h; exact absurd h (by simp)
      | some nc =>
        rw [h2] at h
        simp only at h
        cases h3 : dlookup st.processing w with
        | none => rw [h3] at h; exact absurd h (by simp)
        | some pr =>
          rw [h3] at h
          simp only at h
          by_cases h4 : (stk.isEmpty || !(decide (pr.length < nc))) = true
          · rw [if_pos h4] at h; cases h; exact ⟨rfl, rfl⟩
          · rw [if_neg h4] at h
            cases h5 : stk.getLast? with
            | none => rw [h5] at h; cases h; exact ⟨rfl, rfl⟩
            | some key =>
              rw [h5] at h
              simp only at h
              cases h6 : dlookup st.dask key with
              | none => rw [h6] at h; exact absurd h (by simp)
              | some t =>
                rw [h6] at h
                simp only at h
                cases h7 : dlookup st.dependencies key with
                | none => rw [h7] at h; exact absurd h (by simp)
                | some ds =>
                  rw [h7] at h
                  simp only at h
                  obtain ⟨ha, hb⟩ := ih w _ st' h
                  exact ⟨ha, hb⟩

lemma ensure_occupied_dicts {w : Worker} {st st' : SchedState}
    (h : ensure_occupied w st = .ok st') :
    st'.who_has = st.who_has ∧ st'.has_what = st.has_what :=
  eo_loop_dicts _ w st st' h

lemma mrtr_dicts {key : Key} {st st' : SchedState}
    (h : mark_ready_to_run key st = .ok st') :
    st'.who_has = st.who_has ∧ st'.has_what = st.has_what := by
  rw [mark_ready_to_run] at h
  cases h1 : dlookup st.waiting key with
  | none =>
    simp only [h1] at h
    cases h2 : decide_worker st.dependencies st.stacks' st.who_has st.restrictions
        st.loose_restrictions st.nbytes key with
    | error e => rw [h2] at h; exact absurd h (by simp)
    | ok w =>
      rw [h2] at h
      simp only at h
      cases h3 : dlookup st.stacks' w with
      | none => rw [h3] at h; exact absurd h (by simp)
      | some stk =>
        rw [h3] at h
        simp only at h
        obtain ⟨ha, hb⟩ := ensure_occupied_dicts h
        exact ⟨ha, hb⟩
  | some v =>
    simp only [h1] at h
    by_cases hv : v = []
    · rw [if_pos hv] at h
      simp only at h
      cases h2 : decide_worker st.dependencies st.stacks' st.who_has st.restrictions
          st.loose_restrictions st.nbytes key with
      | error e => rw [h2] at h; exact absurd h (by simp)
      | ok w =>
        rw [h2] at h
        simp only at h
        cases h3 : dlookup st.stacks' w with
        | none => rw [h3] at h; exact absurd h (by simp)
        | some stk =>
          rw [h3] at h
          simp only at h
          obtain ⟨ha, hb⟩ := ensure_occupied_dicts h
          exact ⟨ha, hb⟩
    · rw [if_neg hv] at h
      exact absurd h (by simp)

lemma seed_ready_tasks_dicts {keysArg : Option (List Key)} {st st' : SchedState}
    (h : seed_ready_tasks keysArg st = .ok st') :
    st'.who_has = st.who_has ∧ st'.has_what = st.has_what := by
  unfold seed_ready_tasks at h
  simp only at h
  cases h1 : assign_many_tasks st.dependencies st.waiting st.keyorder st.who_has
      st.stacks' st.restrictions st.loose_restrictions st.nbytes
      ((match keysArg with | some l => l | none => dkeys st.dask).filter
        (fun k => dlookup st.waiting k = some [])) st.rr_offset with
  | error e => rw [h1] at h; exact absurd h (by simp)
  | ok out =>
    obtain ⟨w1, s2, n2, rr'⟩ := out
    rw [h1] at h
    simp only at h
    have := efoldM_pres (P := fun t => t.who_has = st.who_has ∧ t.has_what = st.has_what)
      (fun t p t' hstep hp => by
        by_cases hc : p.2.isEmpty = true
        · rw [if_pos hc] at hstep; cases hstep; exact hp
        · rw [if_neg hc] at hstep
          obtain ⟨ha, hb⟩ := ensure_occupied_dicts hstep
          exact ⟨ha.trans hp.1, hb.trans hp.2⟩) h ⟨rfl, rfl⟩
    exact this

lemma transposeInv_mkimCore (key : Key) :
    ∀ (ws : List Worker) (s : SchedState),
      transposeInv s → transposeInv (mkimCore key ws s) := by
  intro ws
  induction ws with
  | nil => intro s hT; exact hT
  | cons w0 rest ih =>
    intro s hT
    apply ih
    intro k2 w2
    dsimp only
    by_cases hk : key = k2
    · subst hk
      rw [dlookupD_dset_self]
      by_cases hw : w0 = w2
      · subst hw
        rw [dlookupD_dset_self, mem_sadd_iff, mem_sadd_iff]
        constructor
        · rintro (hin | _)
          · exact Or.inl ((hT key w0).1 hin)
          · exact Or.inr rfl
        · rintro (hin | _)
          · exact Or.inl ((hT key w0).2 hin)
          · exact Or.inr rfl
      · rw [dlookupD_dset_ne _ _ _ _ _ hw, mem_sadd_iff]
        constructor
        · rintro (hin | rfl)
          · exact (hT key w2).1 hin
          · exact absurd rfl hw
        · intro hin
          exact Or.inl ((hT key w2).2 hin)
    · rw [dlookupD_dset_ne _ _ _ _ _ hk]
      by_cases hw : w0 = w2
      · subst hw
        rw [dlookupD_dset_self, mem_sadd_iff]
        constructor
        · intro hin
          exact Or.inl ((hT k2 w0).1 hin)
        · rintro (hin | rfl)
          · exact (hT k2 w0).2 hin
          · exact absurd rfl hk
      · rw [dlookupD_dset_ne _ _ _ _ _ hw]
        exact hT k2 w2

lemma dd_inner_spec (key : Key) :
    ∀ (ws : List Worker) (st s3 : SchedState),
      efoldM (fun s2 worker =>
        if key ∈ dlookupD s2.has_what worker [] then
          .ok { s2 with
                has_what := dset s2.has_what worker
                  (sdiscard (dlookupD s2.has_what worker []) key),
                deleted_keys := dset s2.deleted_keys worker
                  (sadd (dlookupD s2.deleted_keys worker []) key) }
        else .error .keyError) st ws = .ok s3 →
      s3.who_has = st.who_has ∧
      ∀ w2, dlookupD s3.has_what w2 []
        = if w2 ∈ ws then sdiscard (dlookupD st.has_what w2 []) key
          else dlookupD st.has_what w2 [] := by
  intro ws
  induction ws with
  | nil =>
    intro st s3 h
    simp only [efoldM] at h
    cases h
    refine ⟨rfl, fun w2 => ?_⟩
    rw [if_neg (List.not_mem_nil w2)]
  | cons w0 rest ih =>
    intro st s3 h
    simp only [efoldM] at h
    by_cases hc : key ∈ dlookupD st.has_what w0 []
    · rw [if_pos hc] at h
      simp only at h
      obtain ⟨h1, h2⟩ := ih _ s3 h
      refine ⟨h1, fun w2 => ?_⟩
      rw [h2 w2]
      by_cases hw2 : w2 ∈ rest
      · rw [if_pos hw2, if_pos (List.mem_cons_of_mem _ hw2)]
        by_cases he : w0 = w2
        · subst he
          rw [dlookupD_dset_self, sdiscard_idem]
        · rw [dlookupD_dset_ne _ _ _ _ _ he]
      · rw [if_neg hw2]
        by_cases he : w0 = w2
        · subst he
          rw [dlookupD_dset_self, if_pos (List.mem_cons_self _ _)]
        · rw [dlookupD_dset_ne _ _ _ _ _ he,
            if_neg (fun hx => (List.mem_cons.1 hx).elim (fun hx2 => he hx2.symm) hw2)]
    · rw [if_neg hc] at h
      exact absurd h (by simp)

lemma transposeInv_delete_data {keys : List Key} {s s' : SchedState}
    (h : delete_data keys s = .ok s') (hT : transposeInv s) : transposeInv s' := by
  rw [delete_data] at h
  refine efoldM_pres (P := transposeInv) (fun st key st' hstep hTst => ?_) h hT
  cases hinner : efoldM (fun s2 worker =>
      if key ∈ dlookupD s2.has_what worker [] then
        .ok { s2 with
              has_what := dset s2.has_what worker
                (sdiscard (dlookupD s2.has_what worker []) key),
              deleted_keys := dset s2.deleted_keys worker
                (sadd (dlookupD s2.deleted_keys worker []) key) }
      else .error .keyError) st (dlookupD st.who_has key []) with
  | error e => rw [hinner] at hstep; exact absurd hstep (by simp)
  | ok s3 =>
    rw [hinner] at hstep
    simp only at hstep
    cases hstep
    obtain ⟨hwh, hhw⟩ := dd_inner_spec key _ st s3 hinner
    intro k2 w2
    dsimp only
    rw [hhw w2]
    by_cases hk : key = k2
    · subst hk
      have hlhs : dlookupD (derase s3.who_has key) key [] = [] := by
        rw [dlookupD, dlookup_derase_self]
        rfl
      rw [hlhs]
      constructor
      · intro hmem
        simp at hmem
      · intro hmem
        by_cases hw2 : w2 ∈ dlookupD st.who_has key []
        · rw [if_pos hw2, mem_sdiscard_iff] at hmem
          exact absurd rfl hmem.2
        · rw [if_neg hw2] at hmem
          exact absurd ((hTst key w2).2 hmem) hw2
    · have hlhs : dlookupD (derase s3.who_has key) k2 []
          = dlookupD st.who_has k2 [] := by
        rw [dlookupD, dlookupD, dlookup_derase_ne _ _ _ hk, hwh]
      rw [hlhs]
      by_cases hw2 : w2 ∈ dlookupD st.who_has key []
      · rw [if_pos hw2, mem_sdiscard_iff]
        constructor
        · intro hmem
          exact ⟨(hTst k2 w2).1 hmem, fun he => hk he.symm⟩
        · intro hmem
          exact (hTst k2 w2).2 hmem.1
      · rw [if_neg hw2]
        exact hTst k2 w2

lemma transposeInv_of_fields {a b : SchedState} (h1 : b.who_has = a.who_has)
    (h2 : b.has_what = a.has_what) (hT : transposeInv a) : transposeInv b := by
  intro k w
  rw [h1, h2]
  exact hT k w

lemma transposeInv_mkim {key : Key} {wsArg : Option (List Worker)} {s s' : SchedState}
    (h : mark_key_in_memory key wsArg s = .ok s') (hT : transposeInv s) :
    transposeInv s' := by
  unfold mark_key_in_memory at h
  simp only at h
  split at h
  · exact absurd h (by simp)
  · next s2 hf1 =>
    split at h
    · exact absurd h (by simp)
    · next s3 hf2 =>
      rw [Except.ok.injEq] at h
      subst h
      have hstep1 : ∀ (st : SchedState) (dep : Key) (st' : SchedState),
          (match dlookup st.waiting dep with
           | none => (.ok st : M SchedState)
           | some sw =>
             let sw' := sdiscard sw key
             let st2 := { st with waiting := dset st.waiting dep sw' }
             if sw' = [] then mark_ready_to_run dep st2 else .ok st2) = .ok st' →
          transposeInv st → transposeInv st' := by
        intro st dep st' hstep hTst
        cases hd : dlookup st.waiting dep with
        | none => rw [hd] at hstep; cases hstep; exact hTst
        | some sw =>
          rw [hd] at hstep
          simp only at hstep
          by_cases hc : sdiscard sw key = []
          · rw [if_pos hc] at hstep
            obtain ⟨ha, hb⟩ := mrtr_dicts hstep
            exact transposeInv_of_fields ha hb hTst
          · rw [if_neg hc] at hstep
            cases hstep
            exact fun k w => hTst k w
      have hstep2 : ∀ (st : SchedState) (dep : Key) (st' : SchedState),
          (match dlookup st.waiting_data dep with
           | none => (.ok st : M SchedState)
           | some sw =>
             let sw' := sdiscard sw key
             let st2 := { st with waiting_data := dset st.waiting_data dep sw' }
             if sw' = [] ∧ dep ≠ 0 ∧ dep ∉ st2.held_data then delete_data [dep] st2
             else .ok st2) = .ok st' →
          transposeInv st → transposeInv st' := by
        intro st dep st' hstep hTst
        cases hd : dlookup st.waiting_data dep with
        | none => rw [hd] at hstep; cases hstep; exact hTst
        | some sw =>
          rw [hd] at hstep
          simp only at hstep
          split at hstep
          · exact transposeInv_delete_data hstep (fun k w => hTst k w)
          · cases hstep
            exact fun k w => hTst k w
      have hT2 : transposeInv s2 :=
        efoldM_pres (P := transposeInv) hstep1 hf1
          (transposeInv_mkimCore key _ s hT)
      have hT3 : transposeInv s3 :=
        efoldM_pres (P := transposeInv) hstep2 hf2 hT2
      exact fun k w => hT3 k w

lemma transposeInv_heal_state {s s' : SchedState} (h : heal_state s = .ok s')
    (hT : transposeInv s) : transposeInv s' := by
  unfold heal_state at h
  simp only at h
  split at h
  · exact absurd h (by simp)
  · next t hheal =>
    split at h
    · exact absurd h (by simp)
    · next s3 hmid =>
      split at h
      · exact absurd h (by simp)
      · next s4 hdd =>
        rw [Except.ok.injEq] at h
        subst h
        have hT3 : transposeInv s3 := by
          split at hmid
          · cases hmid
            exact fun k w => hT k w
          · exact efoldM_pres (P := transposeInv)
              (fun st k st' hstep hTst => by
                obtain ⟨ha, hb⟩ := mrtr_dicts hstep
                exact transposeInv_of_fields ha hb hTst) hmid (fun k w => hT k w)
        have hT4 := transposeInv_delete_data hdd hT3
        exact fun k w => hT4 k w

lemma dkeys_dset_mem {K V : Type} [DecidableEq K] :
    ∀ (d : Dict K V) (k : K) (v : V), dmem d k = true → dkeys (dset d k v) = dkeys d := by
  intro d
  induction d with
  | nil => intro k v h; simp [dmem, dlookup] at h
  | cons p rest ih =>
    intro k v h
    rw [dset]
    by_cases hk : p.1 = k
    · simp only [if_pos hk, dkeys, List.map_cons]
      rw [hk]
    · simp only [if_neg hk, dkeys, List.map_cons]
      rw [dmem, dlookup] at h
      rw [if_neg hk] at h
      have := ih k v h
      rw [dkeys] at this
      rw [this]
      rfl

lemma dlookup_filter_none {K V : Type} [DecidableEq K] {d : Dict K V} {k : K}
    (f : K × V → Bool) (h : dlookup d k = none) : dlookup (d.filter f) k = none := by
  rw [dlookup_none_iff] at h ⊢
  intro p hp
  exact h p (List.mem_filter.1 hp).1

lemma mem_dlookupD_filter_nonempty {d : Dict Key (List Worker)} :
    (dkeys d).Nodup → ∀ (k : Key) (w : Worker),
    (w ∈ dlookupD (d.filter (fun p => !p.2.isEmpty)) k [] ↔ w ∈ dlookupD d k []) := by
  induction d with
  | nil => intro _ k w; simp [dlookupD, dlookup]
  | cons p rest ih =>
    obtain ⟨k0, v0⟩ := p
    intro hnd k w
    rw [dkeys, List.map_cons, List.nodup_cons] at hnd
    by_cases hv : v0.isEmpty = true
    · have hpe : v0 = [] := by
        cases hp2 : v0 with
        | nil => rfl
        | cons a as => rw [hp2] at hv; simp at hv
      rw [List.filter_cons_of_neg (by simp [hv])]
      by_cases hk : k0 = k
      · subst hk
        have h1 : dlookup (rest.filter (fun p => !p.2.isEmpty)) k0 = none :=
          dlookup_filter_none _ (dlookup_none_iff.2 (fun q hq he =>
            hnd.1 (List.mem_map.2 ⟨q, hq, he⟩)))
        rw [dlookupD, h1]
        constructor
        · intro hm; simp at hm
        · intro hm
          simp [dlookupD, dlookup, hpe] at hm
      · simp only [dlookupD, dlookup, if_neg hk]
        exact ih hnd.2 k w
    · rw [List.filter_cons_of_pos (by simp [hv])]
      by_cases hk : k0 = k
      · simp only [dlookupD, dlookup, if_pos hk]
      · simp only [dlookupD, dlookup, if_neg hk]
        exact ih hnd.2 k w

lemma rw_inner_spec (address : Worker) :
    ∀ (keys : List Key) (st s2 : SchedState),
      efoldM (fun st k =>
        match sremove (dlookupD st.who_has k []) address with
        | .error e => .error e
        | .ok ws => .ok { st with who_has := dset st.who_has k ws }) st keys = .ok s2 →
      s2.has_what = st.has_what ∧
      dkeys s2.who_has = dkeys st.who_has ∧
      ∀ k2, dlookupD s2.who_has k2 []
        = if k2 ∈ keys then sdiscard (dlookupD st.who_has k2 []) address
          else dlookupD st.who_has k2 [] := by
  intro keys
  induction keys with
  | nil =>
    intro st s2 h
    simp only [efoldM] at h
    cases h
    exact ⟨rfl, rfl, fun k2 => by rw [if_neg (List.not_mem_nil k2)]⟩
  | cons k0 rest ih =>
    intro st s2 h
    simp only [efoldM] at h
    rw [sremove] at h
    by_cases hc : address ∈ dlookupD st.who_has k0 []
    · rw [if_pos hc] at h
      simp only at h
      obtain ⟨h1, h2, h3⟩ := ih _ s2 h
      have hmem : dmem st.who_has k0 = true := by
        rw [dmem]
        cases hl : dlookup st.who_has k0 with
        | none => rw [dlookupD, hl] at hc; simp at hc
        | some v => rfl
      refine ⟨h1, by rw [h2]; exact dkeys_dset_mem _ _ _ hmem, fun k2 => ?_⟩
      rw [h3 k2]
      by_cases hk2 : k2 ∈ rest
      · rw [if_pos hk2, if_pos (List.mem_cons_of_mem _ hk2)]
        by_cases he : k0 = k2
        · subst he
          rw [dlookupD_dset_self]
          exact sdiscard_idem _ _
        · rw [dlookupD_dset_ne _ _ _ _ _ he]
      · rw [if_neg hk2]
        by_cases he : k0 = k2
        · subst he
          rw [dlookupD_dset_self, if_pos (List.mem_cons_self _ _)]
          rfl
        · rw [dlookupD_dset_ne _ _ _ _ _ he,
            if_neg (fun hx => (List.mem_cons.1 hx).elim (fun hx2 => he hx2.symm) hk2)]
    · rw [if_neg hc] at h
      exact absurd h (by simp)

lemma transposeInv_remove_worker {address : Worker} {hf : Bool} {s s' : SchedState}
    (h : remove_worker address hf s = .ok s') (hT : transposeInv s)
    (hnd : (dkeys s.who_has).Nodup) : transposeInv s' := by
  unfold remove_worker at h
  split at h
  · cases h; exact hT
  · split at h
    · exact absurd h (by simp)
    · next keys hhw =>
      simp only at h
      split at h
      · exact absurd h (by simp)
      · split at h
        · exact absurd h (by simp)
        · split at h
          · exact absurd h (by simp)
          · split at h
            · exact absurd h (by simp)
            · split at h
              · exact absurd h (by simp)
              · next s2 hinner =>
                obtain ⟨hhw2, hkeys2, hwh2⟩ := rw_inner_spec address keys _ s2 hinner
                have hhw2' : s2.has_what = derase s.has_what address := hhw2
                have hkeys2' : dkeys s2.who_has = dkeys s.who_has := hkeys2
                have hwh2' : ∀ k2, dlookupD s2.who_has k2 []
                    = if k2 ∈ keys then sdiscard (dlookupD s.who_has k2 []) address
                      else dlookupD s.who_has k2 [] := hwh2
                have hnd2 : (dkeys s2.who_has).Nodup := by
                  rw [hkeys2']; exact hnd
                have hkeysd : dlookupD s.has_what address [] = keys := by
                  rw [dlookupD, hhw]; rfl
                have hTmem : ∀ (k2 : Key) (w2 : Worker),
                    (w2 ∈ dlookupD (s2.who_has.filter (fun p => !p.2.isEmpty)) k2 [] ↔
                     k2 ∈ dlookupD s2.has_what w2 []) := by
                  intro k2 w2
                  rw [mem_dlookupD_filter_nonempty hnd2 k2 w2, hwh2' k2, hhw2']
                  by_cases hw2 : address = w2
                  · subst hw2
                    have hrhs : dlookupD (derase s.has_what address) address [] = [] := by
                      rw [dlookupD, dlookup_derase_self]
                      rfl
                    rw [hrhs]
                    by_cases hk2 : k2 ∈ keys
                    · rw [if_pos hk2]
                      constructor
                      · intro hm
                        rw [mem_sdiscard_iff] at hm
                        exact absurd rfl hm.2
                      · intro hm; simp at hm
                    · rw [if_neg hk2]
                      constructor
                      · intro hm
                        exact absurd (by rw [← hkeysd]; exact (hT k2 address).1 hm) hk2
                      · intro hm; simp at hm
                  · have hrhs : dlookupD (derase s.has_what address) w2 []
                        = dlookupD s.has_what w2 [] := by
                      rw [dlookupD, dlookupD, dlookup_derase_ne _ _ _ hw2]
                    rw [hrhs]
                    by_cases hk2 : k2 ∈ keys
                    · rw [if_pos hk2, mem_sdiscard_iff]
                      constructor
                      · intro hm
                        exact (hT k2 w2).1 hm.1
                      · intro hm
                        exact ⟨(hT k2 w2).2 hm, fun he => hw2 he.symm⟩
                    · rw [if_neg hk2]
                      exact hT k2 w2
                split at h
                · exact transposeInv_heal_state h (fun k2 w2 => hTmem k2 w2)
                · cases h
                  exact fun k2 w2 => hTmem k2 w2

lemma mmd_inner_spec (k : Key) :
    ∀ (ws : List Worker) (st : SchedState), ws.Nodup →
      (∀ w ∈ ws, k ∈ dlookupD st.has_what w []) →
      (mmd_inner k ws st).who_has = st.who_has ∧
      ∀ w2, dlookupD (mmd_inner k ws st).has_what w2 []
        = if w2 ∈ ws then sdiscard (dlookupD st.has_what w2 []) k
          else dlookupD st.has_what w2 [] := by
  intro ws
  induction ws with
  | nil =>
    intro st _ _
    exact ⟨rfl, fun w2 => by rw [if_neg (List.not_mem_nil w2)]; rfl⟩
  | cons w0 rest ih =>
    intro st hnd hmem
    rw [List.nodup_cons] at hnd
    rw [mmd_inner, if_pos (hmem w0 (List.mem_cons_self _ _))]
    obtain ⟨h1, h2⟩ := ih { st with
        has_what := dset st.has_what w0 (sdiscard (dlookupD st.has_what w0 []) k) } hnd.2
      (fun w hw => by
        dsimp only
        rw [dlookupD_dset_ne _ _ _ _ _ (fun he => hnd.1 (by rw [he]; exact hw))]
        exact hmem w (List.mem_cons_of_mem _ hw))
    refine ⟨h1, fun w2 => ?_⟩
    rw [h2 w2]
    by_cases hw2 : w2 ∈ rest
    · rw [if_pos hw2, if_pos (List.mem_cons_of_mem _ hw2)]
      dsimp only
      rw [dlookupD_dset_ne _ _ _ _ _ (fun he => hnd.1 (by rw [he]; exact hw2))]
    · rw [if_neg hw2]
      dsimp only
      by_cases he : w0 = w2
      · subst he
        rw [dlookupD_dset_self, if_pos (List.mem_cons_self _ _)]
      · rw [dlookupD_dset_ne _ _ _ _ _ he,
          if_neg (fun hx => (List.mem_cons.1 hx).elim (fun hx2 => he hx2.symm) hw2)]

lemma mmd_pop_fold_P (missing : List Key) {s : SchedState}
    (hT : transposeInv s) (hvals : ∀ p ∈ s.who_has, p.2.Nodup) :
    transposeInv (missing.foldl (fun st k =>
      match dlookup st.who_has k with
      | none => st
      | some workers => mmd_inner k workers
          { st with who_has := derase st.who_has k }) s) ∧
    ∀ p ∈ (missing.foldl (fun st k =>
      match dlookup st.who_has k with
      | none => st
      | some workers => mmd_inner k workers
          { st with who_has := derase st.who_has k }) s).who_has, p.2.Nodup := by
  refine foldl_pres (P := fun st => transposeInv st ∧ ∀ p ∈ st.who_has, p.2.Nodup)
    (fun st k _ hP => ?_) ⟨hT, hvals⟩
  obtain ⟨hTst, hv⟩ := hP
  cases hl : dlookup st.who_has k with
  | none => exact ⟨hTst, hv⟩
  | some workers =>
    have hwk : dlookupD st.who_has k [] = workers := by rw [dlookupD, hl]; rfl
    have hndw : workers.Nodup := hv (k, workers) (dlookup_mem hl)
    have hpre : ∀ w ∈ workers, k ∈ dlookupD ({ st with
        who_has := derase st.who_has k } : SchedState).has_what w [] := by
      intro w hw
      exact (hTst k w).1 (by rw [hwk]; exact hw)
    obtain ⟨h1, h2⟩ := mmd_inner_spec k workers _ hndw hpre
    constructor
    · intro k2 w2
      rw [h2 w2, h1]
      dsimp only
      by_cases hk : k = k2
      · subst hk
        have hlhs : dlookupD (derase st.who_has k) k [] = [] := by
          rw [dlookupD, dlookup_derase_self]
          rfl
        rw [hlhs]
        constructor
        · intro hm; simp at hm
        · intro hm
          by_cases hw2 : w2 ∈ workers
          · rw [if_pos hw2, mem_sdiscard_iff] at hm
            exact absurd rfl hm.2
          · rw [if_neg hw2] at hm
            exact absurd (by rw [← hwk]; exact (hTst k w2).2 hm) hw2
      · have hlhs : dlookupD (derase st.who_has k) k2 []
            = dlookupD st.who_has k2 [] := by
          rw [dlookupD, dlookupD, dlookup_derase_ne _ _ _ hk]
        rw [hlhs]
        by_cases hw2 : w2 ∈ workers
        · rw [if_pos hw2, mem_sdiscard_iff]
          constructor
          · intro hm
            exact ⟨(hTst k2 w2).1 hm, fun he => hk he.symm⟩
          · intro hm
            exact (hTst k2 w2).2 hm.1
        · rw [if_neg hw2]
          exact hTst k2 w2
    · intro p hp
      rw [h1] at hp
      dsimp only at hp
      exact hv p ((List.mem_filter.1 hp).1)

lemma transposeInv_mark_missing_data {missingArg : List Key} {keyArg : Option Key}
    {workerArg : Option Worker} {s s' : SchedState}
    (h : mark_missing_data missingArg keyArg workerArg s = .ok s')
    (hT : transposeInv s) (hvals : ∀ p ∈ s.who_has, p.2.Nodup) :
    transposeInv s' := by
  unfold mark_missing_data at h
  simp only at h
  obtain ⟨hT1, -⟩ := mmd_pop_fold_P (pydedup missingArg) hT hvals
  split at h
  · exact absurd h (by simp)
  · next hm hhmd =>
    split at h
    · next key worker =>
      split at h
      · obtain ⟨ha, hb⟩ := seed_ready_tasks_dicts h
        exact transposeInv_of_fields ha hb (fun k w => hT1 k w)
      · split at h
        · exact absurd h (by simp)
        · next s5 heo =>
          obtain ⟨ha, hb⟩ := seed_ready_tasks_dicts h
          obtain ⟨hc, hd⟩ := ensure_occupied_dicts heo
          refine transposeInv_of_fields ha hb
            (transposeInv_of_fields hc hd
              (transposeInv_of_fields ?_ ?_ (fun k w => hT1 k w)))
          · split <;> rfl
          · split <;> rfl
    · next hne =>
      obtain ⟨ha, hb⟩ := seed_ready_tasks_dicts h
      exact transposeInv_of_fields ha hb (fun k w => hT1 k w)

/-- C7: the residency transpose invariant — `w ∈ who_has[k]` iff
`k ∈ has_what[w]` — is preserved by `mark_key_in_memory`, `delete_data`,
`remove_worker` (given duplicate-free `who_has` keys, as Python dicts
guarantee) and `mark_missing_data` (given duplicate-free `who_has` worker
sets, as Python sets guarantee). -/
theorem claim_C7 :
    (∀ (key : Key) (wsArg : Option (List Worker)) (st st' : SchedState),
      mark_key_in_memory key wsArg st = .ok st' → transposeInv st → transposeInv st') ∧
    (∀ (keys : List Key) (st st' : SchedState),
      delete_data keys st = .ok st' → transposeInv st → transposeInv st') ∧
    (∀ (address : Worker) (healFlag : Bool) (st st' : SchedState),
      remove_worker address healFlag st = .ok st' → transposeInv st →
      (dkeys st.who_has).Nodup → transposeInv st') ∧
    (∀ (missing : List Key) (keyArg : Option Key) (workerArg : Option Worker)
      (st st' : SchedState),
      mark_missing_data missing keyArg workerArg st = .ok st' → transposeInv st →
      (∀ p ∈ st.who_has, p.2.Nodup) → transposeInv st') :=
  ⟨fun _ _ _ _ h hT => transposeInv_mkim h hT,
   fun _ _ _ h hT => transposeInv_delete_data h hT,
   fun _ _ _ _ h hT hnd => transposeInv_remove_worker h hT hnd,
   fun _ _ _ _ _ h hT hv => transposeInv_mark_missing_data h hT hv⟩

/-- Witness for C7: marking key 5 in memory on worker (0,0) against the empty
scheduler state yields a state still satisfying the transpose invariant. -/
theorem claim_C7_witness :
    transposeInv (match mark_key_in_memory 5 (some [(0, 0)]) initState with
      | .ok t => t
      | .error _ => initState) :=
  claim_C7.1 5 (some [(0, 0)]) initState _ (by rfl)
    (fun k w => by
      show w ∈ dlookupD initState.who_has k [] ↔ k ∈ dlookupD initState.has_what w []
      simp [initState, dlookupD, dlookup])

lemma pb_of_fields {a b : SchedState} (h1 : b.processing = a.processing)
    (h2 : b.ncores = a.ncores) (hp : procBound a) : procBound b := by
  intro w pr nc hpr hnc
  rw [h1] at hpr
  rw [h2] at hnc
  exact hp w pr nc hpr hnc

lemma sadd_length_le {α : Type} [DecidableEq α] (s : List α) (x : α) :
    (sadd s x).length ≤ s.length + 1 := by
  rw [sadd]
  by_cases hx : x ∈ s
  · rw [if_pos hx]
    exact Nat.le_succ _
  · rw [if_neg hx, List.length_append]
    exact Nat.le_refl _

lemma sdiscard_length_le {α : Type} [DecidableEq α] (s : List α) (x : α) :
    (sdiscard s x).length ≤ s.length :=
  List.length_filter_le _ _

lemma pb_dset_value {s : SchedState} (hp : procBound s) (w : Worker) (v : List Key)
    (hv : ∀ nc, dlookup s.ncores w = some nc → v.length ≤ nc) {b : SchedState}
    (h1 : b.processing = dset s.processing w v) (h2 : b.ncores = s.ncores) :
    procBound b := by
  intro w2 pr nc hpr hnc
  rw [h1] at hpr
  rw [h2] at hnc
  by_cases hw : w = w2
  · subst hw
    rw [dlookup_dset_self] at hpr
    cases hpr
    exact hv nc hnc
  · rw [dlookup_dset_ne _ _ _ _ hw] at hpr
    exact hp w2 pr nc hpr hnc

lemma pb_derase_proc {s : SchedState} (hp : procBound s) (w : Worker) {b : SchedState}
    (h1 : b.processing = derase s.processing w) (h2 : b.ncores = s.ncores) :
    procBound b := by
  intro w2 pr nc hpr hnc
  rw [h1] at hpr
  rw [h2] at hnc
  by_cases hw : w = w2
  · subst hw
    rw [dlookup_derase_self] at hpr
    cases hpr
  · rw [dlookup_derase_ne _ _ _ hw] at hpr
    exact hp w2 pr nc hpr hnc

lemma pb_derase_both {s : SchedState} (hp : procBound s) (w : Worker) {b : SchedState}
    (h1 : b.processing = derase s.processing w) (h2 : b.ncores = derase s.ncores w) :
    procBound b := by
  intro w2 pr nc hpr hnc
  rw [h1] at hpr
  rw [h2] at hnc
  by_cases hw : w = w2
  · subst hw
    rw [dlookup_derase_self] at hpr
    cases hpr
  · rw [dlookup_derase_ne _ _ _ hw] at hpr
    rw [dlookup_derase_ne _ _ _ hw] at hnc
    exact hp w2 pr nc hpr hnc

lemma dlookup_mapv {K V : Type} [DecidableEq K] (g : V → V) :
    ∀ (d : Dict K V) (k : K),
      dlookup (d.map (fun p => (p.1, g p.2))) k = (dlookup d k).map g := by
  intro d
  induction d with
  | nil => intro k; rfl
  | cons p rest ih =>
    intro k
    obtain ⟨k0, v0⟩ := p
    simp only [List.map_cons, dlookup]
    by_cases hk : k0 = k
    · rw [if_pos hk, if_pos hk]
      rfl
    · rw [if_neg hk, if_neg hk]
      exact ih k

lemma eo_loop_pb :
    ∀ (fuel : Nat) (w : Worker) (st st' : SchedState),
      ensure_occupied_loop fuel w st = .ok st' → procBound st → procBound st' := by
  intro fuel
  induction fuel with
  | zero =>
    intro w st st' h hp
    rw [ensure_occupied_loop] at h
    cases h
    exact hp
  | succ n ih =>
    intro w st st' h hp
    rw [ensure_occupied_loop] at h
    cases h1 : dlookup st.stacks' w with
    | none => rw [h1] at h; exact absurd h (by simp)
    | some stk =>
      rw [h1] at h
      simp only at h
      cases h2 : dlookup st.ncores w with
      | none => rw [h2] at h; exact absurd h (by simp)
      | some nc =>
        rw [h2] at h
        simp only at h
        cases h3 : dlookup st.processing w with
        | none => rw [h3] at h; exact absurd h (by simp)
        | some pr =>
          rw [h3] at h
          simp only at h
          by_cases h4 : (stk.isEmpty || !(decide (pr.length < nc))) = true
          · rw [if_pos h4] at h; cases h; exact hp
          · rw [if_neg h4] at h
            have hlt : pr.length < nc := by
              simp only [Bool.or_eq_true, Bool.not_eq_true', decide_eq_false_iff_not,
                not_or, not_not] at h4
              exact h4.2
            cases h5 : stk.getLast? with
            | none => rw [h5] at h; cases h; exact hp
            | some key =>
              rw [h5] at h
              simp only at h
              cases h6 : dlookup st.dask key with
              | none => rw [h6] at h; exact absurd h (by simp)
              | some t =>
                rw [h6] at h
                simp only at h
                cases h7 : dlookup st.dependencies key with
                | none => rw [h7] at h; exact absurd h (by simp)
                | some ds =>
                  rw [h7] at h
                  simp only at h
                  refine ih w _ st' h ?_
                  refine pb_dset_value hp w (sadd pr key) ?_ rfl rfl
                  intro nc2 hnc2
                  rw [h2, Option.some.injEq] at hnc2
                  subst hnc2
                  exact le_trans (sadd_length_le _ _) hlt

lemma ensure_occupied_pb {w : Worker} {st st' : SchedState}
    (h : ensure_occupied w st = .ok st') (hp : procBound st) : procBound st' :=
  eo_loop_pb _ w st st' h hp

lemma mrtr_pb {key : Key} {st st' : SchedState}
    (h : mark_ready_to_run key st = .ok st') (hp : procBound st) : procBound st' := by
  rw [mark_ready_to_run] at h
  cases h1 : dlookup st.waiting key with
  | none =>
    simp only [h1] at h
    cases h2 : decide_worker st.dependencies st.stacks' st.who_has st.restrictions
        st.loose_restrictions st.nbytes key with
    | error e => rw [h2] at h; exact absurd h (by simp)
    | ok w =>
      rw [h2] at h
      simp only at h
      cases h3 : dlookup st.stacks' w with
      | none => rw [h3] at h; exact absurd h (by simp)
      | some stk =>
        rw [h3] at h
        simp only at h
        exact ensure_occupied_pb h (pb_of_fields rfl rfl hp)
  | some v =>
    simp only [h1] at h
    by_cases hv : v = []
    · rw [if_pos hv] at h
      simp only at h
      cases h2 : decide_worker st.dependencies st.stacks' st.who_has st.restrictions
          st.loose_restrictions st.nbytes key with
      | error e => rw [h2] at h; exact absurd h (by simp)
      | ok w =>
        rw [h2] at h
        simp only at h
        cases h3 : dlookup st.stacks' w with
        | none => rw [h3] at h; exact absurd h (by simp)
        | some stk =>
          rw [h3] at h
          simp only at h
          exact ensure_occupied_pb h (pb_of_fields rfl rfl hp)
    · rw [if_neg hv] at h
      exact absurd h (by simp)

lemma delete_data_pb {keys : List Key} {st st' : SchedState}
    (h : delete_data keys st = .ok st') (hp : procBound st) : procBound st' := by
  obtain ⟨-, h2, -, -, -, h6, -⟩ := delete_data_fields h
  exact pb_of_fields h2 h6 hp

lemma mkimCore_pb (key : Key) :
    ∀ (ws : List Worker) (s : SchedState), procBound s → procBound (mkimCore key ws s) := by
  intro ws
  induction ws with
  | nil => intro s hp; exact hp
  | cons w0 rest ih =>
    intro s hp
    apply ih
    cases hl : dlookup s.processing w0 with
    | none =>
      refine pb_of_fields ?_ ?_ hp
      · dsimp only
        rw [hl]
      · rfl
    | some pr =>
      refine pb_dset_value hp w0 (sdiscard pr key) ?_ ?_ rfl
      · intro nc hnc
        exact le_trans (sdiscard_length_le _ _) (hp w0 pr nc hl hnc)
      · dsimp only
        rw [hl]

lemma mkim_pb {key : Key} {wsArg : Option (List Worker)} {s s' : SchedState}
    (h : mark_key_in_memory key wsArg s = .ok s') (hp : procBound s) : procBound s' := by
  unfold mark_key_in_memory at h
  simp only at h
  split at h
  · exact absurd h (by simp)
  · next s2 hf1 =>
    split at h
    · exact absurd h (by simp)
    · next s3 hf2 =>
      rw [Except.ok.injEq] at h
      subst h
      have hp2 : procBound s2 := by
        refine efoldM_pres (P := procBound) (fun st dep st' hstep hpst => ?_) hf1
          (mkimCore_pb key _ s hp)
        cases hd : dlookup st.waiting dep with
        | none => rw [hd] at hstep; cases hstep; exact hpst
        | some sw =>
          rw [hd] at hstep
          simp only at hstep
          by_cases hc : sdiscard sw key = []
          · rw [if_pos hc] at hstep
            exact mrtr_pb hstep (pb_of_fields rfl rfl hpst)
          · rw [if_neg hc] at hstep
            cases hstep
            exact pb_of_fields rfl rfl hpst
      have hp3 : procBound s3 := by
        refine efoldM_pres (P := procBound) (fun st dep st' hstep hpst => ?_) hf2 hp2
        cases hd : dlookup st.waiting_data dep with
        | none => rw [hd] at hstep; cases hstep; exact hpst
        | some sw =>
          rw [hd] at hstep
          simp only at hstep
          split at hstep
          · exact delete_data_pb hstep (pb_of_fields rfl rfl hpst)
          · cases hstep
            exact pb_of_fields rfl rfl hpst
      exact pb_of_fields rfl rfl hp3

lemma mark_failed_procfields :
    ∀ (fuel : Nat) (key fk : Key) (st st' : SchedState),
      mark_failed fuel key fk st = .ok st' →
      st'.processing = st.processing ∧ st'.ncores = st.ncores := by
  intro fuel
  induction fuel with
  | zero =>
    intro key fk st st' h
    rw [mark_failed] at h
    exact absurd h (by simp)
  | succ n ih =>
    intro key fk st st' h
    rw [mark_failed] at h
    split at h
    · cases h; exact ⟨rfl, rfl⟩
    · split at h
      · next exc tb hexc =>
        simp only at h
        split at h
        · exact absurd h (by simp)
        · next ip hip =>
          split at h
          · exact absurd h (by simp)
          · next deps hdeps =>
            have := efoldM_pres (P := fun t =>
                t.processing = st.processing ∧ t.ncores = st.ncores)
              (fun t dep t' hstep hP => by
                obtain ⟨ha, hb⟩ := ih dep fk t t' hstep
                exact ⟨ha.trans hP.1, hb.trans hP.2⟩) h ⟨rfl, rfl⟩
            exact this
      · exact absurd h (by simp)

lemma mtf_pb {key : Key} {worker : Worker} {nb : Nat} {s s' : SchedState}
    (h : mark_task_finished key worker nb s = .ok s') (hp : procBound s) :
    procBound s' := by
  rw [mark_task_finished] at h
  split at h
  · exact absurd h (by simp)
  · split at h
    · split at h
      · exact absurd h (by simp)
      · next s2 hmk =>
        exact ensure_occupied_pb h (mkim_pb hmk (pb_of_fields rfl rfl hp))
    · cases h
      exact hp

lemma mte_pb {key : Key} {worker : Worker} {exc tb : Nat} {s s' : SchedState}
    (h : mark_task_erred key worker exc tb s = .ok s') (hp : procBound s) :
    procBound s' := by
  rw [mark_task_erred] at h
  split at h
  · exact absurd h (by simp)
  · next pr hpr =>
    split at h
    · next hin =>
      simp only at h
      split at h
      · exact absurd h (by simp)
      · next s2 hmf =>
        refine ensure_occupied_pb h ?_
        obtain ⟨ha, hb⟩ := mark_failed_procfields _ _ _ _ _ hmf
        refine pb_of_fields ha hb ?_
        refine pb_dset_value hp worker (sdiscard pr key) ?_ rfl rfl
        intro nc hnc
        exact le_trans (sdiscard_length_le _ _) (hp worker pr nc hpr hnc)
    · cases h
      exact hp

lemma seed_pb {keysArg : Option (List Key)} {st st' : SchedState}
    (h : seed_ready_tasks keysArg st = .ok st') (hp : procBound st) : procBound st' := by
  unfold seed_ready_tasks at h
  simp only at h
  split at h
  · exact absurd h (by simp)
  · next w1 s2 n2 rr hamt =>
    refine efoldM_pres (P := procBound) (fun t p t' hstep hpt => ?_) h
      (pb_of_fields rfl rfl hp)
    split at hstep
    · cases hstep; exact hpt
    · exact ensure_occupied_pb hstep hpt

lemma update_data_pb {wh : Dict Key (List Worker)} {nb : Dict Key Nat}
    {s s' : SchedState} (h : update_data wh nb s = .ok s') (hp : procBound s) :
    procBound s' := by
  rw [update_data] at h
  split at h
  · exact absurd h (by simp)
  · next s1 hfold =>
    rw [Except.ok.injEq] at h
    subst h
    refine pb_of_fields ?_ ?_ (efoldM_pres (P := procBound)
      (fun t p t' hstep hpt => mkim_pb hstep hpt) hfold hp) <;> rfl

lemma dlookup_map_filter (f : Key → Bool) :
    ∀ (d : Dict Worker (List Key)) (w : Worker),
      dlookup (d.map (fun p => (p.1, p.2.filter f))) w
        = (dlookup d w).map (fun v => v.filter f) := by
  intro d
  induction d with
  | nil => intro w; rfl
  | cons p rest ih =>
    intro w
    obtain ⟨w0, v0⟩ := p
    simp only [List.map_cons, dlookup]
    by_cases hw : w0 = w
    · rw [if_pos hw, if_pos hw]
      rfl
    · rw [if_neg hw, if_neg hw]
      exact ih w

lemma pb_mapfilter {s b : SchedState} (hp : procBound s) (f : Key → Bool)
    (h1 : b.processing = s.processing.map (fun p => (p.1, p.2.filter f)))
    (h2 : b.ncores = s.ncores) : procBound b := by
  intro w pr nc hpr hnc
  rw [h1, dlookup_map_filter f s.processing w] at hpr
  rw [h2] at hnc
  cases hl : dlookup s.processing w with
  | none => rw [hl] at hpr; exact absurd hpr (by simp)
  | some pr0 =>
    rw [hl] at hpr
    simp only [Option.map_some'] at hpr
    rw [Option.some.injEq] at hpr
    subst hpr
    exact le_trans (List.length_filter_le _ _) (hp w pr0 nc hl hnc)

lemma heal_processing_shape {deps depts : Dict Key (List Key)} {mem : List Key}
    {stk proc : Dict Worker (List Key)} {w wd : Dict Key (List Key)} {t : HealOutput}
    (h : heal deps depts mem stk proc w wd = .ok t) :
    ∃ unr : List Key,
      t.processing = proc.map (fun p => (p.1, p.2.filter (fun k => k ∉ unr))) := by
  rw [heal] at h
  split at h
  · exact absurd h (by simp)
  · split at h
    · exact absurd h (by simp)
    · simp only at h
      split at h
      · exact absurd h (by simp)
      · next unrStacks hef1 =>
        split at h
        · exact absurd h (by simp)
        · next unrProc hef2 =>
          split at h
          · exact absurd h (by simp)
          · split at h
            · exact absurd h (by simp)
            · rw [Except.ok.injEq] at h
              subst h
              exact ⟨unrProc, rfl⟩

lemma heal_state_pb {s s' : SchedState} (h : heal_state s = .ok s')
    (hp : procBound s) : procBound s' := by
  unfold heal_state at h
  simp only at h
  split at h
  · exact absurd h (by simp)
  · next t hheal =>
    split at h
    · exact absurd h (by simp)
    · next s3 hmid =>
      split at h
      · exact absurd h (by simp)
      · next s4 hdd =>
        rw [Except.ok.injEq] at h
        subst h
        obtain ⟨unr, hshape⟩ := heal_processing_shape hheal
        have hp3 : procBound s3 := by
          split at hmid
          · cases hmid
            exact pb_mapfilter hp _ hshape rfl
          · refine efoldM_pres (P := procBound)
              (fun st k st' hstep hpst => mrtr_pb hstep hpst) hmid ?_
            exact pb_mapfilter hp _ hshape rfl
        refine pb_of_fields ?_ ?_ (delete_data_pb hdd hp3) <;> rfl

lemma remove_worker_pb {address : Worker} {hf : Bool} {s s' : SchedState}
    (h : remove_worker address hf s = .ok s') (hp : procBound s) : procBound s' := by
  unfold remove_worker at h
  split at h
  · cases h; exact hp
  · split at h
    · exact absurd h (by simp)
    · next keys hhw =>
      simp only at h
      split at h
      · exact absurd h (by simp)
      · split at h
        · exact absurd h (by simp)
        · split at h
          · exact absurd h (by simp)
          · split at h
            · exact absurd h (by simp)
            · split at h
              · exact absurd h (by simp)
              · next s2 hinner =>
                have hfields := efoldM_pres (P := fun t =>
                    t.processing = derase s.processing address ∧
                    t.ncores = derase s.ncores address)
                  (fun t k t' hstep hP => by
                    split at hstep
                    · exact absurd hstep (by simp)
                    · cases hstep
                      exact hP) hinner ⟨rfl, rfl⟩
                have hp2 : procBound s2 :=
                  pb_derase_both hp address hfields.1 hfields.2
                split at h
                · refine heal_state_pb h ?_
                  refine pb_of_fields ?_ ?_ hp2 <;> rfl
                · cases h
                  refine pb_of_fields ?_ ?_ hp2 <;> rfl

lemma mmd_inner_procfields (k : Key) :
    ∀ (ws : List Worker) (st : SchedState),
      (mmd_inner k ws st).processing = st.processing ∧
      (mmd_inner k ws st).ncores = st.ncores := by
  intro ws
  induction ws with
  | nil => intro st; exact ⟨rfl, rfl⟩
  | cons w0 rest ih =>
    intro st
    rw [mmd_inner]
    split
    · exact ih _
    · exact ⟨rfl, rfl⟩

lemma release_held_data_pb {keys : List Key} {s s' : SchedState}
    (h : release_held_data keys s = .ok s') (hp : procBound s) : procBound s' := by
  unfold release_held_data at h
  simp only at h
  split at h
  · cases h; exact hp
  · split at h
    · cases h
      refine pb_of_fields ?_ ?_ hp <;> rfl
    · refine delete_data_pb h ?_
      refine pb_of_fields ?_ ?_ hp <;> rfl

lemma add_worker_pb {address : Worker} {keys : List Key} {nc np : Nat}
    {s s' : SchedState} (h : add_worker address keys nc np s = .ok s')
    (hp : procBound s)
    (hsafe : ∀ pr, dlookup s.processing address = some pr → pr.length ≤ nc) :
    procBound s' := by
  unfold add_worker at h
  simp only at h
  refine efoldM_pres (P := procBound) (fun t k t' hstep hpt => mkim_pb hstep hpt) h ?_
  split
  · intro w pr nc2 hpr hnc
    dsimp only at hpr hnc
    by_cases hw : address = w
    · subst hw
      rw [dlookup_dset_self] at hnc
      rw [Option.some.injEq] at hnc
      subst hnc
      exact hsafe pr hpr
    · rw [dlookup_dset_ne _ _ _ _ hw] at hnc
      exact hp w pr nc2 hpr hnc
  · intro w pr nc2 hpr hnc
    dsimp only at hpr hnc
    by_cases hw : address = w
    · subst hw
      rw [dlookup_dset_self] at hpr
      rw [Option.some.injEq] at hpr
      subst hpr
      exact Nat.zero_le _
    · rw [dlookup_dset_ne _ _ _ _ hw] at hpr
      rw [dlookup_dset_ne _ _ _ _ hw] at hnc
      exact hp w pr nc2 hpr hnc

lemma mmd_pop_pb (missing : List Key) {s : SchedState} (hp : procBound s) :
    procBound (missing.foldl (fun st k =>
      match dlookup st.who_has k with
      | none => st
      | some workers => mmd_inner k workers
          { st with who_has := derase st.who_has k }) s) := by
  have hf := @foldl_pres SchedState Key
    (fun st k =>
      match dlookup st.who_has k with
      | none => st
      | some workers => mmd_inner k workers
          { st with who_has := derase st.who_has k })
    (fun t => t.processing = s.processing ∧ t.ncores = s.ncores)
    missing
    (fun st k _ hP => by
      dsimp only
      split
      · exact hP
      · next workers heq =>
        obtain ⟨ha, hb⟩ := mmd_inner_procfields k workers _
        exact ⟨ha.trans hP.1, hb.trans hP.2⟩)
    s ⟨rfl, rfl⟩
  exact pb_of_fields hf.1 hf.2 hp

lemma mmd_pb {missingArg : List Key} {keyArg : Option Key} {workerArg : Option Worker}
    {s s' : SchedState} (h : mark_missing_data missingArg keyArg workerArg s = .ok s')
    (hp : procBound s) : procBound s' := by
  unfold mark_missing_data at h
  simp only at h
  split at h
  · exact absurd h (by simp)
  · next hm hhmd =>
    split at h
    · next key worker =>
      split at h
      · exact seed_pb h (pb_of_fields rfl rfl (mmd_pop_pb (pydedup missingArg) hp))
      · split at h
        · exact absurd h (by simp)
        · next s5 heo =>
          refine seed_pb h (ensure_occupied_pb heo ?_)
          split
          · next heq =>
            refine pb_of_fields ?_ ?_ (mmd_pop_pb (pydedup missingArg) hp) <;> rfl
          · next pr heq =>
            refine pb_dset_value
              (pb_of_fields rfl rfl (mmd_pop_pb (pydedup missingArg) hp)) worker
              (sdiscard pr key) ?_ ?_ ?_
            · intro nc hnc
              exact le_trans (sdiscard_length_le _ _)
                (pb_of_fields rfl rfl (mmd_pop_pb (pydedup missingArg) hp)
                  worker pr nc heq hnc)
            · rfl
            · rfl
    · exact seed_pb h (pb_of_fields rfl rfl (mmd_pop_pb (pydedup missingArg) hp))

lemma update_graph_pb {dskArg : Dict Key PyTask} {keysArg : List Key}
    {restrictionsArg : Dict Key (List Nat)} {looseArg : List Key}
    {ko : Dict Key Nat} {s s' : SchedState}
    (h : update_graph dskArg keysArg restrictionsArg looseArg ko s = .ok s')
    (hp : procBound s) : procBound s' := by
  unfold update_graph at h
  simp only at h
  split at h
  · exact absurd h (by simp)
  · next u hus =>
    split at h
    · exact absurd h (by simp)
    · next dask2 hca =>
      split at h
      · exact absurd h (by simp)
      · next s7 hmf =>
        split at h
        · exact absurd h (by simp)
        · next s8 hseed =>
          refine efoldM_pres (P := procBound) (fun t k t' hstep hpt => ?_) h
            (seed_pb hseed ?_)
          · split at hstep
            · cases hstep; exact hpt
            · exact mkim_pb hstep hpt
          · refine efoldM_pres (P := procBound) (fun t k t' hstep hpt => ?_) hmf ?_
            · split at hstep
              · exact absurd hstep (by simp)
              · next ds hds =>
                refine efoldM_pres (P := procBound)
                  (fun t2 dep t2' hstep2 hpt2 => ?_) hstep hpt
                split at hstep2
                · cases hstep2; exact hpt2
                · next blame hblame =>
                  obtain ⟨ha, hb⟩ := mark_failed_procfields _ _ _ _ _ hstep2
                  exact pb_of_fields ha hb hpt2
            · refine pb_of_fields ?_ ?_ hp
              · split
                · split
                  · split
                    · rfl
                    · rfl
                  · split
                    · rfl
                    · rfl
                · split
                  · split
                    · rfl
                    · rfl
                  · split
                    · rfl
                    · rfl
              · split
                · split
                  · split
                    · rfl
                    · rfl
                  · split
                    · rfl
                    · rfl
                · split
                  · split
                    · rfl
                    · rfl
                  · split
                    · rfl
                    · rfl

/-- C10 (amended): every scheduler event preserves the per-worker core bound
`|processing[w]| <= ncores[w]`, provided that an `add_worker` event does not
re-register a worker with fewer cores than it has running tasks. -/
theorem claim_C10 :
    ∀ (e : SchedEvent) (s s' : SchedState),
      applyEvent e s = .ok s' → procBound s → eventSafe e s → procBound s' := by
  intro e s s' h hp hsafe
  cases e with
  | awEv a ks nc np => exact add_worker_pb h hp hsafe
  | rwEv a hf => exact remove_worker_pb h hp
  | udEv wh nb => exact update_data_pb h hp
  | ugEv dsk ks restr loose ko => exact update_graph_pb h hp
  | rhdEv ks => exact release_held_data_pb h hp
  | ddEv ks => exact delete_data_pb h hp
  | mmdEv m k w => exact mmd_pb h hp
  | mteEv k w e2 t => exact mte_pb h hp
  | mtfEv k w nb => exact mtf_pb h hp
  | mkimEv k ws => exact mkim_pb h hp
  | hsEv => exact heal_state_pb h hp

/-- C10 counterexample: the bound `|processing[w]| <= ncores[w]` is not an
invariant of all reachable states — a worker that re-registers with fewer
cores than it has running tasks (here 1 core under 2 running tasks) violates
it, because `add_worker` overwrites `ncores` unconditionally but resets
`processing` only for unknown addresses. -/
theorem claim_C10_counterexample :
    ∃ t : SchedState, Reachable t ∧ ¬ procBound t :=
  ⟨c10s3,
   Reachable.step (.awEv (0, 0) [] 1 0)
     (Reachable.step (.ugEv [(1, .lit 10), (2, .lit 20)] [1, 2] [] [] [(1, 0), (2, 1)])
       (Reachable.step (.awEv (0, 0) [] 2 0) Reachable.init
         (rfl : applyEvent (.awEv (0, 0) [] 2 0) initState = .ok c10s1))
       (rfl : applyEvent
         (.ugEv [(1, .lit 10), (2, .lit 20)] [1, 2] [] [] [(1, 0), (2, 1)]) c10s1
         = .ok c10s2))
     (rfl : applyEvent (.awEv (0, 0) [] 1 0) c10s2 = .ok c10s3),
   fun hpb => absurd (hpb (0, 0) [1, 2] 1 rfl rfl) (by decide)⟩

/-- Witness for the amended C10: registering a fresh two-core worker against
the empty state is a safe event and keeps the core bound. -/
theorem claim_C10_witness : procBound c10s1 :=
  claim_C10 (.awEv (0, 0) [] 2 0) initState c10s1 (by rfl)
    (fun w pr nc hpr _ => by simp [initState, dlookup] at hpr)
    (fun pr hpr => by simp [initState, dlookup] at hpr)
